import Mathlib

/-!
The program `transcript.js`: a verification development.

Shallow embedding of `src/transcript.js` (the id extractor `extractVideoId`,
the cue parser `vttToSegments` with its inner `toMs`, the track selector
`chooseTrack`, the download helper `downloadVtt` and the request `handler`)
and theorems about them.

Modelling conventions.
* A JavaScript string is a list of characters (`Str`).
* A JavaScript number is an IEEE-754 double; the parser only computes
  integers, infinities and `NaN`, which `JsNum` represents exactly, with
  rounding to the nearest double after each operation.
* A regular expression is the function that computes its leftmost match.
* `Array.prototype.sort` is a stable sort driven by the comparator, as
  ECMAScript requires.
* The platform's `new URL(input)` is a parameter of `extractVideoId`: the
  theorems hold for every parser.
* A thrown `Error` is returned as its message (`Except.error`).
* The network is a parameter of `handler` and its helpers (`Runtime`).
-/

namespace Transcript

/-- JavaScript strings, as lists of characters. -/
abbrev Str := List Char

/-! ## Strings -/

/-- Embeds `String.prototype.toLowerCase`, on the ASCII letters (language codes and
the words matched by the source are ASCII). -/
def toLowerCase (s : Str) : Str := s.map Char.toLower

/-- Embeds `s.startsWith(p)`. -/
def startsWith (s p : Str) : Bool := p.isPrefixOf s

/-- Embeds `s.includes(p)`: `p` occurs in `s` as a contiguous block. -/
def includes : Str → Str → Bool
  | [], p => p.isEmpty
  | c :: cs, p => p.isPrefixOf (c :: cs) || includes cs p

/-! ## Track selection (`chooseTrack`, lines 79-87) -/

/-- A caption track as the upstream response supplies it; `languageCode` and
`kind` may be absent. -/
structure Track where
  languageCode : Option Str
  kind : Option Str
  baseUrl : Str
deriving DecidableEq, Repr

/-- Embeds `Array.prototype.findIndex`: the index of the first element satisfying
`p`, or `-1`. -/
def findIndex {α : Type} (p : α → Bool) : List α → Int
  | [] => -1
  | a :: as => if p a then 0 else
      (if findIndex p as = -1 then -1 else findIndex p as + 1)

/-- The inner function `pref` of `chooseTrack`. -/
def pref (langs : List Str) (t : Track) : Int :=
  let lang := toLowerCase (t.languageCode.getD [])
  let asr := decide (t.kind = some "asr".toList)
  let rank := findIndex (fun l => startsWith lang l) langs
  (if asr then 10 else 0) + (if rank = -1 then 5 else rank)

/-- Insertion of `a` into a list sorted by `cmp`, in front of the first
element it does not have to follow (`cmp a b ≤ 0`). -/
def insertSorted {α : Type} (cmp : α → α → Int) (a : α) : List α → List α
  | [] => [a]
  | b :: l => if cmp a b ≤ 0 then a :: b :: l else b :: insertSorted cmp a l

/-- Embeds `Array.prototype.sort(cmp)`: a stable sort by the comparator. -/
def jsSort {α : Type} (cmp : α → α → Int) : List α → List α
  | [] => []
  | a :: l => insertSorted cmp a (jsSort cmp l)

/-- Embeds `chooseTrack(tracks, langs)`; `none` is the `undefined` that indexing an
empty array gives. -/
def chooseTrack (tracks : List Track) (langs : List Str) : Option Track :=
  (jsSort (fun a b => pref langs a - pref langs b) tracks).head?

/-- Index of the first element satisfying `p`, when there is one. -/
def firstIndex? {α : Type} (p : α → Bool) : List α → Option Nat
  | [] => none
  | a :: as => if p a then some 0 else (firstIndex? p as).map (· + 1)

/-- The rank score in the words of the specification: 10 for an `asr` track,
plus the index of the first preferred language that is a prefix of the
lower-cased language code, or 5 when none is. -/
def score (langs : List Str) (t : Track) : Nat :=
  (if t.kind = some "asr".toList then 10 else 0) +
    (match firstIndex? (fun l => l.isPrefixOf (toLowerCase (t.languageCode.getD []))) langs with
     | some i => i
     | none => 5)

/-- Tracks of the example in the specification. -/
def enManual : Track := ⟨some "en".toList, none, "https://e/en".toList⟩
/-- Second track of the example. -/
def esManual : Track := ⟨some "es".toList, none, "https://e/es".toList⟩
/-- Third track of the example. -/
def esAsr : Track := ⟨some "es".toList, some "asr".toList, "https://e/es-asr".toList⟩

/-! ## Video id extraction (`extractVideoId`, lines 18-36) -/

/-- The parts of a parsed `URL` object the source reads. -/
structure URL where
  hostname : Str
  pathname : Str
  searchParams : List (Str × Str)
deriving DecidableEq, Repr

/-- The regular-expression class `\w`. -/
def isWordChar (c : Char) : Bool := c.isAlphanum || c == '_'

/-- The test `/^[\w-]{11}$/`: eleven characters, each a word character or a
hyphen. -/
def isBareId (s : Str) : Bool :=
  s.length == 11 && s.all (fun c => isWordChar c || c == '-')

/-- Embeds `s.split(sep)` for a one-character separator. -/
def splitOn (sep : Char) : Str → List Str
  | [] => [[]]
  | c :: cs =>
    if c = sep then [] :: splitOn sep cs
    else match splitOn sep cs with
      | l :: ls => (c :: l) :: ls
      | [] => [[c]]

/-- Embeds `u.pathname.split('/').filter(Boolean)`: the non-empty path segments. -/
def pathParts (pathname : Str) : List Str :=
  (splitOn '/' pathname).filter (fun s => !s.isEmpty)

/-- Embeds `searchParams.get(k)`: the value of the first pair named `k`. -/
def searchGet (ps : List (Str × Str)) (k : Str) : Option Str :=
  (ps.find? (fun kv => kv.1 == k)).map (fun kv => kv.2)

/-- Message of the error thrown for an empty or absent input. -/
def errMissing : Str := "Falta url".toList
/-- Message of the error thrown when `new URL(input)` throws. -/
def errInvalidUrl : Str := "URL inválida".toList
/-- Message of the error thrown when no id is found in the URL. -/
def errNoId : Str := "No se pudo extraer el ID".toList

/-- Lines 32-33: the second path segment when the first is `shorts`, `embed`
or `live`; `none` when the test fails. -/
def fromPathParts (u : URL) : Option Str :=
  match pathParts u.pathname with
  | p0 :: p1 :: _ =>
    if (p0 = "shorts".toList ∨ p0 = "embed".toList ∨ p0 = "live".toList) ∧ p1 ≠ []
    then some p1 else none
  | _ => none

/-- Lines 28-31: the `v` parameter of a `/watch` URL; `none` when the path is
another one or the parameter is absent. -/
def watchParam (u : URL) : Option Str :=
  if u.pathname = "/watch".toList then searchGet u.searchParams "v".toList else none

/-- Lines 27-34: what the `youtube.com` branch returns; `none` when control
falls through to the final `throw`. -/
def fromStandardHost (u : URL) : Option Str :=
  match watchParam u with
  | some (c :: cs) => some (c :: cs)
  | _ => fromPathParts u

/-- Embeds `extractVideoId(input)`. The platform's `new URL(input)` is the parameter
`parseURL` (`none` when the constructor throws); an absent input (`null`) is
`none`; a thrown `Error` is returned as its message. -/
def extractVideoId (parseURL : Str → Option URL) (input : Option Str) : Except Str Str :=
  match input with
  | none => .error errMissing
  | some [] => .error errMissing
  | some (c :: cs) =>
    if isBareId (c :: cs) then .ok (c :: cs)
    else match parseURL (c :: cs) with
      | none => .error errInvalidUrl
      | some u =>
        if includes u.hostname "youtu.be".toList then
          match (pathParts u.pathname).head? with
          | some (d :: ds) => .ok (d :: ds)
          | _ => .error errNoId
        else if includes u.hostname "youtube.com".toList then
          match fromStandardHost u with
          | some id => .ok id
          | none => .error errNoId
        else .error errNoId

/-- The recognized URL shapes in the words of the specification: a short-link
host whose path has a non-empty segment; a standard host with path `/watch`
and a query parameter `v`; a standard host with path `/shorts/<id>`,
`/embed/<id>` or `/live/<id>`. -/
def recognized (u : URL) : Bool :=
  (includes u.hostname "youtu.be".toList && (pathParts u.pathname).head?.isSome) ||
  (includes u.hostname "youtube.com".toList && u.pathname == "/watch".toList &&
    (match searchGet u.searchParams "v".toList with
     | some v => !v.isEmpty
     | none => false)) ||
  (includes u.hostname "youtube.com".toList &&
    (match pathParts u.pathname with
     | p0 :: _ :: _ => p0 == "shorts".toList || p0 == "embed".toList || p0 == "live".toList
     | _ => false))

/-! ### A reference URL parser for the closed examples

The theorems about `extractVideoId` hold for every parser. The closed
examples need one: `parseHttpUrl` follows the platform's parser on absolute
`http`/`https` URLs written with unreserved characters only, where no
percent-encoding, dot-segment removal or host rewriting takes place. It
rejects every other input; the platform does so when the input has no
scheme, which is the only rejection the examples rely on. -/

/-- Characters that the platform's parser copies unchanged into a path or a
query. -/
def isPlainChar (c : Char) : Bool :=
  c.isAlphanum || c == '-' || c == '.' || c == '_' || c == '~'

/-- Hosts of the fragment: letters, digits, hyphens and dots, the last label
made of letters (so not a number), no punycode label. -/
def isPlainHost (h : Str) : Bool :=
  h.all (fun c => c.isAlphanum || c == '-' || c == '.') &&
  (match (splitOn '.' h).getLast? with
   | some (c :: cs) => (c :: cs).all Char.isAlpha
   | _ => false) &&
  !includes (toLowerCase h) "xn--".toList

/-- The pairs of a query string made of plain characters, `=` and `&`. -/
def parseQuery (q : Str) : List (Str × Str) :=
  ((splitOn '&' q).filter (fun s => !s.isEmpty)).map
    (fun kv => (kv.takeWhile (· ≠ '='), (kv.dropWhile (· ≠ '=')).drop 1))

/-- The reference parser: `scheme://host/path?query#fragment`. -/
def parseHttpUrl (input : Str) : Option URL :=
  let scheme := toLowerCase (input.takeWhile (· ≠ ':'))
  match input.dropWhile (· ≠ ':') with
  | ':' :: '/' :: '/' :: r =>
    let host := r.takeWhile (fun c => c ≠ '/' && c ≠ '?' && c ≠ '#')
    let afterHost := r.dropWhile (fun c => c ≠ '/' && c ≠ '?' && c ≠ '#')
    let path := afterHost.takeWhile (fun c => c ≠ '?' && c ≠ '#')
    let query :=
      match afterHost.dropWhile (fun c => c ≠ '?' && c ≠ '#') with
      | '?' :: q => q.takeWhile (· ≠ '#')
      | _ => []
    if (scheme = "http".toList ∨ scheme = "https".toList) ∧ isPlainHost host = true ∧
        path.all (fun c => isPlainChar c || c == '/') = true ∧
        (splitOn '/' path).all (fun s => s ≠ ".".toList && s ≠ "..".toList) = true ∧
        query.all (fun c => isPlainChar c || c == '=' || c == '&') = true
    then some ⟨toLowerCase host, if path = [] then "/".toList else path, parseQuery query⟩
    else none
  | _ => none

/-! ## Numbers

JavaScript numbers are IEEE-754 doubles. Every number the cue parser computes
is an integer, an infinity or `NaN`, so the embedding keeps exactly those
values: `fin z` for a double whose value is the integer `z`. Arithmetic is
exact arithmetic followed by rounding to the nearest double, ties to even.
The sign of zero is not tracked (it is never observed by the parser). -/

/-- The values a number of the parser can take. -/
inductive JsNum where
  | fin (z : Int)
  | posInf
  | negInf
  | nan
deriving DecidableEq, Repr

/-- The number of low bits a natural number `n ≥ 2^53` loses when it is
written with a 53-bit significand: the least `e` with `n < 2^(53+e)`, searched
from `e` upwards for `fuel` steps. -/
def dropBits : Nat → Nat → Nat → Nat
  | 0, _, e => e
  | fuel + 1, n, e => if n < 2 ^ (53 + e) then e else dropBits fuel n (e + 1)

/-- The double nearest to a natural number (ties to even); `none` when it
lies beyond the largest finite double, `(2^53 - 1) * 2^971`. -/
def roundNat (n : Nat) : Option Nat :=
  if n < 2 ^ 53 then some n
  else
    let e := dropBits 972 n 0
    let q := n / 2 ^ e
    let r := n % 2 ^ e
    let q' := if 2 ^ e < 2 * r ∨ (2 * r = 2 ^ e ∧ q % 2 = 1) then q + 1 else q
    if 971 < e ∨ (e = 971 ∧ q' = 2 ^ 53) then none else some (q' * 2 ^ e)

/-- The double nearest to an integer. -/
def JsNum.ofInt (z : Int) : JsNum :=
  if 0 ≤ z then
    match roundNat z.toNat with
    | some m => .fin m
    | none => .posInf
  else
    match roundNat (-z).toNat with
    | some m => .fin (-(m : Int))
    | none => .negInf

/-- Unary minus. -/
def JsNum.neg : JsNum → JsNum
  | .fin z => .fin (-z)
  | .posInf => .negInf
  | .negInf => .posInf
  | .nan => .nan

/-- The operator `+` on numbers. -/
def JsNum.add : JsNum → JsNum → JsNum
  | .fin a, .fin b => JsNum.ofInt (a + b)
  | .nan, _ => .nan
  | _, .nan => .nan
  | .posInf, .negInf => .nan
  | .negInf, .posInf => .nan
  | .posInf, _ => .posInf
  | _, .posInf => .posInf
  | .negInf, _ => .negInf
  | _, .negInf => .negInf

/-- The operator `-` on numbers. -/
def JsNum.sub (a b : JsNum) : JsNum := JsNum.add a (JsNum.neg b)

/-- The sign of a number that is not `NaN`: `-1`, `0` or `1`. -/
def JsNum.sign : JsNum → Int
  | .fin z => Int.sign z
  | .posInf => 1
  | .negInf => -1
  | .nan => 0

/-- The operator `*` on numbers. -/
def JsNum.mul : JsNum → JsNum → JsNum
  | .fin a, .fin b => JsNum.ofInt (a * b)
  | .nan, _ => .nan
  | _, .nan => .nan
  | a, b =>
    if JsNum.sign a * JsNum.sign b = 0 then .nan
    else if 0 < JsNum.sign a * JsNum.sign b then .posInf else .negInf

/-- Embeds `Math.max(a, b)`. -/
def JsNum.max : JsNum → JsNum → JsNum
  | .nan, _ => .nan
  | _, .nan => .nan
  | .posInf, _ => .posInf
  | _, .posInf => .posInf
  | .negInf, b => b
  | a, .negInf => a
  | .fin a, .fin b => .fin (Max.max a b)

instance : Add JsNum := ⟨JsNum.add⟩
instance : Sub JsNum := ⟨JsNum.sub⟩
instance : Mul JsNum := ⟨JsNum.mul⟩
instance (n : Nat) : OfNat JsNum n := ⟨JsNum.ofInt n⟩

/-- The value of a run of decimal digits. -/
def digitsValue (ds : Str) : Nat :=
  ds.foldl (fun acc c => 10 * acc + (c.toNat - 48)) 0

/-- Unary `+` on a string of decimal digits: the double nearest to its
value. -/
def toNumber (ds : Str) : JsNum := JsNum.ofInt (digitsValue ds)

/-! ## Cue parsing (`vttToSegments`, lines 38-67) -/

/-- The characters matched by `\s` and removed by `trim`: the ECMAScript
white space and line terminators. -/
def isWhitespace (c : Char) : Bool :=
  c.toNat ∈ [0x09, 0x0A, 0x0B, 0x0C, 0x0D, 0x20, 0xA0, 0x1680, 0x2028, 0x2029, 0x202F,
    0x205F, 0x3000, 0xFEFF] || (0x2000 ≤ c.toNat && c.toNat ≤ 0x200A)

/-- Embeds `s.trimStart()`. -/
def trimStart (s : Str) : Str := s.dropWhile isWhitespace

/-- Embeds `s.trimEnd()`. -/
def trimEnd (s : Str) : Str := (s.reverse.dropWhile isWhitespace).reverse

/-- Embeds `s.trim()`. -/
def trim (s : Str) : Str := trimEnd (trimStart s)

/-- Embeds `vtt.split(/\r?\n/)`: a line ends at a line feed, and a carriage return
right before that line feed belongs to the separator. -/
def splitLines : Str → List Str
  | [] => [[]]
  | c :: cs =>
    if c = Char.ofNat 0x0A then [] :: splitLines cs
    else if c = Char.ofNat 0x0D ∧ cs.head? = some (Char.ofNat 0x0A) then splitLines cs
    else match splitLines cs with
      | l :: ls => (c :: l) :: ls
      | [] => [[c]]

/-- The arrow token of a timing line. -/
def arrow : Str := "-->".toList

/-- Embeds `line.split('-->')[0]`: the text before the first arrow. -/
def beforeArrow : Str → Str
  | [] => []
  | c :: cs => if arrow.isPrefixOf (c :: cs) then [] else c :: beforeArrow cs

/-- The text after the first arrow (empty when there is none). -/
def afterArrow : Str → Str
  | [] => []
  | c :: cs => if arrow.isPrefixOf (c :: cs) then cs.drop 2 else afterArrow cs

/-- The pattern `(\d{2}):(\d{2})\.(\d{3})` at the head of `s`: the three
captured groups. -/
def matchCore : Str → Option (Str × Str × Str)
  | m1 :: m2 :: c1 :: s1 :: s2 :: c2 :: k1 :: k2 :: k3 :: _ =>
    if m1.isDigit ∧ m2.isDigit ∧ c1 = ':' ∧ s1.isDigit ∧ s2.isDigit ∧ c2 = '.' ∧
        k1.isDigit ∧ k2.isDigit ∧ k3.isDigit
    then some ([m1, m2], [s1, s2], [k1, k2, k3]) else none
  | _ => none

/-- The pattern `(?:(\d+):)?(\d{2}):(\d{2})\.(\d{3})` at the head of `s`.
The optional group is tried first, with the longest run of digits (a shorter
run is followed by a digit, never by the colon); when the rest does not
match after it, the group is skipped. -/
def matchAt (s : Str) : Option (Option Str × Str × Str × Str) :=
  let withHours :=
    match s.takeWhile Char.isDigit, s.dropWhile Char.isDigit with
    | d :: ds, c :: r => if c = ':' then (matchCore r).map (fun g => (some (d :: ds), g)) else none
    | _, _ => none
  match withHours with
  | some m => some m
  | none => (matchCore s).map (fun g => (none, g))

/-- Embeds `ts.match(/(?:(\d+):)?(\d{2}):(\d{2})\.(\d{3})/)`: the match at the
leftmost position where the pattern matches. -/
def matchTs : Str → Option (Option Str × Str × Str × Str)
  | [] => none
  | c :: cs =>
    match matchAt (c :: cs) with
    | some m => some m
    | none => matchTs cs

/-- The inner function `toMs` of `vttToSegments`. -/
def toMs (ts : Str) : JsNum :=
  match matchTs (trim ts) with
  | none => 0
  | some (hours, mn, s, ms) =>
    let h : JsNum := match hours with
      | some d => toNumber d
      | none => 0
    (((h * 60 + toNumber mn) * 60) + toNumber s) * 1000 + toNumber ms

/-- The number of characters that `[^>]+>` matches at the head of `s`. -/
def tagRest (s : Str) : Option Nat :=
  match s.takeWhile (· ≠ '>'), s.dropWhile (· ≠ '>') with
  | b :: bs, _ :: _ => some ((b :: bs).length + 1)
  | _, _ => none

/-- Embeds `s.replace(/<[^>]+>/g, '')`, with the number of characters still to be
skipped of the tag being removed. -/
def stripTagsAux : Nat → Str → Str
  | _, [] => []
  | k + 1, _ :: cs => stripTagsAux k cs
  | 0, c :: cs =>
    if c = '<' then
      match tagRest cs with
      | some n => stripTagsAux n cs
      | none => c :: stripTagsAux 0 cs
    else c :: stripTagsAux 0 cs

/-- Embeds `line.replace(/<[^>]+>/g, '')`. -/
def stripTags (s : Str) : Str := stripTagsAux 0 s

/-- Embeds `s.replace(/\s+/g, ' ')`; the flag tells whether the previous character
was white space. -/
def collapseWsAux : Bool → Str → Str
  | _, [] => []
  | inRun, c :: cs =>
    if isWhitespace c then
      (if inRun then collapseWsAux true cs else ' ' :: collapseWsAux true cs)
    else c :: collapseWsAux false cs

/-- Embeds `s.replace(/\s+/g, ' ')`. -/
def collapseWs (s : Str) : Str := collapseWsAux false s

/-- Embeds `buf.join(' ')`. -/
def joinSpace : List Str → Str
  | [] => []
  | [l] => l
  | l :: ls => l ++ ' ' :: joinSpace ls

/-- The test `/^\d+$/`. -/
def isAllDigits (s : Str) : Bool := !s.isEmpty && s.all Char.isDigit

/-- The test `/^WEBVTT/i`. -/
def startsWithWebvtt (s : Str) : Bool := "webvtt".toList.isPrefixOf (toLowerCase s)

/-- A timed text segment. -/
structure Segment where
  start : JsNum
  end_ : JsNum
  duration : JsNum
  text : Str
deriving DecidableEq, Repr

/-- The segment pushed on lines 54 and 65. -/
def mkSegment (start end_ : JsNum) (buf : List Str) : Segment :=
  { start := start, end_ := end_, duration := JsNum.max 0 (end_ - start),
    text := trim (collapseWs (joinSpace buf)) }

/-- The variables of the loop of `vttToSegments`. -/
structure ParseState where
  segs : List Segment
  buf : List Str
  start : JsNum
  end_ : JsNum
deriving DecidableEq, Repr

/-- Embeds `if (buf.length) segs.push(...)`: the segments after the pending cue is
flushed. -/
def flushed (st : ParseState) : List Segment :=
  if st.buf.isEmpty then st.segs else st.segs ++ [mkSegment st.start st.end_ st.buf]

/-- One iteration of the loop of lines 50-64. Of `line.split('-->')` the loop
reads the first two pieces: `a`, the text before the first arrow, and `b`,
the text between the first arrow and the next one (or the end of the line). -/
def step (st : ParseState) (raw : Str) : ParseState :=
  let line := trim raw
  if includes line arrow then
    { segs := flushed st, buf := [],
      start := toMs (beforeArrow line), end_ := toMs (beforeArrow (afterArrow line)) }
  else if !line.isEmpty && !isAllDigits line && !startsWithWebvtt line then
    { st with buf := st.buf ++ [stripTags line] }
  else st

/-- The state before the first line. -/
def initState : ParseState := { segs := [], buf := [], start := 0, end_ := 0 }

/-- Embeds `vttToSegments(vtt)`. -/
def vttToSegments (vtt : Str) : List Segment :=
  (flushed ((splitLines vtt).foldl step initState)).filter (fun s => !s.text.isEmpty)

/-- The optional `hours:` prefix of a timestamp token. -/
def hoursPart : Option Str → Str
  | some h => h ++ [':']
  | none => []

/-- A timestamp token `[hours:]MM:SS.mmm` between `pre` and `post`. -/
def tsToken (pre : Str) (hours : Option Str) (mm ss ms post : Str) : Str :=
  pre ++ (hoursPart hours ++ (mm ++ (':' :: (ss ++ ('.' :: (ms ++ post))))))

/-- The value of the hours field, 0 when it is absent. -/
def hoursValue : Option Str → Nat
  | some h => digitsValue h
  | none => 0

/-- The number of milliseconds a timestamp denotes, in exact arithmetic. -/
def tsValue (hours : Option Str) (mm ss ms : Str) : Nat :=
  ((hoursValue hours * 60 + digitsValue mm) * 60 + digitsValue ss) * 1000 + digitsValue ms

/-- The largest integer up to which every integer is a double, `2^53`. -/
def maxSafe : Nat := 9007199254740992

/-- The number read from the hours field: `+(m[1] || 0)`. -/
def hoursNumber : Option Str → JsNum
  | some h => toNumber h
  | none => 0

/-- A number is a non-negative integer. -/
def JsNum.isNonNegInt : JsNum → Bool
  | .fin z => decide (0 ≤ z)
  | _ => false

/-- A number is below zero. -/
def JsNum.isNegative : JsNum → Bool
  | .fin z => decide (z < 0)
  | .negInf => true
  | _ => false

/-- The comparison `a <= b` of two numbers. -/
def JsNum.le : JsNum → JsNum → Bool
  | .nan, _ => false
  | _, .nan => false
  | .negInf, _ => true
  | _, .posInf => true
  | .posInf, _ => false
  | _, .negInf => false
  | .fin a, .fin b => decide (a ≤ b)

/-- The values `toMs` can return: a non-negative integer or `+Infinity`. -/
def IsTime (x : JsNum) : Prop := x.isNonNegInt = true ∨ x = .posInf

/-- A segment as the loop builds it: from a non-empty buffer of lines that
went through `stripTags` and from two values of `toMs`. -/
def BuiltSegment (seg : Segment) : Prop :=
  ∃ start end_ buf, buf ≠ [] ∧ (∀ l ∈ buf, ∃ line, l = stripTags line) ∧
    IsTime start ∧ IsTime end_ ∧ seg = mkSegment start end_ buf

/-- The invariant of the loop of `vttToSegments`. -/
def LoopInv (st : ParseState) : Prop :=
  (∀ seg ∈ st.segs, BuiltSegment seg) ∧ (∀ l ∈ st.buf, ∃ line, l = stripTags line) ∧
    IsTime st.start ∧ IsTime st.end_

/-- White-space-normalized text: no white space at either end, every white
space character is a space, and no two of them are adjacent. -/
def WsNormalized (t : Str) : Prop :=
  (∀ c, t.head? = some c → isWhitespace c = false) ∧
  (∀ c, t.getLast? = some c → isWhitespace c = false) ∧
  (∀ c ∈ t, isWhitespace c = true → c = ' ') ∧
  List.Chain' (fun a b => ¬ (isWhitespace a = true ∧ isWhitespace b = true)) t

/-- An occurrence of the pattern `<[^>]+>` in `s`: a `<`, one or more
characters other than `>`, and a `>`. -/
def hasTag : Str → Bool
  | [] => false
  | c :: cs => (c == '<' && (tagRest cs).isSome) || hasTag cs

/-- Embeds `lines.join('\n')`: the text whose lines are `lines`. -/
def joinLines : List Str → Str
  | [] => []
  | [l] => l
  | l :: ls => l ++ Char.ofNat 0x0A :: joinLines ls

/-- A text with one cue whose hours field has 309 digits. -/
def hugeHoursCue : Str :=
  List.replicate 309 '9' ++ ":00:00.000 --> 00:00:01.000\nhi".toList

/-! ### Well-formed cue texts -/

/-- A cue block: the two tokens of its timing line and its text lines. -/
structure CueBlock where
  a : Str
  b : Str
  lines : List Str
deriving DecidableEq, Repr

/-- The timing line `A --> B` of a block. -/
def timingLine (c : CueBlock) : Str := c.a ++ (" --> ".toList ++ c.b)

/-- The lines of a block: its timing line, then its text lines. -/
def blockLines (c : CueBlock) : List Str := timingLine c :: c.lines

/-- The lines of a sequence of blocks separated by blank lines. -/
def blocksLines : List CueBlock → List Str
  | [] => []
  | [c] => blockLines c
  | c :: cs => blockLines c ++ [] :: blocksLines cs

/-- The text made of a header line, a blank line and blocks separated by
blank lines. -/
def cueText (header : Str) (blocks : List CueBlock) : Str :=
  joinLines (header :: [] :: blocksLines blocks)

/-- The text of a block in the words of the specification: its lines with
the tags removed, joined by single spaces, white space collapsed, trimmed. -/
def blockText (c : CueBlock) : Str :=
  trim (collapseWs (joinSpace (c.lines.map stripTags)))

/-- The segment a block stands for. -/
def segmentOf (c : CueBlock) : Segment :=
  { start := toMs c.a, end_ := toMs c.b, duration := JsNum.max 0 (toMs c.b - toMs c.a),
    text := blockText c }

/-- A text line as the loop tests it: one line, without the arrow, and once
trimmed not empty, not made only of digits and not starting with `WEBVTT` in
any letter case. -/
def TextLine (l : Str) : Prop :=
  Char.ofNat 0x0A ∉ l ∧ includes l arrow = false ∧ trim l ≠ [] ∧
    isAllDigits (trim l) = false ∧ startsWithWebvtt (trim l) = false

instance (l : Str) : Decidable (TextLine l) := by
  unfold TextLine
  infer_instance

/-- A block whose tokens `A` and `B` are on one line and free of the arrow,
with one or more text lines and a text that is not empty. -/
def WellFormedBlock (c : CueBlock) : Prop :=
  Char.ofNat 0x0A ∉ c.a ∧ Char.ofNat 0x0A ∉ c.b ∧
    includes c.a arrow = false ∧ includes c.b arrow = false ∧
    c.lines ≠ [] ∧ (∀ l ∈ c.lines, TextLine l) ∧ blockText c ≠ []

instance (c : CueBlock) : Decidable (WellFormedBlock c) := by
  unfold WellFormedBlock
  infer_instance

/-- The conditions on a text line as the claim words them: not blank, not made
only of digits, without the arrow, not starting with the letters `WEBVTT`. -/
def ClaimedTextLine (l : Str) : Prop :=
  Char.ofNat 0x0A ∉ l ∧ trim l ≠ [] ∧ isAllDigits l = false ∧ includes l arrow = false ∧
    "WEBVTT".toList.isPrefixOf l = false

instance (l : Str) : Decidable (ClaimedTextLine l) := by
  unfold ClaimedTextLine
  infer_instance

/-- A block whose only text line starts with `WebVTT` in mixed case. -/
def webvttBlock : CueBlock :=
  { a := "00:00:01.000".toList, b := "00:00:02.000".toList,
    lines := ["WebVTT captions".toList] }

/-- Two blocks, the first with a tag and padded lines. -/
def sampleBlocks : List CueBlock :=
  [{ a := "00:00:01.000".toList, b := "00:00:02.500".toList,
     lines := ["Hello <b>world</b>".toList, "  second   line ".toList] },
   { a := "00:00:03.000".toList, b := "00:00:04.000".toList, lines := ["bye".toList] }]

/-! ## Definitions for the policy of `chooseTrack` -/

/-- The language-affinity term before its default: the index of the first
preferred language that is a prefix of the lower-cased language code. -/
def langRank (langs : List Str) (t : Track) : Option Nat :=
  firstIndex? (fun l => l.isPrefixOf (toLowerCase (t.languageCode.getD []))) langs

/-- The value `t.kind === 'asr'`. -/
def isAsr (t : Track) : Bool := decide (t.kind = some "asr".toList)

/-- A track with the language code `code`, of kind `asr` or without a kind. -/
def mkTrack (code : String) (asr : Bool) : Track :=
  { languageCode := some code.toList, kind := if asr then some "asr".toList else none,
    baseUrl := "https://e/t".toList }

/-- Twelve preferred languages. -/
def twelveLangs : List Str :=
  ["es", "en", "fr", "de", "it", "pt", "ru", "ja", "ko", "zh", "ar", "hi"].map String.toList

/-- Seven preferred languages. -/
def sevenLangs : List Str :=
  ["es", "en", "fr", "de", "it", "pt", "ru"].map String.toList

/-- Lines 128 and 130 of `handler`: the preference list read from the `langs`
parameter, `(searchParams.get('langs') || 'es,en').toLowerCase()` split at
commas, each entry trimmed, empty entries removed. -/
def requestLangs (param : Option Str) : List Str :=
  let langsParam := toLowerCase (match param with
    | some (c :: cs) => c :: cs
    | _ => "es,en".toList)
  ((splitOn ',' langsParam).map trim).filter (fun s => !s.isEmpty)

/-! ### Letter case on all of Unicode

`toLowerCase` above maps the ASCII letters only. For statements about letter
case on arbitrary strings the platform's `String.prototype.toLowerCase` is a
parameter `lower`: the three definitions below are `pref`, `chooseTrack` and
`requestLangs` with `lower` in the place of `toLowerCase`. -/

/-- The inner function `pref` of `chooseTrack`, for the lower-casing function
`lower`. -/
def prefWith (lower : Str → Str) (langs : List Str) (t : Track) : Int :=
  let lang := lower (t.languageCode.getD [])
  let asr := decide (t.kind = some "asr".toList)
  let rank := findIndex (fun l => startsWith lang l) langs
  (if asr then 10 else 0) + (if rank = -1 then 5 else rank)

/-- Embeds `chooseTrack(tracks, langs)`, for the lower-casing function `lower`. -/
def chooseTrackWith (lower : Str → Str) (tracks : List Track) (langs : List Str) :
    Option Track :=
  (jsSort (fun a b => prefWith lower langs a - prefWith lower langs b) tracks).head?

/-- Lines 128 and 130 of `handler`, for the lower-casing function `lower`. -/
def requestLangsWith (lower : Str → Str) (param : Option Str) : List Str :=
  let langsParam := lower (match param with
    | some (c :: cs) => c :: cs
    | _ => "es,en".toList)
  ((splitOn ',' langsParam).map trim).filter (fun s => !s.isEmpty)

/-- Two tracks that differ at most in their language codes, the two codes
(`t.languageCode || ''`) having the same lower-cased form. -/
def SameUpToCase (lower : Str → Str) (t t' : Track) : Prop :=
  t'.kind = t.kind ∧ t'.baseUrl = t.baseUrl ∧
    lower (t'.languageCode.getD []) = lower (t.languageCode.getD [])

/-- The Spanish tracks of the example with their codes written in two other
ways, and the English one in upper case. -/
def recasedTracks : List Track :=
  [⟨some "EN".toList, none, "https://e/en".toList⟩,
   ⟨some "Es".toList, none, "https://e/es".toList⟩,
   ⟨some "ES".toList, some "asr".toList, "https://e/es-asr".toList⟩]

/-! ## Definitions for the leniency of `toMs` -/

/-- The pattern `^(\d{2}):(\d{2})\.(\d{3})$`: the whole of `s` is two digits, a
colon, two digits, a full stop and three digits. -/
def exactCore (s : Str) : Bool := s.length == 9 && (matchCore s).isSome

/-- The shape `[hours:]minutes:seconds.milliseconds` in the words of the
specification: the whole token is an optional run of digits with a colon,
followed by `MM:SS.mmm`. -/
def isTimestamp (s : Str) : Bool :=
  exactCore s ||
    (match s.takeWhile Char.isDigit, s.dropWhile Char.isDigit with
     | _ :: _, c :: r => c == ':' && exactCore r
     | _, _ => false)

/-- The token contains `MM:SS.mmm` somewhere: the pattern
`(\d{2}):(\d{2})\.(\d{3})` matches at some position of `s`. -/
def containsClock : Str → Bool
  | [] => false
  | c :: cs => (matchCore (c :: cs)).isSome || containsClock cs

/-- The end timestamp of a timing line followed by a cue setting. -/
def tokenWithSetting : Str := "00:00:04.000 align:start".toList

/-! ## Definitions for the line-ending conventions -/

/-- The text with every line feed replaced by a carriage return and a line
feed (`s.replace(/\n/g, '\r\n')`). -/
def lfToCrlf : Str → Str
  | [] => []
  | c :: cs =>
    if c = Char.ofNat 0x0A then Char.ofNat 0x0D :: Char.ofNat 0x0A :: lfToCrlf cs
    else c :: lfToCrlf cs

/-- The text with every carriage return that stands right before a line feed
removed (`s.replace(/\r\n/g, '\n')`). -/
def crlfToLf : Str → Str
  | [] => []
  | c :: cs =>
    if c = Char.ofNat 0x0D ∧ cs.head? = some (Char.ofNat 0x0A) then crlfToLf cs
    else c :: crlfToLf cs

/-- Two lines that differ at most by one carriage return at the end. -/
def SameUpToCr (a b : Str) : Prop :=
  a = b ∨ a = b ++ [Char.ofNat 0x0D] ∨ b = a ++ [Char.ofNat 0x0D]

/-- A cue file with mixed line endings. -/
def mixedEndings : Str :=
  "WEBVTT\r\n\n00:00:01.000 --> 00:00:02.500\r\r\nuno\ndos\r\n".toList

/-! ## Definitions for the grouping of lines into cues -/

/-- The test of line 52 on a raw line: once trimmed, it contains the arrow. -/
def isTimingLine (raw : Str) : Bool := includes (trim raw) arrow

/-- The test of line 61 on a raw line: once trimmed, it is not empty, not made
only of digits and does not start with `WEBVTT`. -/
def isTextLine (raw : Str) : Bool :=
  !(trim raw).isEmpty && !isAllDigits (trim raw) && !startsWithWebvtt (trim raw)

/-- A cue as the loop reads it: a timing line and all the lines that follow
it up to the next timing line, blank lines included. -/
structure RawCue where
  timing : Str
  body : List Str
deriving DecidableEq, Repr

/-- The lines of a sequence of cues, in order. -/
def cuesLines : List RawCue → List Str
  | [] => []
  | c :: cs => c.timing :: (c.body ++ cuesLines cs)

/-- The lines of a cue that the loop buffers. -/
def cueTextLines (c : RawCue) : List Str := c.body.filter isTextLine

/-- The segment of a cue: the values of the two tokens of its timing line,
and the text of its buffered lines. -/
def cueSegment (c : RawCue) : Segment :=
  mkSegment (toMs (beforeArrow (trim c.timing)))
    (toMs (beforeArrow (afterArrow (trim c.timing))))
    ((cueTextLines c).map (fun l => stripTags (trim l)))

/-- The cue has a text that is not empty. -/
def hasText (c : RawCue) : Bool := !(cueSegment c).text.isEmpty

/-- A line the loop passes over: not a timing line and not buffered. -/
def SkippedLine (l : Str) : Prop :=
  Char.ofNat 0x0A ∉ l ∧ isTimingLine l = false ∧ isTextLine l = false

instance (l : Str) : Decidable (SkippedLine l) := by
  unfold SkippedLine
  infer_instance

/-- The first line of the cue is a timing line and no other line is. -/
def IsRawCue (c : RawCue) : Prop :=
  Char.ofNat 0x0A ∉ c.timing ∧ isTimingLine c.timing = true ∧
    ∀ l ∈ c.body, Char.ofNat 0x0A ∉ l ∧ isTimingLine l = false

instance (c : RawCue) : Decidable (IsRawCue c) := by
  unfold IsRawCue
  infer_instance

/-- A cue file as the upstream service produces it: the header is followed by
two metadata lines. -/
def metadataVtt : Str :=
  "WEBVTT\nKind: captions\nLanguage: en\n\n00:00:01.000 --> 00:00:02.000\nhi".toList

/-- A cue file with a comment block between two cues. -/
def commentVtt : Str :=
  "WEBVTT\n\n00:00:01.000 --> 00:00:02.000\nhi\n\nNOTE checked\n\n00:00:03.000 --> 00:00:04.000\nbye".toList

/-- The two cues of `commentVtt` as the loop reads them. -/
def commentCues : List RawCue :=
  [{ timing := "00:00:01.000 --> 00:00:02.000".toList,
     body := ["hi".toList, [], "NOTE checked".toList, []] },
   { timing := "00:00:03.000 --> 00:00:04.000".toList, body := ["bye".toList] }]

/-! ## The subtitle download (`downloadVtt`, lines 104-111) -/

/-- Embeds `searchParams.has(k)`: some pair is named `k`. -/
def searchHas (ps : List (Str × Str)) (k : Str) : Bool := ps.any (fun kv => kv.1 == k)

/-- Embeds `searchParams.set(k, v)`: the first pair named `k` takes the value `v`
and the other pairs named `k` are removed; when no pair is named `k`, the
pair is appended. -/
def searchSet : List (Str × Str) → Str → Str → List (Str × Str)
  | [], k, v => [(k, v)]
  | kv :: rest, k, v =>
    if kv.1 = k then (k, v) :: rest.filter (fun x => x.1 ≠ k)
    else kv :: searchSet rest k v

/-- Lines 105-107 of `downloadVtt`: the URL object `u` after the two
conditional updates, for the parsed base URL and the translation target
(empty when none is supplied). The other components of the URL object are not
written to. -/
def requestedUrl (u : URL) (tlang : Str) : URL :=
  let u1 : URL :=
    if searchHas u.searchParams "fmt".toList then u
    else { u with searchParams := searchSet u.searchParams "fmt".toList "vtt".toList }
  if tlang ≠ [] then { u1 with searchParams := searchSet u1.searchParams "tlang".toList tlang }
  else u1

/-- The pairs of a query named neither `fmt` nor `tlang`. -/
def otherParams (ps : List (Str × Str)) : List (Str × Str) :=
  ps.filter (fun kv => kv.1 ≠ "fmt".toList ∧ kv.1 ≠ "tlang".toList)

/-- A track location with an explicit format and two translation targets. -/
def sampleBaseUrl : URL :=
  { hostname := "www.youtube.com".toList, pathname := "/api/timedtext".toList,
    searchParams := [("v".toList, "abc".toList), ("tlang".toList, "fr".toList),
      ("fmt".toList, "srv3".toList), ("tlang".toList, "de".toList),
      ("sig".toList, "x".toList)] }

/-! ## The request handler (`handler`, lines 113-153) and its helpers

The network is a parameter: a `Runtime` gives, for each request that the
program can send, what awaiting `fetch` and reading the body yields. A
rejected promise or a thrown error is `Except.error` with the message of the
error (empty when the error carries none). -/

/-- What `await fetch(...)` gives: the status of the response, and what
reading its body (`r.text()`, `r.json()`) gives. -/
structure Fetched (α : Type) where
  status : Nat
  body : Except Str α

/-- Embeds `r.ok`: the status is in the range 200-299. -/
def Fetched.ok {α : Type} (r : Fetched α) : Bool := decide (200 ≤ r.status ∧ r.status ≤ 299)

/-- The platform and the network as `handler` uses them. Of the player
response the program reads `player?.captions?.playerCaptionsTracklistRenderer
?.captionTracks` only: `none` when some link of that chain is absent. -/
structure Runtime where
  parseURL : Str → Option URL
  urlError : Str
  typeError : Str
  fetchPage : Str → Except Str (Fetched Str)
  fetchPlayer : Str → Str → Except Str (Fetched (Option (List Track)))
  fetchVtt : URL → Except Str (Fetched Str)

/-- The data that `json` serializes. -/
inductive Body where
  | empty
  | error (message : Str)
  | transcript (videoId : Str) (language : Str) (source : Str) (segments : List Segment)
deriving DecidableEq, Repr

/-- A `Response`: status, headers and body. -/
structure Response where
  status : Nat
  headers : List (Str × Str)
  body : Body
deriving DecidableEq, Repr

/-- An incoming request. -/
structure Request where
  method : Str
  url : Str
deriving DecidableEq, Repr

/-- Embeds `json(data, { status })`; the call without `init` is `json data 200`. -/
def json (data : Body) (status : Nat) : Response :=
  { status := status,
    headers := [("content-type".toList, "application/json; charset=utf-8".toList),
      ("access-control-allow-origin".toList, "*".toList),
      ("x-robots-tag".toList, "noindex".toList)],
    body := data }

/-- Embeds `err(message, status)`; every call of the program passes the status. -/
def err (message : Str) (status : Nat) : Response := json (Body.error message) status

/-- The marker that precedes the key in the page: the name
`INNERTUBE_API_KEY` between quotes, a colon and the opening quote. -/
def apiKeyMarker : Str :=
  Char.ofNat 0x22 :: ("INNERTUBE_API_KEY".toList ++ [Char.ofNat 0x22, ':', Char.ofNat 0x22])

/-- The pattern of line 74 at the head of `s`: the captured key. After the
marker the longest run of characters other than the quote is taken; it has to
be non-empty and followed by a quote. -/
def apiKeyAt (s : Str) : Option Str :=
  if apiKeyMarker.isPrefixOf s then
    let r := s.drop apiKeyMarker.length
    match r.takeWhile (fun c => c ≠ Char.ofNat 0x22), r.dropWhile (fun c => c ≠ Char.ofNat 0x22) with
    | k :: ks, _ :: _ => some (k :: ks)
    | _, _ => none
  else none

/-- Embeds `html.match(...)` of line 74: the group captured at the leftmost
position where the pattern matches. -/
def findApiKey : Str → Option Str
  | [] => none
  | c :: cs =>
    match apiKeyAt (c :: cs) with
    | some k => some k
    | none => findApiKey cs

/-- Message of the error thrown when the page holds no key. -/
def errNoKey : Str := "No se encontró INNERTUBE_API_KEY".toList
/-- Message of the 404 response. -/
def errNoCaptions : Str := "El video no expone subtítulos".toList
/-- Message used when the caught error has an empty message. -/
def errUnexpected : Str := "Error inesperado".toList

/-- Embeds `fetchInnerTubeKey(videoId)`. -/
def fetchInnerTubeKey (P : Runtime) (videoId : Str) : Except Str Str :=
  match P.fetchPage ("https://www.youtube.com/watch?v=".toList ++ videoId) with
  | .error m => .error m
  | .ok r =>
    match r.body with
    | .error m => .error m
    | .ok html =>
      match findApiKey html with
      | none => .error errNoKey
      | some k => .ok k

/-- Embeds `getPlayer(videoId, apiKey)`, reduced to the caption tracks of the
response. -/
def getPlayer (P : Runtime) (videoId apiKey : Str) : Except Str (Option (List Track)) :=
  match P.fetchPlayer ("https://www.youtube.com/youtubei/v1/player?key=".toList ++ apiKey)
      videoId with
  | .error m => .error m
  | .ok r =>
    if r.ok then r.body
    else .error ("player ".toList ++ (Nat.repr r.status).toList)

/-- Embeds `downloadVtt(baseUrl, tlang)`. -/
def downloadVtt (P : Runtime) (baseUrl tlang : Str) : Except Str Str :=
  match P.parseURL baseUrl with
  | none => .error P.urlError
  | some u =>
    match P.fetchVtt (requestedUrl u tlang) with
    | .error m => .error m
    | .ok r =>
      if r.ok then r.body
      else .error ("timedtext ".toList ++ (Nat.repr r.status).toList)

/-- The helpers that `handler` calls. -/
inductive Call where
  | extractVideoId
  | fetchInnerTubeKey
  | getPlayer
  | chooseTrack
  | downloadVtt
  | vttToSegments
deriving DecidableEq, Repr

/-- The `try` block of `handler` (lines 126-149): the helpers called, in
order, and the response returned or the message of the error thrown. -/
def tryBlock (P : Runtime) (req : Request) : List Call × Except Str Response :=
  match P.parseURL req.url with
  | none => ([], .error P.urlError)
  | some u =>
    let input := searchGet u.searchParams "url".toList
    let tlang := (searchGet u.searchParams "tlang".toList).getD []
    let langs := requestLangs (searchGet u.searchParams "langs".toList)
    match extractVideoId P.parseURL input with
    | .error m => ([.extractVideoId], .error m)
    | .ok videoId =>
      match fetchInnerTubeKey P videoId with
      | .error m => ([.extractVideoId, .fetchInnerTubeKey], .error m)
      | .ok apiKey =>
        match getPlayer P videoId apiKey with
        | .error m => ([.extractVideoId, .fetchInnerTubeKey, .getPlayer], .error m)
        | .ok player =>
          let tracks := player.getD []
          if tracks.isEmpty then
            ([.extractVideoId, .fetchInnerTubeKey, .getPlayer], .ok (err errNoCaptions 404))
          else
            match chooseTrack tracks langs with
            | none =>
              ([.extractVideoId, .fetchInnerTubeKey, .getPlayer, .chooseTrack],
                .error P.typeError)
            | some best =>
              match downloadVtt P best.baseUrl tlang with
              | .error m =>
                ([.extractVideoId, .fetchInnerTubeKey, .getPlayer, .chooseTrack,
                  .downloadVtt], .error m)
              | .ok vtt =>
                ([.extractVideoId, .fetchInnerTubeKey, .getPlayer, .chooseTrack,
                  .downloadVtt, .vttToSegments],
                 .ok (json (Body.transcript videoId
                    (match best.languageCode with
                     | some (c :: cs) => c :: cs
                     | _ => "unknown".toList)
                    (if best.kind = some "asr".toList then "innertube (auto-ASR)".toList
                     else "innertube (manual)".toList)
                    (vttToSegments vtt)) 200))

/-- The `catch` clause of `handler` (lines 150-152), for an error with the
message `m`: `err(e.message || 'Error inesperado', 500)`. -/
def caught (m : Str) : Response := err (if m = [] then errUnexpected else m) 500

/-- Embeds `handler(req)`: the helpers called and the response. -/
def handler (P : Runtime) (req : Request) : List Call × Response :=
  if req.method = "OPTIONS".toList then
    ([], { status := 204,
           headers := [("access-control-allow-origin".toList, "*".toList),
             ("access-control-allow-methods".toList, "GET,OPTIONS".toList),
             ("access-control-allow-headers".toList, "content-type".toList)],
           body := Body.empty })
  else
    match tryBlock P req with
    | (calls, .ok r) => (calls, r)
    | (calls, .error m) => (calls, caught m)

/-- A page that holds a key. -/
def samplePage : Str :=
  "<script>".toList ++ apiKeyMarker ++ "AIzaKey".toList ++ [Char.ofNat 0x22] ++ ",</script>".toList

/-- A runtime for the examples: the page holds a key, the player answers with
the given status and tracks, and the subtitle text is the given one. -/
def sampleRuntime (playerStatus : Nat) (tracks : Option (List Track)) (vtt : Str) : Runtime :=
  { parseURL := parseHttpUrl
    urlError := "Invalid URL".toList
    typeError := "Cannot read properties of undefined".toList
    fetchPage := fun _ => .ok { status := 200, body := .ok samplePage }
    fetchPlayer := fun _ _ => .ok { status := playerStatus, body := .ok tracks }
    fetchVtt := fun _ => .ok { status := 200, body := .ok vtt } }

/-- A request for a video by its bare id. -/
def sampleRequest : Request :=
  { method := "GET".toList,
    url := "https://app.example.com/api/transcript?url=dQw4w9WgXcQ&langs=EN".toList }

/-! ## Theorems: track selection -/

theorem findIndex_eq_firstIndex {α : Type} (p : α → Bool) (l : List α) :
    findIndex p l = match firstIndex? p l with
      | some i => (i : Int)
      | none => -1 := by
  induction l with
  | nil => rfl
  | cons a as ih =>
    simp only [findIndex, firstIndex?]
    by_cases hp : p a = true
    · simp [hp]
    · simp only [hp, if_false, Bool.false_eq_true]
      rw [ih]
      cases h : firstIndex? p as with
      | none => simp
      | some i =>
        simp only [Option.map_some']
        have : ((i : Int) = -1) = False := by
          apply eq_false; omega
        simp [this]

theorem pref_eq_score (langs : List Str) (t : Track) :
    pref langs t = (score langs t : Int) := by
  unfold pref score
  simp only [startsWith]
  rw [findIndex_eq_firstIndex]
  cases h : firstIndex? (fun l => l.isPrefixOf (toLowerCase (t.languageCode.getD []))) langs with
  | none =>
    by_cases hq : t.kind = some "asr".toList <;> simp [hq]
  | some i =>
    have : ((i : Int) = -1) = False := by
      apply eq_false; omega
    by_cases hq : t.kind = some "asr".toList <;> simp [hq, this]

/-- The head of a stable sort is the first element with the least key. -/
theorem jsSort_head {α : Type} (key : α → Int) (l : List α) (h : l ≠ []) :
    ∃ pre t post, l = pre ++ t :: post ∧
      (jsSort (fun a b => key a - key b) l).head? = some t ∧
      (∀ u ∈ pre, key t < key u) ∧ (∀ u ∈ post, key t ≤ key u) := by
  induction l with
  | nil => exact absurd rfl h
  | cons a as ih =>
    by_cases has : as = []
    · subst has
      exact ⟨[], a, [], rfl, rfl, by simp, by simp⟩
    · obtain ⟨pre, t, post, hl, hhead, hpre, hpost⟩ := ih has
      have hs : ∃ rest, jsSort (fun a b => key a - key b) as = t :: rest := by
        cases hj : jsSort (fun a b => key a - key b) as with
        | nil => rw [hj] at hhead; simp at hhead
        | cons x rest =>
          rw [hj] at hhead
          simp only [List.head?_cons, Option.some.injEq] at hhead
          exact ⟨rest, by rw [hhead]⟩
      obtain ⟨rest, hrest⟩ := hs
      by_cases hle : key a ≤ key t
      · refine ⟨[], a, as, rfl, ?_, by simp, ?_⟩
        · simp only [jsSort, hrest, insertSorted]
          have : key a - key t ≤ 0 := by omega
          simp [this]
        · intro u hu
          rw [hl] at hu
          rcases List.mem_append.1 hu with hu | hu
          · have := hpre u hu; omega
          · rcases List.mem_cons.1 hu with hu | hu
            · subst hu; exact hle
            · have := hpost u hu; omega
      · refine ⟨a :: pre, t, post, by rw [hl]; rfl, ?_, ?_, hpost⟩
        · simp only [jsSort, hrest, insertSorted]
          have : ¬ key a - key t ≤ 0 := by omega
          simp [this]
        · intro u hu
          rcases List.mem_cons.1 hu with hu | hu
          · subst hu; omega
          · exact hpre u hu

/-- C1. For a non-empty track list `chooseTrack` returns the track of least
score (10 for `asr`, plus the index of the first preferred language that is a
prefix of the lower-cased language code, or 5), and among the tracks of least
score the one that comes first in the list: every earlier track has a
strictly larger score, every later one a score at least as large. For the
tracks en manual, es manual, es asr and preference es, en the scores are 1, 0
and 10 and the manual es track is returned. -/
theorem chooseTrack_least_score_first :
    (∀ (tracks : List Track) (langs : List Str), tracks ≠ [] →
      ∃ pre t post, tracks = pre ++ t :: post ∧
        chooseTrack tracks langs = some t ∧
        (∀ u ∈ pre, score langs t < score langs u) ∧
        (∀ u ∈ post, score langs t ≤ score langs u)) ∧
    (∀ (langs : List Str) (t : Track), pref langs t = (score langs t : Int)) ∧
    [enManual, esManual, esAsr].map (score ["es".toList, "en".toList]) = [1, 0, 10] ∧
    chooseTrack [enManual, esManual, esAsr] ["es".toList, "en".toList] = some esManual := by
  refine ⟨?_, pref_eq_score, by decide, by decide⟩
  intro tracks langs h
  obtain ⟨pre, t, post, hl, hhead, hpre, hpost⟩ := jsSort_head (pref langs) tracks h
  refine ⟨pre, t, post, hl, hhead, ?_, ?_⟩
  · intro u hu
    have := hpre u hu
    rw [pref_eq_score, pref_eq_score] at this
    exact_mod_cast this
  · intro u hu
    have := hpost u hu
    rw [pref_eq_score, pref_eq_score] at this
    exact_mod_cast this

/-- The general part of C1 at the tracks of the specification's example. -/
theorem chooseTrack_least_score_first_witness :
    [enManual, esManual, esAsr] ≠ [] ∧
    ∃ pre t post, [enManual, esManual, esAsr] = pre ++ t :: post ∧
      chooseTrack [enManual, esManual, esAsr] ["es".toList, "en".toList] = some t ∧
      (∀ u ∈ pre, score ["es".toList, "en".toList] t < score ["es".toList, "en".toList] u) ∧
      (∀ u ∈ post, score ["es".toList, "en".toList] t ≤ score ["es".toList, "en".toList] u) :=
  ⟨by decide, chooseTrack_least_score_first.1 _ _ (by decide)⟩

/-! ## Theorems: video id extraction -/

theorem isBareId_ne_nil {s : Str} (h : isBareId s = true) : s ≠ [] := by
  intro hs
  subst hs
  simp [isBareId] at h

theorem isBareId_no_slash {s : Str} (h : isBareId s = true) : '/' ∉ s := by
  intro hmem
  simp only [isBareId, Bool.and_eq_true, List.all_eq_true] at h
  have := h.2 _ hmem
  revert this
  decide

theorem extractVideoId_bare (parseURL : Str → Option URL) (s : Str)
    (h : isBareId s = true) : extractVideoId parseURL (some s) = .ok s := by
  cases s with
  | nil => exact absurd rfl (isBareId_ne_nil h)
  | cons c cs => simp [extractVideoId, h]

theorem extractVideoId_url (parseURL : Str → Option URL) (s : Str) (u : URL)
    (hne : s ≠ []) (hb : isBareId s = false) (hp : parseURL s = some u) :
    extractVideoId parseURL (some s) =
      if includes u.hostname "youtu.be".toList then
        match (pathParts u.pathname).head? with
        | some (d :: ds) => .ok (d :: ds)
        | _ => .error errNoId
      else if includes u.hostname "youtube.com".toList then
        match fromStandardHost u with
        | some id => .ok id
        | none => .error errNoId
      else .error errNoId := by
  cases s with
  | nil => exact absurd rfl hne
  | cons c cs => simp only [extractVideoId, hb, hp, Bool.false_eq_true, if_false]

theorem splitOn_ne_nil (sep : Char) (s : Str) : splitOn sep s ≠ [] := by
  induction s with
  | nil => simp [splitOn]
  | cons c cs ih =>
    simp only [splitOn]
    split
    · simp
    · split <;> simp

/-- Splitting at the first separator: the block before it is the first piece. -/
theorem splitOn_append_sep (sep : Char) (x r : Str) (hx : sep ∉ x) :
    splitOn sep (x ++ sep :: r) = x :: splitOn sep r := by
  induction x with
  | nil => simp [splitOn]
  | cons c cs ih =>
    have hc : c ≠ sep := fun h => hx (by simp [h])
    have hcs : sep ∉ cs := fun h => hx (by simp [h])
    rw [List.cons_append, splitOn, if_neg hc, ih hcs]

theorem splitOn_no_sep (sep : Char) (x : Str) (hx : sep ∉ x) : splitOn sep x = [x] := by
  induction x with
  | nil => simp [splitOn]
  | cons c cs ih =>
    have hc : c ≠ sep := fun h => hx (by simp [h])
    have hcs : sep ∉ cs := fun h => hx (by simp [h])
    rw [splitOn, if_neg hc, ih hcs]

/-- The first piece of `x ++ rest`, when `rest` is empty or starts with the
separator. -/
theorem splitOn_head (sep : Char) (x rest : Str) (hx : sep ∉ x)
    (hrest : rest = [] ∨ ∃ r, rest = sep :: r) :
    ∃ tl, splitOn sep (x ++ rest) = x :: tl := by
  rcases hrest with h | ⟨r, h⟩
  · subst h
    exact ⟨[], by simp [splitOn_no_sep sep x hx]⟩
  · subst h
    exact ⟨_, splitOn_append_sep sep x r hx⟩

theorem pathParts_slash_cons (p : Str) : pathParts ('/' :: p) = pathParts p := by
  simp [pathParts, splitOn]

theorem pathParts_seg (x rest : Str) (hx : '/' ∉ x) (hne : x ≠ [])
    (hrest : rest = [] ∨ ∃ r, rest = '/' :: r) :
    ∃ tl, pathParts (x ++ rest) = x :: tl := by
  obtain ⟨tl, htl⟩ := splitOn_head '/' x rest hx hrest
  refine ⟨tl.filter (fun s => !s.isEmpty), ?_⟩
  rw [pathParts, htl]
  cases x with
  | nil => exact absurd rfl hne
  | cons c cs => simp

/-- C3. A string of exactly eleven characters, each a word character or a
hyphen, is returned unchanged, whatever the URL parser. -/
theorem extractVideoId_bare_id (parseURL : Str → Option URL) (id : Str)
    (hlen : id.length = 11) (hchars : ∀ c ∈ id, isWordChar c = true ∨ c = '-') :
    extractVideoId parseURL (some id) = .ok id := by
  apply extractVideoId_bare
  simp only [isBareId, Bool.and_eq_true, beq_iff_eq, List.all_eq_true, Bool.or_eq_true]
  exact ⟨hlen, fun c hc => hchars c hc⟩

/-- C3 at the id `dQw4w9WgXcQ`. -/
theorem extractVideoId_bare_id_witness :
    extractVideoId parseHttpUrl (some "dQw4w9WgXcQ".toList) = .ok "dQw4w9WgXcQ".toList :=
  extractVideoId_bare_id parseHttpUrl "dQw4w9WgXcQ".toList (by decide) (by decide)

/-- C4. For a valid eleven-character id `x` and an input that the parser
accepts as a URL (so not itself a bare id), `extractVideoId` returns exactly
`x` when the URL has one of the recognized shapes: a short-link host whose
path is `/x`; a standard host (one containing `youtube.com` that is not a
short-link host) with path `/watch` and query parameter `v = x`; a standard
host with path `/shorts/x`, `/embed/x` or `/live/x`. Further path segments
(`rest`) and further query parameters may follow. -/
theorem extractVideoId_url_shapes (parseURL : Str → Option URL) (input x : Str) (u : URL)
    (hx : isBareId x = true) (hne : input ≠ []) (hb : isBareId input = false)
    (hp : parseURL input = some u) :
    (∀ rest, includes u.hostname "youtu.be".toList = true →
      u.pathname = '/' :: (x ++ rest) → (rest = [] ∨ ∃ r, rest = '/' :: r) →
      extractVideoId parseURL (some input) = .ok x) ∧
    (includes u.hostname "youtu.be".toList = false →
      includes u.hostname "youtube.com".toList = true →
      u.pathname = "/watch".toList → searchGet u.searchParams "v".toList = some x →
      extractVideoId parseURL (some input) = .ok x) ∧
    (∀ kind rest, includes u.hostname "youtu.be".toList = false →
      includes u.hostname "youtube.com".toList = true →
      (kind = "shorts".toList ∨ kind = "embed".toList ∨ kind = "live".toList) →
      u.pathname = '/' :: (kind ++ '/' :: (x ++ rest)) → (rest = [] ∨ ∃ r, rest = '/' :: r) →
      extractVideoId parseURL (some input) = .ok x) := by
  have hxne := isBareId_ne_nil hx
  have hxs := isBareId_no_slash hx
  rw [extractVideoId_url parseURL input u hne hb hp]
  refine ⟨?_, ?_, ?_⟩
  · intro rest hshort hpath hrest
    obtain ⟨tl, htl⟩ := pathParts_seg x rest hxs hxne hrest
    rw [if_pos hshort, hpath, pathParts_slash_cons, htl]
    cases x with
    | nil => exact absurd rfl hxne
    | cons c cs => rfl
  · intro hshort hstd hpath hv
    rw [if_neg (by rw [hshort]; decide), if_pos hstd]
    have : fromStandardHost u = some x := by
      have hwp : watchParam u = some x := by
        unfold watchParam
        rw [if_pos hpath, hv]
      unfold fromStandardHost
      rw [hwp]
      cases x with
      | nil => exact absurd rfl hxne
      | cons c cs => rfl
    rw [this]
  · intro kind rest hshort hstd hkind hpath hrest
    obtain ⟨tl, htl⟩ := pathParts_seg x rest hxs hxne hrest
    have hks : '/' ∉ kind := by
      rcases hkind with h | h | h <;> subst h <;> decide
    have hkne : kind ≠ [] := by
      rcases hkind with h | h | h <;> subst h <;> decide
    have hparts : pathParts u.pathname = kind :: x :: tl := by
      rw [hpath, pathParts_slash_cons]
      have h1 : splitOn '/' (kind ++ '/' :: (x ++ rest)) = kind :: splitOn '/' (x ++ rest) :=
        splitOn_append_sep '/' kind (x ++ rest) hks
      have h2 : pathParts (x ++ rest) = x :: tl := htl
      simp only [pathParts] at h2 ⊢
      rw [h1]
      cases kind with
      | nil => exact absurd rfl hkne
      | cons k ks => simp [h2]
    have hw : u.pathname ≠ "/watch".toList := by
      intro hw
      have hlen := congrArg List.length (congrArg pathParts hw)
      rw [hparts, show pathParts "/watch".toList = ["watch".toList] by decide] at hlen
      simp at hlen
    rw [if_neg (by rw [hshort]; decide), if_pos hstd]
    have : fromStandardHost u = some x := by
      have hwp : watchParam u = none := by
        unfold watchParam
        rw [if_neg hw]
      have hfp : fromPathParts u = some x := by
        unfold fromPathParts
        rw [hparts]
        exact if_pos ⟨hkind, hxne⟩
      unfold fromStandardHost
      rw [hwp, hfp]
    rw [this]

/-- C4 at three concrete URLs read by the reference parser: a short link, a
watch URL with a further query parameter, and a shorts URL with a further
path segment. -/
theorem extractVideoId_url_shapes_witness :
    extractVideoId parseHttpUrl (some "https://youtu.be/dQw4w9WgXcQ".toList)
      = .ok "dQw4w9WgXcQ".toList ∧
    extractVideoId parseHttpUrl (some "https://www.youtube.com/watch?v=dQw4w9WgXcQ&t=42".toList)
      = .ok "dQw4w9WgXcQ".toList ∧
    extractVideoId parseHttpUrl (some "https://www.youtube.com/shorts/dQw4w9WgXcQ/more".toList)
      = .ok "dQw4w9WgXcQ".toList :=
  ⟨(extractVideoId_url_shapes parseHttpUrl "https://youtu.be/dQw4w9WgXcQ".toList
      "dQw4w9WgXcQ".toList ⟨"youtu.be".toList, "/dQw4w9WgXcQ".toList, []⟩
      (by decide) (by decide) (by decide) (by decide)).1 [] (by decide) (by decide)
      (Or.inl rfl),
   (extractVideoId_url_shapes parseHttpUrl
      "https://www.youtube.com/watch?v=dQw4w9WgXcQ&t=42".toList "dQw4w9WgXcQ".toList
      ⟨"www.youtube.com".toList, "/watch".toList,
        [("v".toList, "dQw4w9WgXcQ".toList), ("t".toList, "42".toList)]⟩
      (by decide) (by decide) (by decide) (by decide)).2.1 (by decide) (by decide)
      (by decide) (by decide),
   (extractVideoId_url_shapes parseHttpUrl
      "https://www.youtube.com/shorts/dQw4w9WgXcQ/more".toList "dQw4w9WgXcQ".toList
      ⟨"www.youtube.com".toList, "/shorts/dQw4w9WgXcQ/more".toList, []⟩
      (by decide) (by decide) (by decide) (by decide)).2.2 "shorts".toList "/more".toList
      (by decide) (by decide) (Or.inl rfl) (by decide) (Or.inr ⟨"more".toList, by decide⟩)⟩

theorem pathParts_ne_nil {p : Str} {s : Str} (h : s ∈ pathParts p) : s ≠ [] := by
  simp only [pathParts, List.mem_filter] at h
  intro hs
  subst hs
  simp at h

theorem pathParts_head_ne_nil {p s : Str} {tl : List Str} (h : pathParts p = s :: tl) :
    s ≠ [] :=
  pathParts_ne_nil (p := p) (by rw [h]; simp)

theorem pathParts_second_ne_nil {p s t : Str} {tl : List Str} (h : pathParts p = s :: t :: tl) :
    t ≠ [] :=
  pathParts_ne_nil (p := p) (by rw [h]; simp)

/-- What the `youtube.com` branch returns is never empty, and is the `v`
parameter or the second path segment. -/
theorem fromStandardHost_some {u : URL} {id : Str} (h : fromStandardHost u = some id) :
    id ≠ [] ∧ (searchGet u.searchParams "v".toList = some id ∨
      ∃ p0 tl, pathParts u.pathname = p0 :: id :: tl) := by
  have hpath : fromPathParts u = some id →
      id ≠ [] ∧ (searchGet u.searchParams "v".toList = some id ∨
        ∃ p0 tl, pathParts u.pathname = p0 :: id :: tl) := by
    intro h
    unfold fromPathParts at h
    split at h
    · rename_i p0 p1 tl hparts
      split at h
      · rename_i hc
        simp only [Option.some.injEq] at h
        subst h
        exact ⟨hc.2, Or.inr ⟨p0, tl, hparts⟩⟩
      · cases h
    · cases h
  unfold fromStandardHost at h
  cases hw : watchParam u with
  | none => rw [hw] at h; exact hpath h
  | some v =>
    rw [hw] at h
    cases v with
    | nil => exact hpath h
    | cons c cs =>
      simp only [Option.some.injEq] at h
      subst h
      refine ⟨by simp, Or.inl ?_⟩
      unfold watchParam at hw
      by_cases hp : u.pathname = "/watch".toList
      · rw [if_pos hp] at hw; exact hw
      · rw [if_neg hp] at hw; cases hw

theorem fromPathParts_eq_none_iff (u : URL) :
    fromPathParts u = none ↔
      (match pathParts u.pathname with
       | p0 :: _ :: _ => p0 == "shorts".toList || p0 == "embed".toList || p0 == "live".toList
       | _ => false) = false := by
  unfold fromPathParts
  cases hpp : pathParts u.pathname with
  | nil => simp
  | cons p0 tl =>
    cases tl with
    | nil => simp
    | cons p1 tl2 =>
      have hp1 := pathParts_second_ne_nil hpp
      simp only [Bool.or_eq_false_iff, beq_eq_false_iff_ne, ne_eq]
      constructor
      · intro h
        by_cases hc : (p0 = "shorts".toList ∨ p0 = "embed".toList ∨ p0 = "live".toList) ∧ p1 ≠ []
        · rw [if_pos hc] at h; cases h
        · refine ⟨⟨fun h1 => hc ⟨Or.inl h1, hp1⟩, fun h1 => hc ⟨Or.inr (Or.inl h1), hp1⟩⟩,
            fun h1 => hc ⟨Or.inr (Or.inr h1), hp1⟩⟩
      · rintro ⟨⟨h1, h2⟩, h3⟩
        rw [if_neg]
        rintro ⟨h | h | h, -⟩
        · exact h1 h
        · exact h2 h
        · exact h3 h

theorem watchParam_nonempty_iff (u : URL) :
    (∃ c cs, watchParam u = some (c :: cs)) ↔
      (u.pathname == "/watch".toList &&
        (match searchGet u.searchParams "v".toList with
         | some v => !v.isEmpty
         | none => false)) = true := by
  unfold watchParam
  by_cases hw : u.pathname = "/watch".toList
  · rw [if_pos hw]
    have : (u.pathname == "/watch".toList) = true := by rw [beq_iff_eq]; exact hw
    rw [this, Bool.true_and]
    cases hs : searchGet u.searchParams "v".toList with
    | none => simp
    | some v =>
      cases v with
      | nil => simp
      | cons c cs => simp
  · rw [if_neg hw]
    have : (u.pathname == "/watch".toList) = false := by
      rw [beq_eq_false_iff_ne]; exact hw
    rw [this]
    simp

/-- The `youtube.com` branch falls through exactly when neither the watch
shape nor the path shape is present. -/
theorem fromStandardHost_eq_none_iff (u : URL) :
    fromStandardHost u = none ↔
      ((u.pathname == "/watch".toList &&
        (match searchGet u.searchParams "v".toList with
         | some v => !v.isEmpty
         | none => false)) = false ∧
       (match pathParts u.pathname with
       | p0 :: _ :: _ => p0 == "shorts".toList || p0 == "embed".toList || p0 == "live".toList
       | _ => false) = false) := by
  rw [← fromPathParts_eq_none_iff]
  have hw := watchParam_nonempty_iff u
  unfold fromStandardHost
  cases hv : watchParam u with
  | none =>
    rw [hv] at hw
    have : (u.pathname == "/watch".toList &&
        (match searchGet u.searchParams "v".toList with
         | some v => !v.isEmpty
         | none => false)) = false := by
      rw [← Bool.not_eq_true]
      intro h
      obtain ⟨c, cs, h⟩ := hw.2 h
      cases h
    rw [this]
    simp
  | some v =>
    rw [hv] at hw
    cases v with
    | nil =>
      have : (u.pathname == "/watch".toList &&
          (match searchGet u.searchParams "v".toList with
           | some v => !v.isEmpty
           | none => false)) = false := by
        rw [← Bool.not_eq_true]
        intro h
        obtain ⟨c, cs, h⟩ := hw.2 h
        cases h
      rw [this]
      simp
    | cons c cs =>
      have := hw.1 ⟨c, cs, rfl⟩
      rw [this]
      simp

/-- After a successful parse the only error is the unresolvable-id one, and it
is raised exactly when the URL has no recognized shape. -/
theorem extractVideoId_parsed (parseURL : Str → Option URL) (s : Str) (u : URL)
    (hne : s ≠ []) (hb : isBareId s = false) (hp : parseURL s = some u) :
    (recognized u = false → extractVideoId parseURL (some s) = .error errNoId) ∧
    (recognized u = true → ∃ id, extractVideoId parseURL (some s) = .ok id) := by
  rw [extractVideoId_url parseURL s u hne hb hp]
  by_cases hshort : includes u.hostname "youtu.be".toList = true
  · rw [if_pos hshort]
    cases hparts : pathParts u.pathname with
    | nil =>
      refine ⟨fun _ => rfl, fun h => ?_⟩
      exfalso
      have hnone : fromStandardHost u = none := by
        rw [fromStandardHost_eq_none_iff, hparts]
        refine ⟨?_, rfl⟩
        rw [← Bool.not_eq_true, Bool.and_eq_true, beq_iff_eq]
        rintro ⟨hw, -⟩
        rw [hw] at hparts
        revert hparts
        decide
      rw [fromStandardHost_eq_none_iff] at hnone
      unfold recognized at h
      rw [hshort, Bool.and_assoc, hnone.1, hnone.2, hparts] at h
      revert h
      simp
    | cons p tl =>
      have hpne := pathParts_head_ne_nil hparts
      cases p with
      | nil => exact absurd rfl hpne
      | cons d ds =>
        refine ⟨fun h => ?_, fun _ => ⟨d :: ds, rfl⟩⟩
        unfold recognized at h
        rw [hshort, hparts] at h
        revert h
        simp
  · have hshort' : includes u.hostname "youtu.be".toList = false := by
      cases hh : includes u.hostname "youtu.be".toList
      · rfl
      · exact absurd hh hshort
    rw [if_neg hshort]
    by_cases hstd : includes u.hostname "youtube.com".toList = true
    · rw [if_pos hstd]
      have hiff := fromStandardHost_eq_none_iff u
      have hrec : recognized u = false ↔ fromStandardHost u = none := by
        rw [hiff]
        unfold recognized
        rw [hshort', hstd, Bool.and_assoc]
        simp only [Bool.false_and, Bool.true_and, Bool.false_or, Bool.or_eq_false_iff]
      constructor
      · intro h
        rw [hrec.1 h]
      · intro h
        cases hf : fromStandardHost u with
        | some id => exact ⟨id, rfl⟩
        | none => rw [hrec.2 hf] at h; cases h
    · rw [if_neg hstd]
      refine ⟨fun _ => rfl, fun h => ?_⟩
      have hstd' : includes u.hostname "youtube.com".toList = false := by
        cases hh : includes u.hostname "youtube.com".toList
        · rfl
        · exact absurd hh hstd
      unfold recognized at h
      rw [hshort', hstd'] at h
      revert h
      simp

theorem extractVideoId_unparsed (parseURL : Str → Option URL) (s : Str) (hne : s ≠ [])
    (hb : isBareId s = false) (hp : parseURL s = none) :
    extractVideoId parseURL (some s) = .error errInvalidUrl := by
  cases s with
  | nil => exact absurd rfl hne
  | cons c cs => simp only [extractVideoId, hb, hp, Bool.false_eq_true, if_false]

/-- C5. `extractVideoId` fails with three distinct errors: `Falta url` when the
input is absent or empty; `URL inválida` when the input is non-empty, not a
bare id and rejected by the URL parser; `No se pudo extraer el ID` when the
input parses as a URL that has no recognized shape, in particular whenever
the host contains neither `youtu.be` nor `youtube.com`. With the reference
parser, the empty string, `not a url` and `https://example.com/foo` give the
three errors in that order. -/
theorem extractVideoId_three_errors :
    (∀ parseURL : Str → Option URL,
      extractVideoId parseURL none = .error errMissing ∧
      extractVideoId parseURL (some []) = .error errMissing) ∧
    (∀ (parseURL : Str → Option URL) (s : Str), s ≠ [] → isBareId s = false →
      parseURL s = none → extractVideoId parseURL (some s) = .error errInvalidUrl) ∧
    (∀ (parseURL : Str → Option URL) (s : Str) (u : URL), s ≠ [] → isBareId s = false →
      parseURL s = some u → recognized u = false →
      extractVideoId parseURL (some s) = .error errNoId) ∧
    (∀ (parseURL : Str → Option URL) (s : Str) (u : URL), s ≠ [] → isBareId s = false →
      parseURL s = some u → includes u.hostname "youtu.be".toList = false →
      includes u.hostname "youtube.com".toList = false →
      extractVideoId parseURL (some s) = .error errNoId) ∧
    (errMissing ≠ errInvalidUrl ∧ errMissing ≠ errNoId ∧ errInvalidUrl ≠ errNoId) ∧
    extractVideoId parseHttpUrl (some "".toList) = .error errMissing ∧
    extractVideoId parseHttpUrl (some "not a url".toList) = .error errInvalidUrl ∧
    extractVideoId parseHttpUrl (some "https://example.com/foo".toList) = .error errNoId := by
  refine ⟨fun _ => ⟨rfl, rfl⟩, ?_, ?_, ?_, by decide, by rfl, by rfl, by rfl⟩
  · intro parseURL s hne hb hp
    exact extractVideoId_unparsed parseURL s hne hb hp
  · intro parseURL s u hne hb hp hrec
    exact (extractVideoId_parsed parseURL s u hne hb hp).1 hrec
  · intro parseURL s u hne hb hp hshort hstd
    rw [extractVideoId_url parseURL s u hne hb hp, if_neg (by rw [hshort]; decide),
      if_neg (by rw [hstd]; decide)]

/-- C5 at the inputs of the specification's examples. -/
theorem extractVideoId_three_errors_witness :
    extractVideoId parseHttpUrl (some "not a url".toList) = .error errInvalidUrl ∧
    extractVideoId parseHttpUrl (some "https://example.com/foo".toList) = .error errNoId :=
  ⟨extractVideoId_three_errors.2.1 parseHttpUrl "not a url".toList (by decide) (by decide)
      (by decide),
   extractVideoId_three_errors.2.2.2.1 parseHttpUrl "https://example.com/foo".toList
      ⟨"example.com".toList, "/foo".toList, []⟩ (by decide) (by decide) (by decide)
      (by decide) (by decide)⟩

/-- C6, counterexample. The short link `https://youtu.be/abc` is accepted and
the id returned for it has three characters, so it is no canonical
eleven-character identifier. -/
theorem extractVideoId_returns_short_segment :
    extractVideoId parseHttpUrl (some "https://youtu.be/abc".toList) = .ok "abc".toList ∧
    "abc".toList.length = 3 ∧ isBareId "abc".toList = false :=
  ⟨by rfl, by decide, by decide⟩

/-- C6, amended. Whenever `extractVideoId` succeeds the returned id is a
non-empty string. It is the input itself, a canonical eleven-character
identifier, when the input is a bare id; otherwise the input parsed as a URL
and the id is one of its non-empty path segments or the value of its first
`v` parameter, returned without a check of its length or characters. -/
theorem extractVideoId_ok_shape (parseURL : Str → Option URL) (input : Option Str) (id : Str)
    (h : extractVideoId parseURL input = .ok id) :
    id ≠ [] ∧ ∃ s, input = some s ∧
      ((isBareId s = true ∧ id = s ∧ isBareId id = true) ∨
       (isBareId s = false ∧ ∃ u, parseURL s = some u ∧
          (id ∈ pathParts u.pathname ∨ searchGet u.searchParams "v".toList = some id))) := by
  cases input with
  | none => cases h
  | some s =>
    by_cases hne : s = []
    · subst hne; cases h
    · by_cases hb : isBareId s = true
      · rw [extractVideoId_bare parseURL s hb] at h
        have hid : s = id := Except.ok.inj h
        subst hid
        exact ⟨hne, s, rfl, Or.inl ⟨hb, rfl, hb⟩⟩
      · have hb' : isBareId s = false := by
          cases hh : isBareId s
          · rfl
          · exact absurd hh hb
        cases hp : parseURL s with
        | none =>
          exfalso
          rw [extractVideoId_unparsed parseURL s hne hb' hp] at h
          cases h
        | some u =>
          rw [extractVideoId_url parseURL s u hne hb' hp] at h
          by_cases hshort : includes u.hostname "youtu.be".toList = true
          · rw [if_pos hshort] at h
            cases hparts : pathParts u.pathname with
            | nil => rw [hparts] at h; cases h
            | cons p tl =>
              rw [hparts] at h
              have hpne := pathParts_head_ne_nil hparts
              cases p with
              | nil => exact absurd rfl hpne
              | cons d ds =>
                cases h
                exact ⟨by simp, s, rfl, Or.inr ⟨hb', u, hp, Or.inl (by rw [hparts]; simp)⟩⟩
          · rw [if_neg hshort] at h
            by_cases hstd : includes u.hostname "youtube.com".toList = true
            · rw [if_pos hstd] at h
              cases hf : fromStandardHost u with
              | none => rw [hf] at h; cases h
              | some v =>
                rw [hf] at h
                cases h
                obtain ⟨hvne, hv⟩ := fromStandardHost_some hf
                refine ⟨hvne, s, rfl, Or.inr ⟨hb', u, hp, ?_⟩⟩
                rcases hv with hv | ⟨p0, tl, hv⟩
                · exact Or.inr hv
                · exact Or.inl (by rw [hv]; simp)
            · rw [if_neg hstd] at h
              cases h

/-- C6, amended, at the short link `https://youtu.be/abc`. -/
theorem extractVideoId_ok_shape_witness :
    extractVideoId parseHttpUrl (some "https://youtu.be/abc".toList) = .ok "abc".toList ∧
    "abc".toList ≠ [] :=
  ⟨by rfl, (extractVideoId_ok_shape parseHttpUrl (some "https://youtu.be/abc".toList)
      "abc".toList (by rfl)).1⟩

/-! ## Theorems: numbers and timestamps -/

set_option exponentiation.threshold 1100 in
set_option maxRecDepth 100000 in
/-- Rounding at the edges of its cases: integers up to `2^53` are kept, the
odd integers right above it go to the even neighbour with the even
significand, the largest finite double is kept and half a unit above it
overflows. -/
theorem roundNat_edges :
    roundNat (2 ^ 53 - 1) = some (2 ^ 53 - 1) ∧ roundNat (2 ^ 53) = some (2 ^ 53) ∧
    roundNat (2 ^ 53 + 1) = some (2 ^ 53) ∧ roundNat (2 ^ 53 + 2) = some (2 ^ 53 + 2) ∧
    roundNat (2 ^ 53 + 3) = some (2 ^ 53 + 4) ∧
    roundNat ((2 ^ 53 - 1) * 2 ^ 971) = some ((2 ^ 53 - 1) * 2 ^ 971) ∧
    roundNat (2 ^ 1024 - 2 ^ 970 - 1) = some ((2 ^ 53 - 1) * 2 ^ 971) ∧
    roundNat (2 ^ 1024 - 2 ^ 970) = none ∧ roundNat (2 ^ 1024) = none := by
  decide

theorem roundNat_small {n : Nat} (h : n < maxSafe) : roundNat n = some n := by
  unfold roundNat
  rw [if_pos (by unfold maxSafe at h; norm_num; exact h)]

theorem ofInt_natCast_small {n : Nat} (h : n < maxSafe) : JsNum.ofInt (n : Int) = .fin n := by
  unfold JsNum.ofInt
  rw [if_pos (Int.natCast_nonneg n), Int.toNat_ofNat, roundNat_small h]

theorem toNumber_small {ds : Str} (h : digitsValue ds < maxSafe) :
    toNumber ds = .fin (digitsValue ds) := ofInt_natCast_small h

theorem fin_add_small {a b : Nat} (h : a + b < maxSafe) :
    (JsNum.fin a + JsNum.fin b : JsNum) = .fin ((a + b : Nat) : Int) := by
  show JsNum.ofInt ((a : Int) + (b : Int)) = _
  rw [← Int.natCast_add]
  exact ofInt_natCast_small h

theorem fin_mul_small {a b : Nat} (h : a * b < maxSafe) :
    (JsNum.fin a * JsNum.fin b : JsNum) = .fin ((a * b : Nat) : Int) := by
  show JsNum.ofInt ((a : Int) * (b : Int)) = _
  rw [← Int.natCast_mul]
  exact ofInt_natCast_small h

theorem lit_60 : (60 : JsNum) = .fin ((60 : Nat) : Int) := by decide
theorem lit_1000 : (1000 : JsNum) = .fin ((1000 : Nat) : Int) := by decide
theorem lit_0 : (0 : JsNum) = .fin ((0 : Nat) : Int) := by decide
theorem isWhitespace_of_isDigit {c : Char} (h : c.isDigit = true) : isWhitespace c = false := by
  simp only [Char.isDigit, Bool.and_eq_true, decide_eq_true_eq] at h
  have h1 : 48 ≤ c.toNat := by
    have := h.1
    simpa [Char.toNat, UInt32.le_def] using this
  have h2 : c.toNat ≤ 57 := by
    have := h.2
    simpa [Char.toNat, UInt32.le_def] using this
  simp only [isWhitespace, Bool.or_eq_false_iff, Bool.and_eq_false_iff, decide_eq_false_iff_not,
    List.mem_cons, List.mem_singleton, List.not_mem_nil]
  constructor
  · intro hx
    simp only [or_false] at hx
    omega
  · left; omega

theorem trimStart_ws_append (pre s : Str) (h : ∀ c ∈ pre, isWhitespace c = true) :
    trimStart (pre ++ s) = trimStart s := by
  induction pre with
  | nil => rfl
  | cons c cs ih =>
    have hc := h c (by simp)
    have hcs : ∀ d ∈ cs, isWhitespace d = true := fun d hd => h d (by simp [hd])
    have := ih hcs
    simp only [trimStart] at this ⊢
    simp [List.dropWhile, hc, this]

theorem trimStart_cons_nonws (c : Char) (s : Str) (h : isWhitespace c = false) :
    trimStart (c :: s) = c :: s := by
  simp [trimStart, List.dropWhile, h]

theorem trimEnd_append_ws (s post : Str) (h : ∀ c ∈ post, isWhitespace c = true) :
    trimEnd (s ++ post) = trimEnd s := by
  have h' : ∀ c ∈ post.reverse, isWhitespace c = true := fun c hc => h c (List.mem_reverse.1 hc)
  have := trimStart_ws_append post.reverse s.reverse h'
  simp only [trimStart] at this
  simp only [trimEnd, List.reverse_append, this]

theorem trimEnd_append_nonws (s : Str) (c : Char) (h : isWhitespace c = false) :
    trimEnd (s ++ [c]) = s ++ [c] := by
  simp [trimEnd, List.dropWhile, h]

/-- White space around a string that starts and ends with other characters is
exactly what `trim` removes. -/
theorem trim_wrap (pre post mid : Str) (a b : Char)
    (hpre : ∀ c ∈ pre, isWhitespace c = true) (hpost : ∀ c ∈ post, isWhitespace c = true)
    (ha : isWhitespace a = false) (hb : isWhitespace b = false) :
    trim (pre ++ (a :: (mid ++ [b])) ++ post) = a :: (mid ++ [b]) := by
  unfold trim
  rw [List.append_assoc, trimStart_ws_append _ _ hpre]
  rw [List.cons_append, trimStart_cons_nonws _ _ ha, ← List.cons_append,
    trimEnd_append_ws _ _ hpost]
  rw [show a :: (mid ++ [b]) = (a :: mid) ++ [b] by simp]
  exact trimEnd_append_nonws _ _ hb
theorem takeWhile_dropWhile_stop (p : Char → Bool) (h : Str) (c : Char) (r : Str)
    (hh : ∀ d ∈ h, p d = true) (hc : p c = false) :
    (h ++ c :: r).takeWhile p = h ∧ (h ++ c :: r).dropWhile p = c :: r := by
  induction h with
  | nil => simp [List.takeWhile, List.dropWhile, hc]
  | cons d ds ih =>
    have hd := hh d (by simp)
    have hds : ∀ x ∈ ds, p x = true := fun x hx => hh x (by simp [hx])
    obtain ⟨h1, h2⟩ := ih hds
    simp [List.takeWhile, List.dropWhile, hd, h1, h2]

theorem matchCore_digits (m1 m2 s1 s2 k1 k2 k3 : Char) (r : Str)
    (hm1 : m1.isDigit = true) (hm2 : m2.isDigit = true) (hs1 : s1.isDigit = true)
    (hs2 : s2.isDigit = true) (hk1 : k1.isDigit = true) (hk2 : k2.isDigit = true)
    (hk3 : k3.isDigit = true) :
    matchCore (m1 :: m2 :: ':' :: s1 :: s2 :: '.' :: k1 :: k2 :: k3 :: r) =
      some ([m1, m2], [s1, s2], [k1, k2, k3]) := by
  simp [matchCore, hm1, hm2, hs1, hs2, hk1, hk2, hk3]

theorem matchAt_hours (h : Str) (m1 m2 s1 s2 k1 k2 k3 : Char) (r : Str)
    (hne : h ≠ []) (hh : ∀ d ∈ h, d.isDigit = true)
    (hm1 : m1.isDigit = true) (hm2 : m2.isDigit = true) (hs1 : s1.isDigit = true)
    (hs2 : s2.isDigit = true) (hk1 : k1.isDigit = true) (hk2 : k2.isDigit = true)
    (hk3 : k3.isDigit = true) :
    matchAt (h ++ ':' :: m1 :: m2 :: ':' :: s1 :: s2 :: '.' :: k1 :: k2 :: k3 :: r) =
      some (some h, [m1, m2], [s1, s2], [k1, k2, k3]) := by
  obtain ⟨h1, h2⟩ := takeWhile_dropWhile_stop Char.isDigit h ':'
    (m1 :: m2 :: ':' :: s1 :: s2 :: '.' :: k1 :: k2 :: k3 :: r) hh (by decide)
  unfold matchAt
  rw [h1, h2]
  cases h with
  | nil => exact absurd rfl hne
  | cons d ds =>
    simp [matchCore_digits m1 m2 s1 s2 k1 k2 k3 r hm1 hm2 hs1 hs2 hk1 hk2 hk3]

theorem matchAt_no_hours (m1 m2 s1 s2 k1 k2 k3 : Char)
    (hm1 : m1.isDigit = true) (hm2 : m2.isDigit = true) (hs1 : s1.isDigit = true)
    (hs2 : s2.isDigit = true) (hk1 : k1.isDigit = true) (hk2 : k2.isDigit = true)
    (hk3 : k3.isDigit = true) :
    matchAt [m1, m2, ':', s1, s2, '.', k1, k2, k3] =
      some (none, [m1, m2], [s1, s2], [k1, k2, k3]) := by
  obtain ⟨h1, h2⟩ := takeWhile_dropWhile_stop Char.isDigit [m1, m2] ':'
    [s1, s2, '.', k1, k2, k3] (by simp [hm1, hm2]) (by decide)
  have h1' : List.takeWhile Char.isDigit [m1, m2, ':', s1, s2, '.', k1, k2, k3] = [m1, m2] := h1
  have h2' : List.dropWhile Char.isDigit [m1, m2, ':', s1, s2, '.', k1, k2, k3]
      = [':', s1, s2, '.', k1, k2, k3] := h2
  unfold matchAt
  rw [h1', h2']
  have hc : matchCore [s1, s2, '.', k1, k2, k3] = none := rfl
  simp [hc, matchCore_digits m1 m2 s1 s2 k1 k2 k3 [] hm1 hm2 hs1 hs2 hk1 hk2 hk3]

theorem matchTs_of_matchAt {s : Str} {m : Option Str × Str × Str × Str}
    (h : matchAt s = some m) : matchTs s = some m := by
  cases s with
  | nil => simp [matchAt, matchCore] at h
  | cons c cs => simp [matchTs, h]

theorem toMs_of_match {ts : Str} {hours : Option Str} {mn s ms : Str}
    (h : matchTs (trim ts) = some (hours, mn, s, ms)) :
    toMs ts = (((hoursNumber hours * 60 + toNumber mn) * 60) + toNumber s) * 1000
      + toNumber ms := by
  unfold toMs
  rw [h]
  cases hours <;> rfl

theorem trim_tsToken (pre : Str) (hours : Option Str) (m1 m2 s1 s2 k1 k2 k3 : Char) (post : Str)
    (hpre : ∀ c ∈ pre, isWhitespace c = true) (hpost : ∀ c ∈ post, isWhitespace c = true)
    (hh : ∀ h, hours = some h → h ≠ [] ∧ ∀ c ∈ h, c.isDigit = true)
    (hm1 : m1.isDigit = true) (hk3 : k3.isDigit = true) :
    trim (tsToken pre hours [m1, m2] [s1, s2] [k1, k2, k3] post) =
      hoursPart hours ++ [m1, m2, ':', s1, s2, '.', k1, k2, k3] := by
  have hk3w := isWhitespace_of_isDigit hk3
  cases hours with
  | none =>
    have := trim_wrap pre post [m2, ':', s1, s2, '.', k1, k2] m1 k3 hpre hpost
      (isWhitespace_of_isDigit hm1) hk3w
    simpa [tsToken, hoursPart] using this
  | some h =>
    obtain ⟨hne, hd⟩ := hh h rfl
    cases h with
    | nil => exact absurd rfl hne
    | cons d ds =>
      have hdw := isWhitespace_of_isDigit (hd d (by simp))
      have := trim_wrap pre post (ds ++ [':', m1, m2, ':', s1, s2, '.', k1, k2]) d k3 hpre hpost
        hdw hk3w
      simpa [tsToken, hoursPart] using this

theorem matchTs_tsToken (pre : Str) (hours : Option Str) (m1 m2 s1 s2 k1 k2 k3 : Char)
    (post : Str)
    (hpre : ∀ c ∈ pre, isWhitespace c = true) (hpost : ∀ c ∈ post, isWhitespace c = true)
    (hh : ∀ h, hours = some h → h ≠ [] ∧ ∀ c ∈ h, c.isDigit = true)
    (hm1 : m1.isDigit = true) (hm2 : m2.isDigit = true) (hs1 : s1.isDigit = true)
    (hs2 : s2.isDigit = true) (hk1 : k1.isDigit = true) (hk2 : k2.isDigit = true)
    (hk3 : k3.isDigit = true) :
    matchTs (trim (tsToken pre hours [m1, m2] [s1, s2] [k1, k2, k3] post)) =
      some (hours, [m1, m2], [s1, s2], [k1, k2, k3]) := by
  rw [trim_tsToken pre hours m1 m2 s1 s2 k1 k2 k3 post hpre hpost hh hm1 hk3]
  apply matchTs_of_matchAt
  cases hours with
  | none => exact matchAt_no_hours m1 m2 s1 s2 k1 k2 k3 hm1 hm2 hs1 hs2 hk1 hk2 hk3
  | some h =>
    obtain ⟨hne, hd⟩ := hh h rfl
    have := matchAt_hours h m1 m2 s1 s2 k1 k2 k3 [] hne hd hm1 hm2 hs1 hs2 hk1 hk2 hk3
    simpa [hoursPart] using this

theorem hoursNumber_small {hours : Option Str} (h : hoursValue hours < maxSafe) :
    hoursNumber hours = .fin (hoursValue hours) := by
  cases hours with
  | none => exact lit_0
  | some d => exact toNumber_small h

/-- Below `2^53` the arithmetic of `toMs` is exact. -/
theorem toMs_formula_exact (hours : Option Str) (mn s ms : Str)
    (h : tsValue hours mn s ms < maxSafe) :
    (((hoursNumber hours * 60 + toNumber mn) * 60) + toNumber s) * 1000 + toNumber ms
      = JsNum.fin (tsValue hours mn s ms) := by
  unfold tsValue at h ⊢
  have e1 : hoursValue hours < maxSafe := by omega
  have e2 : digitsValue mn < maxSafe := by omega
  have e3 : digitsValue s < maxSafe := by omega
  have e4 : digitsValue ms < maxSafe := by omega
  rw [hoursNumber_small e1, toNumber_small e2, toNumber_small e3, toNumber_small e4,
    lit_60, lit_1000]
  rw [fin_mul_small (by omega), fin_add_small (by omega), fin_mul_small (by omega),
    fin_add_small (by omega), fin_mul_small (by omega), fin_add_small (by omega)]

/-- C7, counterexample. With an hours field of ten digits the value passes
`2^53` and the last addition of line 47 is rounded: the token
`3000000000:00:00.001` denotes 10800000000000001 ms and `toMs` returns
10800000000000000. -/
theorem toMs_rounds_large_value :
    toMs "3000000000:00:00.001".toList = JsNum.fin 10800000000000000 ∧
    tsValue (some "3000000000".toList) "00".toList "00".toList "001".toList
      = 10800000000000001 ∧
    toMs "3000000000:00:00.001".toList ≠
      JsNum.fin (tsValue (some "3000000000".toList) "00".toList "00".toList "001".toList) := by
  decide

/-- C7, amended. For a token `[hours:]MM:SS.mmm` (hours any non-empty run of
digits, optional and 0 when absent; two-digit minutes and seconds; three-digit
milliseconds; white space allowed around it) `toMs` returns
`((hours*60 + minutes)*60 + seconds)*1000 + milliseconds` as line 47 computes
it, in double arithmetic, which is exactly that integer whenever the integer
is below `2^53`. The tokens `00:01:02.345` and `01:00:00.000` give 62345 and
3600000. -/
theorem toMs_timestamp :
    (∀ (pre : Str) (hours : Option Str) (mm ss ms post : Str),
      (∀ c ∈ pre, isWhitespace c = true) → (∀ c ∈ post, isWhitespace c = true) →
      (∀ h, hours = some h → h ≠ [] ∧ ∀ c ∈ h, c.isDigit = true) →
      mm.length = 2 → (∀ c ∈ mm, c.isDigit = true) →
      ss.length = 2 → (∀ c ∈ ss, c.isDigit = true) →
      ms.length = 3 → (∀ c ∈ ms, c.isDigit = true) →
      toMs (tsToken pre hours mm ss ms post) =
          (((hoursNumber hours * 60 + toNumber mm) * 60) + toNumber ss) * 1000 + toNumber ms ∧
        (tsValue hours mm ss ms < maxSafe →
          toMs (tsToken pre hours mm ss ms post) = JsNum.fin (tsValue hours mm ss ms))) ∧
    toMs "00:01:02.345".toList = JsNum.fin 62345 ∧
    toMs "01:00:00.000".toList = JsNum.fin 3600000 ∧
    maxSafe = 2 ^ 53 := by
  refine ⟨?_, by decide, by decide, by decide⟩
  intro pre hours mm ss ms post hpre hpost hh hmm hmmd hss hssd hms hmsd
  obtain ⟨m1, m2, rfl⟩ := List.length_eq_two.1 hmm
  obtain ⟨s1, s2, rfl⟩ := List.length_eq_two.1 hss
  obtain ⟨k1, k2, k3, rfl⟩ := List.length_eq_three.1 hms
  have hm := matchTs_tsToken pre hours m1 m2 s1 s2 k1 k2 k3 post hpre hpost hh
    (hmmd m1 (by simp)) (hmmd m2 (by simp)) (hssd s1 (by simp)) (hssd s2 (by simp))
    (hmsd k1 (by simp)) (hmsd k2 (by simp)) (hmsd k3 (by simp))
  have hf := toMs_of_match hm
  refine ⟨hf, fun hv => ?_⟩
  rw [hf]
  exact toMs_formula_exact hours _ _ _ hv

/-- C7, amended, at the token `1:02:03.456` written between blanks. -/
theorem toMs_timestamp_witness :
    toMs (tsToken " ".toList (some "1".toList) "02".toList "03".toList "456".toList
      "  ".toList) = JsNum.fin 3723456 := by
  have h := (toMs_timestamp.1 " ".toList (some "1".toList) "02".toList "03".toList
    "456".toList "  ".toList (by decide) (by decide) (by decide) (by decide) (by decide)
    (by decide) (by decide) (by decide) (by decide)).2 (by decide)
  exact h

/-! ## Theorems: the loop of the cue parser -/

theorem roundNat_cases (n : Nat) : roundNat n = none ∨ ∃ m, roundNat n = some m := by
  cases h : roundNat n with
  | none => exact Or.inl rfl
  | some m => exact Or.inr ⟨m, rfl⟩

theorem isTime_ofInt_nat (n : Nat) : IsTime (JsNum.ofInt (n : Int)) := by
  unfold JsNum.ofInt
  rw [if_pos (Int.natCast_nonneg n), Int.toNat_ofNat]
  rcases roundNat_cases n with h | ⟨m, h⟩
  · rw [h]; exact Or.inr rfl
  · rw [h]; exact Or.inl (by simp [JsNum.isNonNegInt])

theorem isTime_fin_iff (x : JsNum) : IsTime x ↔ (∃ n : Nat, x = .fin n) ∨ x = .posInf := by
  constructor
  · rintro (h | h)
    · cases x with
      | fin z =>
        simp only [JsNum.isNonNegInt, decide_eq_true_eq] at h
        exact Or.inl ⟨z.toNat, by rw [Int.toNat_of_nonneg h]⟩
      | posInf => exact Or.inr rfl
      | negInf => simp [JsNum.isNonNegInt] at h
      | nan => simp [JsNum.isNonNegInt] at h
    · exact Or.inr h
  · rintro (⟨n, rfl⟩ | h)
    · exact Or.inl (by simp [JsNum.isNonNegInt])
    · exact Or.inr h

theorem isTime_add {a b : JsNum} (ha : IsTime a) (hb : IsTime b) : IsTime (a + b) := by
  rw [isTime_fin_iff] at ha hb
  rcases ha with ⟨n, rfl⟩ | rfl <;> rcases hb with ⟨m, rfl⟩ | rfl
  · show IsTime (JsNum.ofInt ((n : Int) + (m : Int)))
    rw [← Int.natCast_add]
    exact isTime_ofInt_nat _
  · exact Or.inr rfl
  · exact Or.inr rfl
  · exact Or.inr rfl

theorem isTime_mul_pos {a : JsNum} (ha : IsTime a) (k : Nat) (hk : 0 < k) :
    IsTime (a * JsNum.fin k) := by
  rw [isTime_fin_iff] at ha
  rcases ha with ⟨n, rfl⟩ | rfl
  · show IsTime (JsNum.ofInt ((n : Int) * (k : Int)))
    rw [← Int.natCast_mul]
    exact isTime_ofInt_nat _
  · right
    show JsNum.mul .posInf (.fin k) = .posInf
    have hs : Int.sign (k : Int) = 1 := Int.sign_eq_one_of_pos (by exact_mod_cast hk)
    simp [JsNum.mul, JsNum.sign, hs]

theorem isTime_toNumber (ds : Str) : IsTime (toNumber ds) := isTime_ofInt_nat _

theorem isTime_zero : IsTime (0 : JsNum) := by
  rw [lit_0]; exact Or.inl (by simp [JsNum.isNonNegInt])

theorem isTime_hoursNumber (hours : Option Str) : IsTime (hoursNumber hours) := by
  cases hours with
  | none => exact isTime_zero
  | some d => exact isTime_toNumber d

/-- The function `toMs` returns a non-negative integer or `+Infinity`, whatever the token. -/
theorem isTime_toMs (ts : Str) : IsTime (toMs ts) := by
  cases h : matchTs (trim ts) with
  | none =>
    unfold toMs
    rw [h]
    exact isTime_zero
  | some m =>
    obtain ⟨hours, mn, s, ms⟩ := m
    rw [toMs_of_match h, lit_60, lit_1000]
    exact isTime_add (isTime_mul_pos (isTime_add (isTime_mul_pos (isTime_add
      (isTime_mul_pos (isTime_hoursNumber hours) 60 (by decide)) (isTime_toNumber mn)) 60
      (by decide)) (isTime_toNumber s)) 1000 (by decide)) (isTime_toNumber ms)

theorem loopInv_init : LoopInv initState :=
  ⟨by simp [initState], by simp [initState], isTime_zero, isTime_zero⟩

theorem flushed_built {st : ParseState} (h : LoopInv st) : ∀ seg ∈ flushed st, BuiltSegment seg := by
  obtain ⟨hsegs, hbuf, hs, he⟩ := h
  intro seg hseg
  unfold flushed at hseg
  by_cases hb : st.buf.isEmpty = true
  · rw [if_pos hb] at hseg
    exact hsegs seg hseg
  · rw [if_neg hb] at hseg
    rcases List.mem_append.1 hseg with h1 | h1
    · exact hsegs seg h1
    · rw [List.mem_singleton] at h1
      refine ⟨st.start, st.end_, st.buf, ?_, hbuf, hs, he, h1⟩
      intro hnil
      exact hb (by rw [hnil]; rfl)

theorem loopInv_step {st : ParseState} (h : LoopInv st) (raw : Str) : LoopInv (step st raw) := by
  unfold step
  by_cases ha : includes (trim raw) arrow = true
  · simp only [ha, if_true]
    exact ⟨flushed_built h, by simp, isTime_toMs _, isTime_toMs _⟩
  · simp only [ha, if_false, Bool.false_eq_true]
    by_cases hl : (!(trim raw).isEmpty && !isAllDigits (trim raw) &&
        !startsWithWebvtt (trim raw)) = true
    · rw [if_pos hl]
      obtain ⟨hsegs, hbuf, hs, he⟩ := h
      refine ⟨hsegs, ?_, hs, he⟩
      intro l hmem
      rcases List.mem_append.1 hmem with h1 | h1
      · exact hbuf l h1
      · rw [List.mem_singleton] at h1
        exact ⟨trim raw, h1⟩
    · rw [if_neg hl]
      exact h

theorem loopInv_foldl (lines : List Str) {st : ParseState} (h : LoopInv st) :
    LoopInv (lines.foldl step st) := by
  induction lines generalizing st with
  | nil => exact h
  | cons l ls ih => exact ih (loopInv_step h l)

/-- Every segment returned by `vttToSegments` was built by the loop and has a
non-empty text. -/
theorem vttToSegments_built {vtt : Str} {seg : Segment} (h : seg ∈ vttToSegments vtt) :
    BuiltSegment seg ∧ seg.text ≠ [] := by
  unfold vttToSegments at h
  rw [List.mem_filter] at h
  refine ⟨flushed_built (loopInv_foldl _ loopInv_init) seg h.1, ?_⟩
  intro hnil
  have := h.2
  rw [hnil] at this
  simp at this

set_option exponentiation.threshold 1100 in
set_option maxRecDepth 100000 in
/-- C8, counterexample. A cue whose start timestamp has an hours field of
309 nines: the field is beyond the largest double, `toMs` returns `+Infinity`
for it, and the segment returned has a `start` that is not an integer. -/
theorem vttToSegments_infinite_start :
    vttToSegments hugeHoursCue = [⟨.posInf, .fin 1000, .fin 0, "hi".toList⟩] ∧
    (vttToSegments hugeHoursCue).map (fun seg => seg.start.isNonNegInt) = [false] := by
  decide

theorem max_zero_not_negative (x : JsNum) : (JsNum.max 0 x).isNegative = false := by
  rw [lit_0]
  cases x with
  | fin z =>
    simp only [JsNum.max, JsNum.isNegative, decide_eq_false_iff_not, not_lt]
    exact le_max_left _ _
  | posInf => rfl
  | negInf => simp [JsNum.max, JsNum.isNegative]
  | nan => rfl

theorem max_zero_sub_of_le {a b : JsNum} (ha : IsTime a) (hb : IsTime b)
    (hle : JsNum.le a b = true) : JsNum.max 0 (b - a) = b - a := by
  rw [isTime_fin_iff] at ha hb
  rw [lit_0]
  rcases ha with ⟨n, rfl⟩ | rfl <;> rcases hb with ⟨m, rfl⟩ | rfl
  · simp only [JsNum.le, decide_eq_true_eq] at hle
    have hnm : n ≤ m := by exact_mod_cast hle
    have hsub : (JsNum.fin m - JsNum.fin n : JsNum) = JsNum.ofInt (((m - n : Nat) : Nat) : Int) := by
      show JsNum.ofInt ((m : Int) + -(n : Int)) = _
      congr 1
      omega
    rw [hsub]
    have := isTime_ofInt_nat (m - n)
    rw [isTime_fin_iff] at this
    rcases this with ⟨k, hk⟩ | hk
    · rw [hk]
      simp [JsNum.max]
    · rw [hk]; rfl
  · rfl
  · simp [JsNum.le] at hle
  · rfl

theorem fin_sub_small {a b : Nat} (hle : a ≤ b) (h : b - a < maxSafe) :
    (JsNum.fin b - JsNum.fin a : JsNum) = .fin ((b - a : Nat) : Int) := by
  show JsNum.ofInt ((b : Int) + -(a : Int)) = _
  have : (b : Int) + -(a : Int) = ((b - a : Nat) : Int) := by omega
  rw [this]
  exact ofInt_natCast_small h

/-- C8, amended. Every segment returned by `vttToSegments` has `start` and
`end` that are non-negative integers or `+Infinity` (the value of a timestamp
beyond the range of a double), and `duration` equal to
`Math.max(0, end - start)`; so `duration` is never negative, and equals
`end - start` whenever `end >= start` (exactly so, as an integer, when the
two are integers whose difference is below `2^53`). -/
theorem vttToSegments_times (vtt : Str) (seg : Segment) (h : seg ∈ vttToSegments vtt) :
    (seg.start.isNonNegInt = true ∨ seg.start = .posInf) ∧
    (seg.end_.isNonNegInt = true ∨ seg.end_ = .posInf) ∧
    seg.duration = JsNum.max 0 (seg.end_ - seg.start) ∧
    seg.duration.isNegative = false ∧
    (JsNum.le seg.start seg.end_ = true → seg.duration = seg.end_ - seg.start) ∧
    (∀ a b : Nat, seg.start = .fin a → seg.end_ = .fin b → a ≤ b → b - a < maxSafe →
      seg.duration = .fin ((b - a : Nat) : Int)) := by
  obtain ⟨⟨start, end_, buf, -, -, hs, he, rfl⟩, -⟩ := vttToSegments_built h
  refine ⟨hs, he, rfl, max_zero_not_negative _, fun hle => max_zero_sub_of_le hs he hle, ?_⟩
  intro a b ha hb hab hsmall
  show JsNum.max 0 (end_ - start) = _
  have ha' : start = .fin a := ha
  have hb' : end_ = .fin b := hb
  rw [ha', hb', fin_sub_small hab hsmall, lit_0]
  simp [JsNum.max]

/-- C8, amended, at a text with one cue from 1 s to 2.5 s. -/
theorem vttToSegments_times_witness :
    (⟨.fin 1000, .fin 2500, .fin 1500, "hi".toList⟩ : Segment) ∈
      vttToSegments "WEBVTT\n\n00:00:01.000 --> 00:00:02.500\nhi".toList ∧
    (⟨.fin 1000, .fin 2500, .fin 1500, "hi".toList⟩ : Segment).duration
      = JsNum.max 0 (JsNum.fin 2500 - JsNum.fin 1000) :=
  ⟨by decide, (vttToSegments_times "WEBVTT\n\n00:00:01.000 --> 00:00:02.500\nhi".toList
    ⟨.fin 1000, .fin 2500, .fin 1500, "hi".toList⟩ (by decide)).2.2.1⟩

/-! ## Theorems: the text of a segment -/

theorem collapseWsAux_ws_is_space (b : Bool) (s : Str) :
    ∀ c ∈ collapseWsAux b s, isWhitespace c = true → c = ' ' := by
  induction s generalizing b with
  | nil => intro c hc; simp [collapseWsAux] at hc
  | cons d ds ih =>
    intro c hc hw
    unfold collapseWsAux at hc
    by_cases hd : isWhitespace d = true
    · rw [if_pos hd] at hc
      cases b with
      | true => exact ih true c (by simpa using hc) hw
      | false =>
        simp only [Bool.false_eq_true, if_false, List.mem_cons] at hc
        rcases hc with rfl | hc
        · rfl
        · exact ih true c hc hw
    · rw [if_neg hd] at hc
      rcases List.mem_cons.1 hc with rfl | hc
      · exact absurd hw hd
      · exact ih false c hc hw

theorem collapseWsAux_true_head (s : Str) :
    ∀ c, (collapseWsAux true s).head? = some c → isWhitespace c = false := by
  induction s with
  | nil => intro c hc; simp [collapseWsAux] at hc
  | cons d ds ih =>
    intro c hc
    unfold collapseWsAux at hc
    by_cases hd : isWhitespace d = true
    · rw [if_pos hd] at hc
      exact ih c (by simpa using hc)
    · rw [if_neg hd] at hc
      simp only [List.head?_cons, Option.some.injEq] at hc
      subst hc
      simpa using hd

theorem collapseWsAux_chain (b : Bool) (s : Str) :
    List.Chain' (fun a b => ¬ (isWhitespace a = true ∧ isWhitespace b = true))
      (collapseWsAux b s) := by
  induction s generalizing b with
  | nil => simp [collapseWsAux]
  | cons d ds ih =>
    unfold collapseWsAux
    by_cases hd : isWhitespace d = true
    · rw [if_pos hd]
      cases b with
      | true => simpa using ih true
      | false =>
        simp only [Bool.false_eq_true, if_false]
        rw [List.chain'_cons']
        refine ⟨?_, ih true⟩
        intro y hy
        have := collapseWsAux_true_head ds y (by simpa using hy)
        simp [this]
    · rw [if_neg hd]
      rw [List.chain'_cons']
      refine ⟨?_, ih false⟩
      intro y _
      simp [hd]

theorem trimEnd_initial (s : Str) : trimEnd s <+: s := by
  unfold trimEnd
  rw [← List.reverse_suffix, List.reverse_reverse]
  exact List.dropWhile_suffix _

theorem trimStart_suffix (s : Str) : trimStart s <:+ s := List.dropWhile_suffix _

theorem trim_inside (s : Str) : trim s <:+: s :=
  ((trimEnd_initial _).isInfix).trans ((trimStart_suffix s).isInfix)

theorem trimStart_head (s : Str) : ∀ c, (trimStart s).head? = some c → isWhitespace c = false := by
  intro c hc
  have := List.head?_dropWhile_not isWhitespace s
  unfold trimStart at hc
  rw [hc] at this
  simpa using this

theorem trimEnd_last (s : Str) : ∀ c, (trimEnd s).getLast? = some c → isWhitespace c = false := by
  intro c hc
  unfold trimEnd at hc
  rw [List.getLast?_reverse] at hc
  have := List.head?_dropWhile_not isWhitespace s.reverse
  rw [hc] at this
  simpa using this

theorem head?_of_initial {x y : Str} (h : x <+: y) {c : Char} (hc : x.head? = some c) :
    y.head? = some c := by
  obtain ⟨t, rfl⟩ := h
  cases x with
  | nil => simp at hc
  | cons a as => simpa using hc

/-- The text `trim (collapseWs s)` is white-space-normalized. -/
theorem wsNormalized_trim_collapse (s : Str) : WsNormalized (trim (collapseWs s)) := by
  refine ⟨?_, ?_, ?_, ?_⟩
  · intro c hc
    exact trimStart_head (collapseWs s) c (head?_of_initial (trimEnd_initial _) hc)
  · exact trimEnd_last _
  · intro c hc hw
    exact collapseWsAux_ws_is_space false s c ((trim_inside _).subset hc) hw
  · exact List.Chain'.infix (collapseWsAux_chain false s) (trim_inside _)

/-! ## Theorems: lines -/

/-! ## Theorems: timing lines -/

theorem includes_iff (s p : Str) : includes s p = true ↔ ∃ a b, s = a ++ p ++ b := by
  induction s with
  | nil =>
    simp only [includes, List.isEmpty_iff]
    constructor
    · rintro rfl; exact ⟨[], [], rfl⟩
    · rintro ⟨a, b, h⟩
      have := congrArg List.length h
      simp only [List.length_nil, List.length_append] at this
      exact List.length_eq_zero.1 (by omega)
  | cons c cs ih =>
    simp only [includes, Bool.or_eq_true, List.isPrefixOf_iff_prefix, ih]
    constructor
    · rintro (⟨b, hb⟩ | ⟨a, b, hab⟩)
      · exact ⟨[], b, by simpa using hb.symm⟩
      · exact ⟨c :: a, b, by simp [hab]⟩
    · rintro ⟨a, b, hab⟩
      cases a with
      | nil => exact Or.inl ⟨b, by simpa using hab.symm⟩
      | cons d ds =>
        simp only [List.cons_append, List.cons.injEq] at hab
        exact Or.inr ⟨ds, b, hab.2⟩

theorem trimStart_append_nonws (x y : Str) (c : Char) (h : isWhitespace c = false) :
    trimStart (x ++ c :: y) = trimStart x ++ c :: y := by
  induction x with
  | nil => simp [trimStart, List.dropWhile, h]
  | cons d ds ih =>
    unfold trimStart at ih ⊢
    by_cases hd : isWhitespace d = true
    · simp [List.dropWhile, hd, ih]
    · simp [List.dropWhile, hd]

theorem trimEnd_append_nonws_cons (x y : Str) (c : Char) (h : isWhitespace c = false) :
    trimEnd (x ++ c :: y) = x ++ c :: trimEnd y := by
  have := trimStart_append_nonws y.reverse x.reverse c h
  unfold trimStart at this
  unfold trimEnd
  rw [show (x ++ c :: y).reverse = y.reverse ++ c :: x.reverse by simp, this]
  simp

/-- Trimming a line around its first arrow. -/
theorem trim_arrow (a b : Str) :
    trim (a ++ arrow ++ b) = trimStart a ++ arrow ++ trimEnd b := by
  unfold trim
  have h1 : a ++ arrow ++ b = a ++ '-' :: ('-' :: '>' :: b) := by simp [arrow]
  rw [h1, trimStart_append_nonws a _ '-' (by decide)]
  have h2 : trimStart a ++ '-' :: ('-' :: '>' :: b) = (trimStart a ++ ['-', '-']) ++ '>' :: b := by
    simp
  rw [h2, trimEnd_append_nonws_cons _ b '>' (by decide)]
  simp [arrow]

theorem includes_trim_arrow {t : Str} (h : includes t arrow = true) :
    includes (trim t) arrow = true := by
  obtain ⟨a, b, rfl⟩ := (includes_iff t arrow).1 h
  rw [trim_arrow]
  exact (includes_iff _ _).2 ⟨_, _, rfl⟩

theorem includes_false_of_suffix {s t p : Str} (hs : s <:+ t) (h : includes t p = false) :
    includes s p = false := by
  rw [← Bool.not_eq_true] at h ⊢
  intro hc
  apply h
  obtain ⟨a, b, rfl⟩ := (includes_iff s p).1 hc
  obtain ⟨pre, rfl⟩ := hs
  exact (includes_iff _ _).2 ⟨pre ++ a, b, by simp⟩

theorem includes_false_of_initial {s t p : Str} (hs : s <+: t) (h : includes t p = false) :
    includes s p = false := by
  rw [← Bool.not_eq_true] at h ⊢
  intro hc
  apply h
  obtain ⟨a, b, rfl⟩ := (includes_iff s p).1 hc
  obtain ⟨post, rfl⟩ := hs
  exact (includes_iff _ _).2 ⟨a, b ++ post, by simp⟩

/-- The arrow is not found across the end of a text that does not contain
it: before the arrow that follows, or before nothing. -/
theorem beforeArrow_append (a b : Str) (h : includes a arrow = false) :
    beforeArrow (a ++ arrow ++ b) = a ∧ afterArrow (a ++ arrow ++ b) = b := by
  induction a with
  | nil => simp [beforeArrow, afterArrow, arrow]
  | cons c cs ih =>
    have hcs : includes cs arrow = false :=
      includes_false_of_suffix (List.suffix_cons c cs) h
    have hnp : arrow.isPrefixOf (c :: cs ++ arrow ++ b) = false := by
      rw [← Bool.not_eq_true]
      intro hp
      have h0 : arrow.isPrefixOf (c :: cs) = false := by
        simp only [includes, Bool.or_eq_false_iff] at h
        exact h.1
      cases cs with
      | nil => revert hp; simp [arrow, List.isPrefixOf]
      | cons d ds =>
        cases ds with
        | nil => revert hp; simp [arrow, List.isPrefixOf]
        | cons e es =>
          revert hp h0
          simp [arrow, List.isPrefixOf]
    obtain ⟨ih1, ih2⟩ := ih hcs
    constructor
    · show beforeArrow (c :: (cs ++ arrow ++ b)) = c :: cs
      rw [beforeArrow]
      rw [show c :: (cs ++ arrow ++ b) = c :: cs ++ arrow ++ b by simp, hnp]
      simpa using ih1
    · show afterArrow (c :: (cs ++ arrow ++ b)) = b
      rw [afterArrow]
      rw [show c :: (cs ++ arrow ++ b) = c :: cs ++ arrow ++ b by simp, hnp]
      simpa using ih2

theorem beforeArrow_none (a : Str) (h : includes a arrow = false) : beforeArrow a = a := by
  induction a with
  | nil => rfl
  | cons c cs ih =>
    have hcs : includes cs arrow = false :=
      includes_false_of_suffix (List.suffix_cons c cs) h
    have h0 : arrow.isPrefixOf (c :: cs) = false := by
      simp only [includes, Bool.or_eq_false_iff] at h
      exact h.1
    rw [beforeArrow, h0]
    simp [ih hcs]

theorem toMs_congr {x y : Str} (h : trim x = trim y) : toMs x = toMs y := by
  unfold toMs
  rw [h]

theorem trimEnd_trimEnd (s : Str) : trimEnd (trimEnd s) = trimEnd s := by
  rcases List.eq_nil_or_concat (trimEnd s) with h | ⟨init, c, h⟩
  · rw [h]; rfl
  · have hc := trimEnd_last s c (by rw [h]; simp)
    rw [h, List.concat_eq_append]
    exact trimEnd_append_nonws _ _ hc

theorem trimStart_trimStart (s : Str) : trimStart (trimStart s) = trimStart s := by
  cases h : trimStart s with
  | nil => rfl
  | cons c cs =>
    have hc := trimStart_head s c (by rw [h]; rfl)
    exact trimStart_cons_nonws c cs hc

theorem trimStart_trimEnd_comm (s : Str) : trimStart (trimEnd s) = trimEnd (trimStart s) := by
  by_cases hall : ∀ c ∈ s, isWhitespace c = true
  · have h1 : trimStart s = [] := by
      have := trimStart_ws_append s [] hall
      simpa [trimStart] using this
    have h2 : trimEnd s = [] := by
      have := trimEnd_append_ws [] s hall
      simpa [trimEnd] using this
    rw [h1, h2]; rfl
  · have hne : trimStart s ≠ [] := by
      intro hnil
      unfold trimStart at hnil
      rw [List.dropWhile_eq_nil_iff] at hnil
      exact hall (fun c hc => hnil c hc)
    obtain ⟨pre, hpre⟩ := trimStart_suffix s
    cases hts : trimStart s with
    | nil => exact absurd hts hne
    | cons c cs =>
      have hc := trimStart_head s c (by rw [hts]; rfl)
      have hpw : ∀ d ∈ pre, isWhitespace d = true := by
        intro d hd
        have htk : pre = s.takeWhile isWhitespace := by
          have h1 := List.takeWhile_append_dropWhile isWhitespace s
          have h2 : pre ++ List.dropWhile isWhitespace s = s := hpre
          have := h1.trans h2.symm
          exact (List.append_cancel_right this).symm
        rw [htk] at hd
        exact (List.mem_takeWhile_imp hd)
      have hs : s = pre ++ c :: cs := by rw [← hts]; exact hpre.symm
      rw [hs, trimEnd_append_nonws_cons pre cs c hc, trimStart_append_nonws pre _ c hc]
      have : trimStart pre = [] := by
        have := trimStart_ws_append pre [] hpw
        simpa [trimStart] using this
      rw [this]
      show c :: trimEnd cs = trimEnd (c :: cs)
      have := trimEnd_append_nonws_cons [] cs c hc
      simpa using this.symm

theorem trim_trimStart (s : Str) : trim (trimStart s) = trim s := by
  unfold trim
  rw [trimStart_trimStart]

theorem trim_trimEnd (s : Str) : trim (trimEnd s) = trim s := by
  unfold trim
  rw [trimStart_trimEnd_comm, trimEnd_trimEnd]

theorem trim_trim (s : Str) : trim (trim s) = trim s := by
  show trim (trimEnd (trimStart s)) = trim s
  rw [trim_trimEnd, trim_trimStart]
theorem splitLines_no_nl (l : Str) (h : Char.ofNat 0x0A ∉ l) : splitLines l = [l] := by
  induction l with
  | nil => rfl
  | cons c cs ih =>
    have hc : c ≠ Char.ofNat 0x0A := fun e => h (by simp [e])
    have hcs : Char.ofNat 0x0A ∉ cs := fun e => h (by simp [e])
    have hhead : ¬ (c = Char.ofNat 0x0D ∧ cs.head? = some (Char.ofNat 0x0A)) := by
      rintro ⟨-, hh⟩
      cases cs with
      | nil => simp at hh
      | cons d ds =>
        simp only [List.head?_cons, Option.some.injEq] at hh
        exact hcs (by simp [hh])
    rw [splitLines, if_neg hc, if_neg hhead, ih hcs]

/-- The first line of a text: the characters before the first line feed, less
a carriage return right before it. -/
theorem splitLines_append_nl (l r : Str) (h : Char.ofNat 0x0A ∉ l) :
    ∃ l', splitLines (l ++ Char.ofNat 0x0A :: r) = l' :: splitLines r ∧
      (l' = l ∨ l = l' ++ [Char.ofNat 0x0D]) := by
  induction l with
  | nil => exact ⟨[], by simp [splitLines], Or.inl rfl⟩
  | cons c cs ih =>
    have hc : c ≠ Char.ofNat 0x0A := fun e => h (by simp [e])
    have hcs : Char.ofNat 0x0A ∉ cs := fun e => h (by simp [e])
    obtain ⟨l', hl', hrel⟩ := ih hcs
    rw [List.cons_append, splitLines, if_neg hc]
    by_cases hhead : c = Char.ofNat 0x0D ∧
        (cs ++ Char.ofNat 0x0A :: r).head? = some (Char.ofNat 0x0A)
    · rw [if_pos hhead]
      have hnil : cs = [] := by
        cases cs with
        | nil => rfl
        | cons d ds =>
          exfalso
          have hh := hhead.2
          simp only [List.cons_append, List.head?_cons, Option.some.injEq] at hh
          exact hcs (by simp [hh])
      subst hnil
      refine ⟨[], by simp [splitLines], Or.inr ?_⟩
      rw [hhead.1]; rfl
    · rw [if_neg hhead, hl']
      refine ⟨c :: l', rfl, ?_⟩
      rcases hrel with rfl | hrel
      · exact Or.inl rfl
      · exact Or.inr (by rw [hrel]; rfl)

theorem trim_drop_cr (l' l : Str) (h : l' = l ∨ l = l' ++ [Char.ofNat 0x0D]) :
    trim l' = trim l := by
  rcases h with rfl | rfl
  · rfl
  · unfold trim
    by_cases hall : ∀ c ∈ l', isWhitespace c = true
    · have h1 : trimStart (l' ++ [Char.ofNat 0x0D]) = trimStart [Char.ofNat 0x0D] :=
        trimStart_ws_append l' _ hall
      have h2 : trimStart l' = [] := by
        have := trimStart_ws_append l' [] hall
        simpa [trimStart] using this
      rw [h1, h2]
      decide
    · have h1 : trimStart (l' ++ [Char.ofNat 0x0D]) = trimStart l' ++ [Char.ofNat 0x0D] := by
        unfold trimStart
        rw [List.dropWhile_append]
        have hne : List.dropWhile isWhitespace l' ≠ [] := by
          intro hnil
          rw [List.dropWhile_eq_nil_iff] at hnil
          exact hall (fun c hc => hnil c hc)
        simp [hne]
      rw [h1]
      exact (trimEnd_append_ws _ _ (by decide)).symm

theorem step_congr (st : ParseState) {l l' : Str} (h : trim l' = trim l) :
    step st l' = step st l := by
  unfold step
  rw [h]

theorem step_blank (st : ParseState) {l : Str} (h : trim l = []) : step st l = st := by
  unfold step
  rw [h]
  rfl

/-- The loop sees the lines of a text as they were written. -/
theorem foldl_step_splitLines (ls : List Str) (st : ParseState)
    (h : ∀ l ∈ ls, Char.ofNat 0x0A ∉ l) :
    (splitLines (joinLines ls)).foldl step st = ls.foldl step st := by
  induction ls generalizing st with
  | nil => exact step_blank st (l := []) rfl
  | cons l rest ih =>
    have hl := h l (by simp)
    have hrest : ∀ x ∈ rest, Char.ofNat 0x0A ∉ x := fun x hx => h x (by simp [hx])
    cases rest with
    | nil =>
      show (splitLines l).foldl step st = _
      rw [splitLines_no_nl l hl]
    | cons l2 rest2 =>
      show (splitLines (l ++ Char.ofNat 0x0A :: joinLines (l2 :: rest2))).foldl step st = _
      obtain ⟨l', hl', hrel⟩ := splitLines_append_nl l (joinLines (l2 :: rest2)) hl
      rw [hl', List.foldl_cons, List.foldl_cons, step_congr st (trim_drop_cr l' l hrel)]
      exact ih _ hrest

theorem foldl_step_blank (ws : List Str) (st : ParseState) (h : ∀ w ∈ ws, trim w = []) :
    ws.foldl step st = st := by
  induction ws with
  | nil => rfl
  | cons w rest ih =>
    rw [List.foldl_cons, step_blank st (h w (by simp))]
    exact ih (fun x hx => h x (by simp [hx]))

theorem trim_eq_nil_of_ws (w : Str) (h : ∀ c ∈ w, isWhitespace c = true) : trim w = [] := by
  have := trimStart_ws_append w [] h
  unfold trim
  rw [List.append_nil] at this
  rw [this]
  rfl

theorem step_timing (st : ParseState) {t : Str} (h : includes (trim t) arrow = true) :
    step st t = ParseState.mk (flushed st) [] (toMs (beforeArrow (trim t)))
      (toMs (beforeArrow (afterArrow (trim t)))) := by
  unfold step
  simp only [h, if_true]

/-- A timing line followed only by blank lines, up to the next timing line or
the end of the text, leaves no trace in the result. -/
theorem flushed_skip_empty_cue (st : ParseState) (t : Str) (ws post : List Str)
    (ht : includes (trim t) arrow = true) (hws : ∀ w ∈ ws, trim w = [])
    (hpost : post = [] ∨ ∃ t' rest, post = t' :: rest ∧ includes (trim t') arrow = true) :
    flushed ((t :: ws ++ post).foldl step st) = flushed (post.foldl step st) := by
  rw [List.cons_append, List.foldl_cons, List.foldl_append, step_timing st ht,
    foldl_step_blank ws _ hws]
  rcases hpost with rfl | ⟨t', rest, rfl, ht'⟩
  · rfl
  · rw [List.foldl_cons, List.foldl_cons, step_timing _ ht', step_timing st ht']
    rfl

/-- C9. Every segment returned by `vttToSegments` has a text that is non-empty
and white-space-normalized: it neither starts nor ends with white space, every
white space character in it is a space, and no two are adjacent. A cue block
whose text lines are all white space contributes no segment: with the block
(its timing line `t` and its lines `ws`, up to the next timing line or the
end of the text) the result is what it is without it. -/
theorem vttToSegments_text_normalized :
    (∀ (vtt : Str) (seg : Segment), seg ∈ vttToSegments vtt →
      seg.text ≠ [] ∧ WsNormalized seg.text) ∧
    (∀ (pre : List Str) (t : Str) (ws post : List Str),
      (∀ l ∈ pre ++ ((t :: ws) ++ post), Char.ofNat 0x0A ∉ l) →
      includes t arrow = true →
      (∀ w ∈ ws, ∀ c ∈ w, isWhitespace c = true) →
      (post = [] ∨ ∃ t' rest, post = t' :: rest ∧ includes t' arrow = true) →
      vttToSegments (joinLines (pre ++ ((t :: ws) ++ post))) =
        vttToSegments (joinLines (pre ++ post))) := by
  refine ⟨fun vtt seg h => ?_, ?_⟩
  · obtain ⟨⟨start, end_, buf, -, -, -, -, rfl⟩, hne⟩ := vttToSegments_built h
    exact ⟨hne, wsNormalized_trim_collapse _⟩
  · intro pre t ws post hnl ht hws hpost
    have hpre : ∀ l ∈ pre ++ post, Char.ofNat 0x0A ∉ l := by
      intro l hl
      apply hnl l
      rcases List.mem_append.1 hl with h1 | h1
      · simp [h1]
      · simp [h1]
    have ht' : includes (trim t) arrow = true := includes_trim_arrow ht
    have hpost' : post = [] ∨ ∃ t' rest, post = t' :: rest ∧ includes (trim t') arrow = true := by
      rcases hpost with h | ⟨t', rest, h, h'⟩
      · exact Or.inl h
      · exact Or.inr ⟨t', rest, h, includes_trim_arrow h'⟩
    have hws' : ∀ w ∈ ws, trim w = [] := fun w hw => trim_eq_nil_of_ws w (hws w hw)
    unfold vttToSegments
    rw [foldl_step_splitLines _ _ hnl, foldl_step_splitLines _ _ hpre]
    have e1 : (pre ++ ((t :: ws) ++ post)).foldl step initState =
        ((t :: ws) ++ post).foldl step (pre.foldl step initState) := by
      simp only [List.foldl_append]
    have e2 : (pre ++ post).foldl step initState = post.foldl step (pre.foldl step initState) := by
      simp only [List.foldl_append]
    rw [e1, e2, flushed_skip_empty_cue _ t ws post ht' hws' hpost']

/-- C9 at a cue of two padded lines. -/
theorem vttToSegments_text_normalized_witness :
    (⟨.fin 1000, .fin 2500, .fin 1500, "a b".toList⟩ : Segment) ∈
      vttToSegments "WEBVTT\n\n00:00:01.000 --> 00:00:02.500\n  a \n\t b ".toList ∧
    WsNormalized "a b".toList :=
  ⟨by decide, (vttToSegments_text_normalized.1
    "WEBVTT\n\n00:00:01.000 --> 00:00:02.500\n  a \n\t b ".toList
    ⟨.fin 1000, .fin 2500, .fin 1500, "a b".toList⟩ (by decide)).2⟩

/-! ## Theorems: markup -/

theorem tagRest_eq_none_of_not_mem (s : Str) (h : '>' ∉ s) : tagRest s = none := by
  have hd : s.dropWhile (· ≠ '>') = [] := by
    rw [List.dropWhile_eq_nil_iff]
    intro x hx
    have hne : x ≠ '>' := by
      rintro rfl
      exact h hx
    simpa using hne
  unfold tagRest
  rw [hd]
  split <;> simp_all

theorem tagRest_gt_cons (r : Str) : tagRest ('>' :: r) = none := by
  simp [tagRest, List.takeWhile]

theorem tagRest_none_cases (s : Str) (h : tagRest s = none) :
    '>' ∉ s ∨ ∃ r, s = '>' :: r := by
  cases s with
  | nil => exact Or.inl (by simp)
  | cons c cs =>
    by_cases hc : c = '>'
    · exact Or.inr ⟨cs, by rw [hc]⟩
    · left
      intro hmem
      have htw : (c :: cs).takeWhile (· ≠ '>') = c :: cs.takeWhile (· ≠ '>') := by
        simp [List.takeWhile, hc]
      have hdw : (c :: cs).dropWhile (· ≠ '>') ≠ [] := by
        intro hnil
        rw [List.dropWhile_eq_nil_iff] at hnil
        have := hnil '>' hmem
        simp at this
      unfold tagRest at h
      rw [htw] at h
      cases hd : (c :: cs).dropWhile (· ≠ '>') with
      | nil => exact hdw hd
      | cons d ds => rw [hd] at h; simp at h

theorem mem_stripTagsAux (k : Nat) (s : Str) : ∀ c ∈ stripTagsAux k s, c ∈ s := by
  induction s generalizing k with
  | nil => intro c hc; simp [stripTagsAux] at hc
  | cons d ds ih =>
    intro c hc
    cases k with
    | succ k =>
      rw [stripTagsAux] at hc
      exact List.mem_cons_of_mem _ (ih k c hc)
    | zero =>
      rw [stripTagsAux] at hc
      by_cases hd : d = '<'
      · rw [if_pos hd] at hc
        cases ht : tagRest ds with
        | some n =>
          rw [ht] at hc
          exact List.mem_cons_of_mem _ (ih n c hc)
        | none =>
          rw [ht] at hc
          rcases List.mem_cons.1 hc with rfl | hc
          · simp
          · exact List.mem_cons_of_mem _ (ih 0 c hc)
      · rw [if_neg hd] at hc
        rcases List.mem_cons.1 hc with rfl | hc
        · simp
        · exact List.mem_cons_of_mem _ (ih 0 c hc)

theorem tagRest_stripTagsAux_none (s : Str) (h : tagRest s = none) :
    tagRest (stripTagsAux 0 s) = none := by
  rcases tagRest_none_cases s h with hn | ⟨r, rfl⟩
  · exact tagRest_eq_none_of_not_mem _ (fun hm => hn (mem_stripTagsAux 0 s _ hm))
  · rw [stripTagsAux, if_neg (by decide)]
    exact tagRest_gt_cons _

/-- What `stripTags` returns contains no tag. -/
theorem hasTag_stripTagsAux (k : Nat) (s : Str) : hasTag (stripTagsAux k s) = false := by
  induction s generalizing k with
  | nil => cases k <;> rfl
  | cons d ds ih =>
    cases k with
    | succ k => rw [stripTagsAux]; exact ih k
    | zero =>
      rw [stripTagsAux]
      by_cases hd : d = '<'
      · rw [if_pos hd]
        cases ht : tagRest ds with
        | some n => exact ih n
        | none =>
          show hasTag (d :: stripTagsAux 0 ds) = false
          rw [hasTag, tagRest_stripTagsAux_none ds ht, ih 0]
          simp
      · rw [if_neg hd, hasTag, ih 0]
        simp [hd]

/-! ## Theorems: white space inside a cue -/

theorem collapseWsAux_true_ws_append (w s : Str) (hw : ∀ c ∈ w, isWhitespace c = true) :
    collapseWsAux true (w ++ s) = collapseWsAux true s := by
  induction w with
  | nil => rfl
  | cons d ds ih =>
    have hd := hw d (by simp)
    rw [List.cons_append, collapseWsAux, if_pos hd, if_pos rfl]
    exact ih (fun c hc => hw c (by simp [hc]))

theorem collapseWsAux_ws_cons (b : Bool) (d : Char) (s : Str) (hd : isWhitespace d = true) :
    collapseWsAux b (d :: s) =
      (if b then collapseWsAux true s else ' ' :: collapseWsAux true s) := by
  rw [collapseWsAux, if_pos hd]

/-- White space in front of a space is absorbed by it. -/
theorem collapseWsAux_ws_before_space (b : Bool) (w y : Str)
    (hw : ∀ c ∈ w, isWhitespace c = true) :
    collapseWsAux b (w ++ ' ' :: y) = collapseWsAux b (' ' :: y) := by
  cases w with
  | nil => rfl
  | cons d ds =>
    have hd := hw d (by simp)
    have hds : ∀ c ∈ ds, isWhitespace c = true := fun c hc => hw c (by simp [hc])
    rw [List.cons_append, collapseWsAux_ws_cons b d _ hd,
      collapseWsAux_ws_cons b ' ' y (by decide),
      collapseWsAux_true_ws_append ds _ hds, collapseWsAux_ws_cons true ' ' y (by decide)]
    rfl

/-- White space after a space is absorbed by it. -/
theorem collapseWsAux_ws_after_space (b : Bool) (w y : Str)
    (hw : ∀ c ∈ w, isWhitespace c = true) :
    collapseWsAux b (' ' :: (w ++ y)) = collapseWsAux b (' ' :: y) := by
  rw [collapseWsAux_ws_cons b ' ' _ (by decide), collapseWsAux_ws_cons b ' ' y (by decide),
    collapseWsAux_true_ws_append w y hw]

/-- What `collapseWsAux` does after a prefix depends on the rest only. -/
theorem collapseWsAux_prefix_congr (x z z' : Str)
    (h : ∀ b, collapseWsAux b z = collapseWsAux b z') :
    ∀ b, collapseWsAux b (x ++ z) = collapseWsAux b (x ++ z') := by
  induction x with
  | nil => exact h
  | cons c cs ih =>
    intro b
    rw [List.cons_append, List.cons_append, collapseWsAux, collapseWsAux, ih true, ih false]

theorem collapseWsAux_append_ws (b : Bool) (s w : Str) (hw : ∀ c ∈ w, isWhitespace c = true) :
    ∃ t, (∀ c ∈ t, isWhitespace c = true) ∧
      collapseWsAux b (s ++ w) = collapseWsAux b s ++ t := by
  induction s generalizing b with
  | nil =>
    cases w with
    | nil => exact ⟨[], by simp, rfl⟩
    | cons d ds =>
      have hd := hw d (by simp)
      have hds : ∀ c ∈ ds, isWhitespace c = true := fun c hc => hw c (by simp [hc])
      have h0 : collapseWsAux true ds = [] := by
        have := collapseWsAux_true_ws_append ds [] hds
        simpa [collapseWsAux] using this
      refine ⟨if b then [] else [' '], ?_, ?_⟩
      · cases b
        · intro c hc
          simp only [Bool.false_eq_true, if_false, List.mem_singleton] at hc
          rw [hc]; decide
        · simp
      · rw [List.nil_append, collapseWsAux_ws_cons b d ds hd, h0]
        cases b <;> rfl
  | cons c cs ih =>
    rw [List.cons_append, collapseWsAux, collapseWsAux]
    obtain ⟨t1, ht1, e1⟩ := ih true
    obtain ⟨t2, ht2, e2⟩ := ih false
    by_cases hc : isWhitespace c = true
    · rw [if_pos hc, if_pos hc]
      cases b
      · exact ⟨t1, ht1, by simp [e1]⟩
      · exact ⟨t1, ht1, by simp [e1]⟩
    · rw [if_neg hc, if_neg hc]
      exact ⟨t2, ht2, by simp [e2]⟩

theorem trim_eq_trimStart_trimEnd (s : Str) : trim s = trimStart (trimEnd s) :=
  (trimStart_trimEnd_comm s).symm

theorem trim_append_ws (s w : Str) (hw : ∀ c ∈ w, isWhitespace c = true) :
    trim (s ++ w) = trim s := by
  rw [trim_eq_trimStart_trimEnd, trimEnd_append_ws s w hw, trim_eq_trimStart_trimEnd]

theorem trim_ws_append (w s : Str) (hw : ∀ c ∈ w, isWhitespace c = true) :
    trim (w ++ s) = trim s := by
  unfold trim
  rw [trimStart_ws_append w s hw]

/-- K2: trailing white space does not change the normalized text. -/
theorem norm_append_ws (s w : Str) (hw : ∀ c ∈ w, isWhitespace c = true) :
    trim (collapseWs (s ++ w)) = trim (collapseWs s) := by
  obtain ⟨t, ht, e⟩ := collapseWsAux_append_ws false s w hw
  unfold collapseWs
  rw [e, trim_append_ws _ t ht]

theorem trim_collapse_true_false (s : Str) :
    trim (collapseWsAux false s) = trim (collapseWsAux true s) := by
  cases s with
  | nil => rfl
  | cons c cs =>
    by_cases hc : isWhitespace c = true
    · rw [collapseWsAux_ws_cons false c cs hc, collapseWsAux_ws_cons true c cs hc]
      exact trim_ws_append [' '] _ (by decide)
    · rw [collapseWsAux, collapseWsAux, if_neg hc, if_neg hc]

/-- K1: leading white space does not change the normalized text. -/
theorem norm_ws_append (w s : Str) (hw : ∀ c ∈ w, isWhitespace c = true) :
    trim (collapseWs (w ++ s)) = trim (collapseWs s) := by
  unfold collapseWs
  rw [trim_collapse_true_false, trim_collapse_true_false s,
    collapseWsAux_true_ws_append w s hw]

/-- K3: white space in front of a separating space does not change the
normalized text. -/
theorem norm_ws_before_space (x w y : Str) (hw : ∀ c ∈ w, isWhitespace c = true) :
    trim (collapseWs (x ++ (w ++ ' ' :: y))) = trim (collapseWs (x ++ ' ' :: y)) := by
  unfold collapseWs
  rw [collapseWsAux_prefix_congr x _ _ (fun b => collapseWsAux_ws_before_space b w y hw)]

/-- K4: white space after a separating space does not change the normalized
text. -/
theorem norm_ws_after_space (x w y : Str) (hw : ∀ c ∈ w, isWhitespace c = true) :
    trim (collapseWs (x ++ ' ' :: (w ++ y))) = trim (collapseWs (x ++ ' ' :: y)) := by
  unfold collapseWs
  rw [collapseWsAux_prefix_congr x _ _ (fun b => collapseWsAux_ws_after_space b w y hw)]

theorem ws_ne_angle {c : Char} (h : isWhitespace c = true) : c ≠ '<' ∧ c ≠ '>' := by
  constructor <;> (rintro rfl; revert h; decide)

/-- A line is its trimmed text between two runs of white space. -/
theorem trim_decompose (l : Str) :
    ∃ lead trail, (∀ c ∈ lead, isWhitespace c = true) ∧ (∀ c ∈ trail, isWhitespace c = true) ∧
      l = lead ++ (trim l ++ trail) := by
  have hend : ∀ x : Str, ∃ trail, (∀ c ∈ trail, isWhitespace c = true) ∧ x = trimEnd x ++ trail := by
    intro x
    refine ⟨(x.reverse.takeWhile isWhitespace).reverse, ?_, ?_⟩
    · intro c hc
      exact List.mem_takeWhile_imp (List.mem_reverse.1 hc)
    · unfold trimEnd
      rw [← List.reverse_append, List.takeWhile_append_dropWhile, List.reverse_reverse]
  obtain ⟨trail, htrail, he⟩ := hend (trimStart l)
  refine ⟨l.takeWhile isWhitespace, trail, fun c hc => List.mem_takeWhile_imp hc, htrail, ?_⟩
  unfold trim
  rw [← he]
  exact (List.takeWhile_append_dropWhile isWhitespace l).symm

theorem tagRest_append_trail (s trail : Str) (h : '>' ∉ trail) :
    tagRest (s ++ trail) = tagRest s := by
  by_cases hs : '>' ∈ s
  · obtain ⟨a, b, rfl⟩ := List.append_of_mem hs
    have key : ∀ (a' : Str) (rest : Str), (∀ c ∈ a', c ≠ '>') →
        (a' ++ '>' :: rest).takeWhile (· ≠ '>') = a' ∧
        (a' ++ '>' :: rest).dropWhile (· ≠ '>') = '>' :: rest := by
      intro a' rest ha'
      exact takeWhile_dropWhile_stop (fun x => decide (x ≠ '>')) a' '>' rest
        (fun d hd => by simpa using ha' d hd) (by simp)
    have hsplit : ∃ a' b', (∀ c ∈ a', c ≠ '>') ∧ a ++ '>' :: b = a' ++ '>' :: b' := by
      refine ⟨(a ++ '>' :: b).takeWhile (· ≠ '>'), ((a ++ '>' :: b).dropWhile (· ≠ '>')).tail,
        ?_, ?_⟩
      · intro c hc
        have := List.mem_takeWhile_imp hc
        simpa using this
      · have h1 := List.takeWhile_append_dropWhile (fun x => decide (x ≠ '>')) (a ++ '>' :: b)
        have hne : (a ++ '>' :: b).dropWhile (· ≠ '>') ≠ [] := by
          intro hnil
          rw [List.dropWhile_eq_nil_iff] at hnil
          have := hnil '>' (by simp)
          simp at this
        cases hd : (a ++ '>' :: b).dropWhile (· ≠ '>') with
        | nil => exact absurd hd hne
        | cons d ds =>
          have hdd := List.head?_dropWhile_not (fun x => decide (x ≠ '>')) (a ++ '>' :: b)
          rw [hd] at hdd h1
          have hdg : d = '>' := by simpa using hdd
          subst hdg
          exact h1.symm
    obtain ⟨a', b', ha', e⟩ := hsplit
    rw [e]
    obtain ⟨k1, k2⟩ := key a' b' ha'
    obtain ⟨k3, k4⟩ := key a' (b' ++ trail) ha'
    unfold tagRest
    rw [show a' ++ '>' :: b' ++ trail = a' ++ '>' :: (b' ++ trail) by simp, k1, k2, k3, k4]
    cases a' <;> rfl
  · have hst : '>' ∉ s ++ trail := by
      intro hm
      rcases List.mem_append.1 hm with h1 | h1
      · exact hs h1
      · exact h h1
    rw [tagRest_eq_none_of_not_mem _ hst, tagRest_eq_none_of_not_mem _ hs]

theorem tagRest_le (s : Str) (n : Nat) (h : tagRest s = some n) : n ≤ s.length := by
  unfold tagRest at h
  have hlen := congrArg List.length (List.takeWhile_append_dropWhile (fun x => decide (x ≠ '>')) s)
  rw [List.length_append] at hlen
  split at h
  · rename_i b bs d ds htw hdw
    simp only [Option.some.injEq] at h
    have h1 : (List.takeWhile (fun x => decide (x ≠ '>')) s).length = (b :: bs).length := by
      rw [htw]
    have h2 : (List.dropWhile (fun x => decide (x ≠ '>')) s).length = (d :: ds).length := by
      rw [hdw]
    rw [h1, h2] at hlen
    simp only [List.length_cons] at hlen h
    omega
  · cases h

theorem stripTagsAux_no_lt (t : Str) (h : '<' ∉ t) : stripTagsAux 0 t = t := by
  induction t with
  | nil => rfl
  | cons c cs ih =>
    have hc : c ≠ '<' := fun e => h (by simp [e])
    rw [stripTagsAux, if_neg hc, ih (fun e => h (by simp [e]))]

theorem stripTagsAux_append_trail (trail : Str) (hlt : '<' ∉ trail) (hgt : '>' ∉ trail) :
    ∀ (s : Str) (k : Nat), k ≤ s.length →
      stripTagsAux k (s ++ trail) = stripTagsAux k s ++ trail := by
  intro s
  induction s with
  | nil =>
    intro k hk
    have : k = 0 := by simpa using hk
    subst this
    rw [List.nil_append, stripTagsAux_no_lt trail hlt]
    rfl
  | cons c cs ih =>
    intro k hk
    cases k with
    | succ k =>
      rw [List.cons_append, stripTagsAux, stripTagsAux]
      exact ih k (by simpa using hk)
    | zero =>
      rw [List.cons_append, stripTagsAux, stripTagsAux, tagRest_append_trail cs trail hgt]
      by_cases hc : c = '<'
      · rw [if_pos hc, if_pos hc]
        cases ht : tagRest cs with
        | some n => exact ih n (tagRest_le cs n ht)
        | none =>
          show c :: stripTagsAux 0 (cs ++ trail) = c :: stripTagsAux 0 cs ++ trail
          rw [ih 0 (Nat.zero_le _)]
          rfl
      · rw [if_neg hc, if_neg hc, ih 0 (Nat.zero_le _)]
        rfl

theorem stripTagsAux_lead (lead s : Str) (h : '<' ∉ lead) :
    stripTagsAux 0 (lead ++ s) = lead ++ stripTagsAux 0 s := by
  induction lead with
  | nil => rfl
  | cons c cs ih =>
    have hc : c ≠ '<' := fun e => h (by simp [e])
    rw [List.cons_append, stripTagsAux, if_neg hc, ih (fun e => h (by simp [e]))]
    rfl

/-- Stripping the tags of a line and of its trimmed text differ by white
space at the two ends. -/
theorem stripTags_decompose (l : Str) :
    ∃ lead trail, (∀ c ∈ lead, isWhitespace c = true) ∧ (∀ c ∈ trail, isWhitespace c = true) ∧
      stripTags l = lead ++ (stripTags (trim l) ++ trail) := by
  obtain ⟨lead, trail, hlead, htrail, e⟩ := trim_decompose l
  refine ⟨lead, trail, hlead, htrail, ?_⟩
  have h1 : '<' ∉ lead := fun hm => (ws_ne_angle (hlead _ hm)).1 rfl
  have h2 : '<' ∉ trail := fun hm => (ws_ne_angle (htrail _ hm)).1 rfl
  have h3 : '>' ∉ trail := fun hm => (ws_ne_angle (htrail _ hm)).2 rfl
  unfold stripTags
  conv_lhs => rw [e]
  rw [stripTagsAux_lead lead _ h1, stripTagsAux_append_trail trail h2 h3 _ 0 (Nat.zero_le _)]

theorem joinSpace_cons_cons (a b : Str) (rest : List Str) :
    joinSpace (a :: b :: rest) = a ++ ' ' :: joinSpace (b :: rest) := rfl

/-- Lines that differ by white space at their ends have the same normalized
join, also after a prefix and a separating space. -/
theorem norm_joinSpace_padded (as ms : List Str)
    (h : List.Forall₂ (fun a m => ∃ lead trail, (∀ c ∈ lead, isWhitespace c = true) ∧
      (∀ c ∈ trail, isWhitespace c = true) ∧ a = lead ++ (m ++ trail)) as ms) :
    (∀ x, trim (collapseWs (x ++ ' ' :: joinSpace as)) =
        trim (collapseWs (x ++ ' ' :: joinSpace ms))) ∧
    trim (collapseWs (joinSpace as)) = trim (collapseWs (joinSpace ms)) := by
  induction h with
  | nil => exact ⟨fun _ => rfl, rfl⟩
  | @cons a m as' ms' ham hrest ih =>
    obtain ⟨lead, trail, hlead, htrail, rfl⟩ := ham
    cases hrest with
    | nil =>
      constructor
      · intro x
        show trim (collapseWs (x ++ ' ' :: (lead ++ (m ++ trail)))) =
          trim (collapseWs (x ++ ' ' :: m))
        rw [norm_ws_after_space x lead _ hlead]
        rw [show x ++ ' ' :: (m ++ trail) = (x ++ ' ' :: m) ++ trail by simp,
          norm_append_ws _ trail htrail]
      · show trim (collapseWs (lead ++ (m ++ trail))) = trim (collapseWs m)
        rw [norm_ws_append lead _ hlead, norm_append_ws m trail htrail]
    | @cons a2 m2 as2 ms2 ham2 hrest2 =>
      have ih' := ih
      constructor
      · intro x
        rw [joinSpace_cons_cons, joinSpace_cons_cons]
        rw [show x ++ ' ' :: (lead ++ (m ++ trail) ++ ' ' :: joinSpace (a2 :: as2)) =
            x ++ ' ' :: (lead ++ (m ++ trail ++ ' ' :: joinSpace (a2 :: as2))) by simp,
          norm_ws_after_space x lead _ hlead]
        rw [show x ++ ' ' :: (m ++ trail ++ ' ' :: joinSpace (a2 :: as2)) =
            (x ++ ' ' :: m) ++ (trail ++ ' ' :: joinSpace (a2 :: as2)) by simp,
          norm_ws_before_space _ trail _ htrail, ih'.1 (x ++ ' ' :: m)]
        simp
      · rw [joinSpace_cons_cons, joinSpace_cons_cons]
        rw [show lead ++ (m ++ trail) ++ ' ' :: joinSpace (a2 :: as2) =
            lead ++ (m ++ (trail ++ ' ' :: joinSpace (a2 :: as2))) by simp,
          norm_ws_append lead _ hlead, norm_ws_before_space m trail _ htrail, ih'.1 m]

/-- The text of a cue does not depend on whether its lines are trimmed before
their tags are removed. -/
theorem norm_join_strip_trim (ls : List Str) :
    trim (collapseWs (joinSpace (ls.map (fun l => stripTags (trim l))))) =
      trim (collapseWs (joinSpace (ls.map stripTags))) := by
  have h : List.Forall₂ (fun a m => ∃ lead trail, (∀ c ∈ lead, isWhitespace c = true) ∧
      (∀ c ∈ trail, isWhitespace c = true) ∧ a = lead ++ (m ++ trail))
      (ls.map stripTags) (ls.map (fun l => stripTags (trim l))) := by
    induction ls with
    | nil => exact List.Forall₂.nil
    | cons l rest ih => exact List.Forall₂.cons (stripTags_decompose l) ih
  exact (norm_joinSpace_padded _ _ h).2.symm

/-! ## Theorems: well-formed cue texts -/

theorem includes_snoc_false (a : Str) (d : Char) (hd : d ≠ '>')
    (h : includes a arrow = false) : includes (a ++ [d]) arrow = false := by
  rw [← Bool.not_eq_true] at h ⊢
  intro hc
  apply h
  obtain ⟨x, y, e⟩ := (includes_iff _ _).1 hc
  rcases List.eq_nil_or_concat y with rfl | ⟨y', z, rfl⟩
  · exfalso
    have : (a ++ [d]).getLast? = (x ++ arrow ++ []).getLast? := by rw [e]
    simp [arrow] at this
    exact hd this
  · rw [List.concat_eq_append] at e
    have e' : a ++ [d] = (x ++ arrow ++ y') ++ [z] := by rw [e]; simp
    have := List.append_inj' e' rfl
    exact (includes_iff _ _).2 ⟨x, y', this.1⟩

theorem includes_cons_false (d : Char) (b : Str) (hd : d ≠ '-')
    (h : includes b arrow = false) : includes (d :: b) arrow = false := by
  rw [← Bool.not_eq_true] at h ⊢
  intro hc
  apply h
  obtain ⟨x, y, e⟩ := (includes_iff _ _).1 hc
  cases x with
  | nil =>
    exfalso
    simp [arrow] at e
    exact hd e.1
  | cons x0 xs =>
    simp only [List.cons_append, List.cons.injEq] at e
    exact (includes_iff _ _).2 ⟨xs, y, e.2⟩

theorem trim_snoc_ws (a : Str) (w : Char) (hw : isWhitespace w = true) :
    trim (a ++ [w]) = trim a :=
  trim_append_ws a [w] (by simpa using hw)

theorem trim_cons_ws (w : Char) (b : Str) (hw : isWhitespace w = true) :
    trim (w :: b) = trim b :=
  trim_ws_append [w] b (by simpa using hw)

/-- The timing line `A --> B` resets the pending cue to the two tokens. -/
theorem step_timingLine (st : ParseState) (c : CueBlock)
    (ha : includes c.a arrow = false) (hb : includes c.b arrow = false) :
    step st (timingLine c) = ParseState.mk (flushed st) [] (toMs c.a) (toMs c.b) := by
  have hline : timingLine c = (c.a ++ [' ']) ++ arrow ++ (' ' :: c.b) := by
    simp [timingLine, arrow]
  have htrim : trim (timingLine c) = trimStart (c.a ++ [' ']) ++ arrow ++ trimEnd (' ' :: c.b) := by
    rw [hline, trim_arrow]
  have ha1 : includes (trimStart (c.a ++ [' '])) arrow = false :=
    includes_false_of_suffix (trimStart_suffix _) (includes_snoc_false c.a ' ' (by decide) ha)
  have hb1 : includes (trimEnd (' ' :: c.b)) arrow = false :=
    includes_false_of_initial (trimEnd_initial _) (includes_cons_false ' ' c.b (by decide) hb)
  have hinc : includes (trim (timingLine c)) arrow = true := by
    rw [htrim]
    exact (includes_iff _ _).2 ⟨_, _, rfl⟩
  rw [step_timing st hinc, htrim]
  obtain ⟨e1, e2⟩ := beforeArrow_append (trimStart (c.a ++ [' '])) (trimEnd (' ' :: c.b)) ha1
  rw [e1, e2, beforeArrow_none _ hb1]
  have t1 : toMs (trimStart (c.a ++ [' '])) = toMs c.a :=
    toMs_congr (by rw [trim_trimStart, trim_snoc_ws c.a ' ' (by decide)])
  have t2 : toMs (trimEnd (' ' :: c.b)) = toMs c.b :=
    toMs_congr (by rw [trim_trimEnd, trim_cons_ws ' ' c.b (by decide)])
  rw [t1, t2]

theorem step_textLine (st : ParseState) {l : Str} (h : TextLine l) :
    step st l = { st with buf := st.buf ++ [stripTags (trim l)] } := by
  obtain ⟨-, harr, hne, hdig, hweb⟩ := h
  have harr' : includes (trim l) arrow = false := by
    rw [← Bool.not_eq_true]
    intro hc
    obtain ⟨x, y, e⟩ := (includes_iff _ _).1 hc
    obtain ⟨p, q, hpq⟩ := trim_inside l
    have : includes l arrow = true :=
      (includes_iff _ _).2 ⟨p ++ x, y ++ q, by rw [← hpq, e]; simp⟩
    rw [harr] at this
    cases this
  have hemp : (trim l).isEmpty = false := by
    cases ht : trim l with
    | nil => exact absurd ht hne
    | cons c cs => rfl
  unfold step
  simp only [harr', hemp, hdig, hweb, Bool.false_eq_true, if_false, Bool.not_false,
    Bool.and_self, if_true]

theorem foldl_textLines (lines : List Str) (st : ParseState) (h : ∀ l ∈ lines, TextLine l) :
    lines.foldl step st =
      { st with buf := st.buf ++ lines.map (fun l => stripTags (trim l)) } := by
  induction lines generalizing st with
  | nil => simp
  | cons l rest ih =>
    rw [List.foldl_cons, step_textLine st (h l (by simp)),
      ih _ (fun x hx => h x (by simp [hx]))]
    simp

/-- The state after a whole block. -/
theorem foldl_block (st : ParseState) (c : CueBlock) (h : WellFormedBlock c) :
    (blockLines c).foldl step st =
      ParseState.mk (flushed st) (c.lines.map (fun l => stripTags (trim l)))
        (toMs c.a) (toMs c.b) := by
  obtain ⟨-, -, ha, hb, -, hlines, -⟩ := h
  rw [blockLines, List.foldl_cons, step_timingLine st c ha hb, foldl_textLines _ _ hlines]
  simp

theorem flushed_block (st : ParseState) (c : CueBlock) (h : WellFormedBlock c) :
    flushed (ParseState.mk (flushed st) (c.lines.map (fun l => stripTags (trim l)))
        (toMs c.a) (toMs c.b)) = flushed st ++ [segmentOf c] := by
  have hne : c.lines ≠ [] := h.2.2.2.2.1
  have hemp : (c.lines.map (fun l => stripTags (trim l))).isEmpty = false := by
    cases hl : c.lines with
    | nil => exact absurd hl hne
    | cons l rest => rfl
  unfold flushed
  simp only [hemp, Bool.false_eq_true, if_false]
  congr 2
  unfold mkSegment segmentOf blockText
  rw [norm_join_strip_trim]

/-- The segments pending and flushed after a sequence of blocks. -/
theorem flushed_blocksLines (blocks : List CueBlock) (st : ParseState)
    (h : ∀ c ∈ blocks, WellFormedBlock c) :
    flushed ((blocksLines blocks).foldl step st) = flushed st ++ blocks.map segmentOf := by
  induction blocks generalizing st with
  | nil => simp [blocksLines]
  | cons c rest ih =>
    have hc := h c (by simp)
    have hrest : ∀ x ∈ rest, WellFormedBlock x := fun x hx => h x (by simp [hx])
    cases rest with
    | nil =>
      show flushed ((blockLines c).foldl step st) = _
      rw [foldl_block st c hc, flushed_block st c hc]
      rfl
    | cons c2 rest2 =>
      show flushed ((blockLines c ++ [] :: blocksLines (c2 :: rest2)).foldl step st) = _
      rw [List.foldl_append, List.foldl_cons, foldl_block st c hc,
        step_blank _ (l := []) rfl, ih _ hrest, flushed_block st c hc]
      simp

theorem step_header (st : ParseState) (header : Str)
    (harrow : includes header arrow = false) (hweb : startsWithWebvtt (trim header) = true) :
    step st header = st := by
  have harr' : includes (trim header) arrow = false := by
    rw [← Bool.not_eq_true]
    intro hc
    obtain ⟨x, y, e⟩ := (includes_iff _ _).1 hc
    obtain ⟨p, q, hpq⟩ := trim_inside header
    have : includes header arrow = true :=
      (includes_iff _ _).2 ⟨p ++ x, y ++ q, by rw [← hpq, e]; simp⟩
    rw [harrow] at this
    cases this
  unfold step
  simp only [harr', hweb, Bool.false_eq_true, if_false, Bool.not_true, Bool.and_false]

theorem timingLine_no_nl (c : CueBlock) (ha : Char.ofNat 0x0A ∉ c.a)
    (hb : Char.ofNat 0x0A ∉ c.b) : Char.ofNat 0x0A ∉ timingLine c := by
  unfold timingLine
  intro hm
  rcases List.mem_append.1 hm with h1 | h1
  · exact ha h1
  · rcases List.mem_append.1 h1 with h2 | h2
    · revert h2; decide
    · exact hb h2

theorem blocksLines_no_nl (blocks : List CueBlock) (h : ∀ c ∈ blocks, WellFormedBlock c) :
    ∀ l ∈ blocksLines blocks, Char.ofNat 0x0A ∉ l := by
  induction blocks with
  | nil => intro l hl; simp [blocksLines] at hl
  | cons c rest ih =>
    have hc := h c (by simp)
    have hrest : ∀ x ∈ rest, WellFormedBlock x := fun x hx => h x (by simp [hx])
    have hblock : ∀ l ∈ blockLines c, Char.ofNat 0x0A ∉ l := by
      intro l hl
      rcases List.mem_cons.1 hl with rfl | hl
      · exact timingLine_no_nl c hc.1 hc.2.1
      · exact (hc.2.2.2.2.2.1 l hl).1
    intro l hl
    cases rest with
    | nil => exact hblock l hl
    | cons c2 rest2 =>
      have hl' : l ∈ blockLines c ++ [] :: blocksLines (c2 :: rest2) := hl
      rcases List.mem_append.1 hl' with h1 | h1
      · exact hblock l h1
      · rcases List.mem_cons.1 h1 with rfl | h2
        · simp
        · exact ih hrest l h2

/-- C2, amended. For a text made of a header line (a line starting with
`WEBVTT`), a blank line and `n ≥ 0` cue blocks separated by blank lines, each
block a timing line `A --> B` (`A` and `B` without the arrow) followed by
one or more text lines, each of which, once trimmed, is not empty, not made
only of digits and does not start with `WEBVTT` in any letter case, none
containing the arrow, and the text of the block being non-empty once tags are
stripped: `vttToSegments` returns exactly the `n` segments of the blocks in
source order, the i-th with `start = toMs(A_i)`, `end = toMs(B_i)`,
`duration = max(0, end - start)` and the text of the i-th block (its lines
with tags removed, joined by single spaces, white space collapsed, trimmed). -/
theorem vttToSegments_cueText (header : Str) (blocks : List CueBlock)
    (hnl : Char.ofNat 0x0A ∉ header) (harrow : includes header arrow = false)
    (hweb : startsWithWebvtt (trim header) = true)
    (hwf : ∀ c ∈ blocks, WellFormedBlock c) :
    vttToSegments (cueText header blocks) = blocks.map segmentOf := by
  have hlines : ∀ l ∈ header :: [] :: blocksLines blocks, Char.ofNat 0x0A ∉ l := by
    intro l hl
    rcases List.mem_cons.1 hl with rfl | hl
    · exact hnl
    · rcases List.mem_cons.1 hl with rfl | hl
      · simp
      · exact blocksLines_no_nl blocks hwf l hl
  unfold vttToSegments cueText
  rw [foldl_step_splitLines _ _ hlines, List.foldl_cons, List.foldl_cons,
    step_header _ header harrow hweb, step_blank _ (l := []) rfl,
    flushed_blocksLines blocks _ hwf]
  have h0 : flushed initState = [] := rfl
  rw [h0, List.nil_append, List.filter_eq_self]
  intro seg hseg
  obtain ⟨c, hc, rfl⟩ := List.mem_map.1 hseg
  have hne : blockText c ≠ [] := (hwf c hc).2.2.2.2.2.2
  show (!(blockText c).isEmpty) = true
  cases ht : blockText c with
  | nil => exact absurd ht hne
  | cons d ds => rfl

/-- C2, amended, at a text of two blocks: two segments, in order. -/
theorem vttToSegments_cueText_witness :
    vttToSegments (cueText "WEBVTT".toList sampleBlocks) =
      [⟨.fin 1000, .fin 2500, .fin 1500, "Hello world second line".toList⟩,
       ⟨.fin 3000, .fin 4000, .fin 1000, "bye".toList⟩] := by
  have h := vttToSegments_cueText "WEBVTT".toList sampleBlocks (by decide) (by decide)
    (by decide) (by decide)
  rw [h]
  decide

/-- C2, counterexample. A block whose single text line is `WebVTT captions`
meets the conditions of the claim (the line is not blank, not made only of
digits, has no arrow, does not start with the letters `WEBVTT`, and is not
empty once tags are stripped), yet no segment is returned for it: the header
test of line 61 ignores letter case. -/
theorem vttToSegments_drops_webvtt_line :
    (∀ l ∈ webvttBlock.lines, ClaimedTextLine l) ∧ blockText webvttBlock ≠ [] ∧
    cueText "WEBVTT".toList [webvttBlock] =
      "WEBVTT\n\n00:00:01.000 --> 00:00:02.000\nWebVTT captions".toList ∧
    vttToSegments (cueText "WEBVTT".toList [webvttBlock]) = [] ∧
    [webvttBlock].map segmentOf ≠ [] := by
  decide

/-! ## Theorems: markup in the text of a segment -/

theorem tagRest_isSome_iff (s : Str) :
    (tagRest s).isSome = true ↔ ∃ x r, s = x :: r ∧ x ≠ '>' ∧ '>' ∈ r := by
  constructor
  · intro h
    cases s with
    | nil => simp [tagRest] at h
    | cons x r =>
      have hx : x ≠ '>' := by
        rintro rfl
        rw [tagRest_gt_cons] at h
        cases h
      refine ⟨x, r, rfl, hx, ?_⟩
      by_contra hr
      have : '>' ∉ x :: r := by
        intro hm
        rcases List.mem_cons.1 hm with h1 | h1
        · exact hx h1.symm
        · exact hr h1
      rw [tagRest_eq_none_of_not_mem _ this] at h
      cases h
  · rintro ⟨x, r, rfl, hx, hr⟩
    cases ht : tagRest (x :: r) with
    | some n => rfl
    | none =>
      exfalso
      rcases tagRest_none_cases _ ht with h1 | ⟨r', h1⟩
      · exact h1 (List.mem_cons_of_mem _ hr)
      · simp only [List.cons.injEq] at h1
        exact hx h1.1

/-- A text has a tag exactly when a `<` in it is followed by a character
other than `>` and, further on, by a `>`. -/
theorem hasTag_iff (s : Str) :
    hasTag s = true ↔ ∃ a x r, s = a ++ '<' :: x :: r ∧ x ≠ '>' ∧ '>' ∈ r := by
  induction s with
  | nil => simp [hasTag]
  | cons c cs ih =>
    rw [hasTag, Bool.or_eq_true, Bool.and_eq_true, beq_iff_eq, tagRest_isSome_iff, ih]
    constructor
    · rintro (⟨rfl, x, r, rfl, hx, hr⟩ | ⟨a, x, r, rfl, hx, hr⟩)
      · exact ⟨[], x, r, rfl, hx, hr⟩
      · exact ⟨c :: a, x, r, rfl, hx, hr⟩
    · rintro ⟨a, x, r, e, hx, hr⟩
      cases a with
      | nil =>
        simp only [List.nil_append, List.cons.injEq] at e
        exact Or.inl ⟨e.1, x, r, e.2, hx, hr⟩
      | cons a0 as =>
        simp only [List.cons_append, List.cons.injEq] at e
        exact Or.inr ⟨as, x, r, e.2, hx, hr⟩

theorem hasTag_false_of_inside {s t : Str} (hst : s <:+: t) (h : hasTag t = false) :
    hasTag s = false := by
  rw [← Bool.not_eq_true] at h ⊢
  intro hs
  apply h
  obtain ⟨a, x, r, rfl, hx, hr⟩ := (hasTag_iff s).1 hs
  obtain ⟨p, q, rfl⟩ := hst
  exact (hasTag_iff _).2 ⟨p ++ a, x, r ++ q, by simp, hx, List.mem_append_left _ hr⟩

theorem mem_collapseWsAux (b : Bool) (s : Str) :
    ∀ c ∈ collapseWsAux b s, c ∈ s ∨ c = ' ' := by
  induction s generalizing b with
  | nil => intro c hc; simp [collapseWsAux] at hc
  | cons d ds ih =>
    intro c hc
    rw [collapseWsAux] at hc
    by_cases hd : isWhitespace d = true
    · rw [if_pos hd] at hc
      cases b with
      | true =>
        rcases ih true c (by simpa using hc) with h1 | h1
        · exact Or.inl (List.mem_cons_of_mem _ h1)
        · exact Or.inr h1
      | false =>
        simp only [Bool.false_eq_true, if_false, List.mem_cons] at hc
        rcases hc with h0 | hc
        · exact Or.inr h0
        · rcases ih true c hc with h1 | h1
          · exact Or.inl (List.mem_cons_of_mem _ h1)
          · exact Or.inr h1
    · rw [if_neg hd] at hc
      rcases List.mem_cons.1 hc with h0 | hc
      · exact Or.inl (by rw [h0]; simp)
      · rcases ih false c hc with h1 | h1
        · exact Or.inl (List.mem_cons_of_mem _ h1)
        · exact Or.inr h1

theorem collapseWsAux_false_head (s : Str) (x : Char) (r : Str)
    (h : collapseWsAux false s = x :: r) (hx : x ≠ '>') :
    ∃ y ys, s = y :: ys ∧ y ≠ '>' := by
  cases s with
  | nil => simp [collapseWsAux] at h
  | cons y ys =>
    refine ⟨y, ys, rfl, ?_⟩
    by_cases hy : isWhitespace y = true
    · exact (ws_ne_angle hy).2
    · rw [collapseWsAux, if_neg hy] at h
      simp only [List.cons.injEq] at h
      rw [h.1]
      exact hx

/-- Collapsing white space creates no tag. -/
theorem hasTag_of_collapseWsAux (s : Str) :
    ∀ (b : Bool) (a : Str) (x : Char) (r : Str),
      collapseWsAux b s = a ++ '<' :: x :: r → x ≠ '>' → '>' ∈ r → hasTag s = true := by
  induction s with
  | nil =>
    intro b a x r h
    simp [collapseWsAux] at h
  | cons c cs ih =>
    intro b a x r h hx hr
    have hmono : hasTag cs = true → hasTag (c :: cs) = true := by
      intro hcs
      rw [hasTag, hcs, Bool.or_true]
    rw [collapseWsAux] at h
    by_cases hc : isWhitespace c = true
    · rw [if_pos hc] at h
      cases b with
      | true => exact hmono (ih true a x r (by simpa using h) hx hr)
      | false =>
        simp only [Bool.false_eq_true, if_false] at h
        cases a with
        | nil =>
          simp only [List.nil_append, List.cons.injEq] at h
          exact absurd h.1 (by decide)
        | cons a0 as =>
          simp only [List.cons_append, List.cons.injEq] at h
          exact hmono (ih true as x r h.2 hx hr)
    · rw [if_neg hc] at h
      cases a with
      | nil =>
        simp only [List.nil_append, List.cons.injEq] at h
        obtain ⟨hc0, hrest⟩ := h
        obtain ⟨y, ys, hys, hy⟩ := collapseWsAux_false_head cs x r hrest hx
        have hgt : '>' ∈ cs := by
          have hm : '>' ∈ collapseWsAux false cs := by rw [hrest]; exact List.mem_cons_of_mem _ hr
          rcases mem_collapseWsAux false cs _ hm with h1 | h1
          · exact h1
          · exact absurd h1 (by decide)
        have hgt' : '>' ∈ ys := by
          rw [hys] at hgt
          rcases List.mem_cons.1 hgt with h1 | h1
          · exact absurd h1.symm hy
          · exact h1
        exact (hasTag_iff _).2 ⟨[], y, ys, by rw [hc0, hys]; rfl, hy, hgt'⟩
      | cons a0 as =>
        simp only [List.cons_append, List.cons.injEq] at h
        exact hmono (ih false as x r h.2 hx hr)

/-- The normalized text of a line without a tag has no tag. -/
theorem hasTag_norm_false (l : Str) (h : hasTag l = false) :
    hasTag (trim (collapseWs l)) = false := by
  apply hasTag_false_of_inside (trim_inside _)
  rw [← Bool.not_eq_true] at h ⊢
  intro hc
  apply h
  obtain ⟨a, x, r, e, hx, hr⟩ := (hasTag_iff _).1 hc
  exact hasTag_of_collapseWsAux l false a x r e hx hr

/-- C10, counterexample. A tag opened on one line of a cue and closed on the
next is not removed: each line is stripped on its own before the lines are
joined. -/
theorem vttToSegments_keeps_tag_across_lines :
    vttToSegments "WEBVTT\n\n00:00:01.000 --> 00:00:02.000\n<b\nc>".toList =
      [⟨.fin 1000, .fin 2000, .fin 1000, "<b c>".toList⟩] ∧
    hasTag "<b c>".toList = true := by
  decide

/-- C10, amended. The text of every segment returned by `vttToSegments` is
the join by single spaces, with white space collapsed and trimmed, of one or
more buffered lines each of which is markup-stripped: no line contains a `<`
followed by one or more characters other than `>` followed by `>`. When the
cue has a single buffered line its text contains no tag; a tag can be left in
a text only where it spans the join of two lines. -/
theorem vttToSegments_lines_stripped (vtt : Str) (seg : Segment) (h : seg ∈ vttToSegments vtt) :
    ∃ buf : List Str, buf ≠ [] ∧ (∀ l ∈ buf, hasTag l = false) ∧
      seg.text = trim (collapseWs (joinSpace buf)) ∧
      (buf.length = 1 → hasTag seg.text = false) := by
  obtain ⟨⟨start, end_, buf, hne, hbuf, -, -, rfl⟩, -⟩ := vttToSegments_built h
  have hstripped : ∀ l ∈ buf, hasTag l = false := by
    intro l hl
    obtain ⟨line, rfl⟩ := hbuf l hl
    exact hasTag_stripTagsAux 0 line
  refine ⟨buf, hne, hstripped, rfl, ?_⟩
  intro hlen
  obtain ⟨l, rfl⟩ := List.length_eq_one.1 hlen
  exact hasTag_norm_false l (hstripped l (by simp))

/-- C10, amended, at a cue with an inline tag. -/
theorem vttToSegments_lines_stripped_witness :
    ∃ buf : List Str, buf ≠ [] ∧ (∀ l ∈ buf, hasTag l = false) ∧
      "Hello world".toList = trim (collapseWs (joinSpace buf)) ∧
      (buf.length = 1 → hasTag "Hello world".toList = false) :=
  vttToSegments_lines_stripped
    "WEBVTT\n\n00:00:01.000 --> 00:00:02.000\nHello <b>world</b>".toList
    ⟨.fin 1000, .fin 2000, .fin 1000, "Hello world".toList⟩ (by decide)

/-! ## Theorems: the policy of track selection -/

theorem firstIndex?_lt {α : Type} (p : α → Bool) (l : List α) (i : Nat)
    (h : firstIndex? p l = some i) : i < l.length := by
  induction l generalizing i with
  | nil => simp [firstIndex?] at h
  | cons a as ih =>
    simp only [firstIndex?] at h
    by_cases hp : p a = true
    · simp [hp] at h; subst h; simp
    · simp only [hp, if_false, Bool.false_eq_true] at h
      cases hq : firstIndex? p as with
      | none => simp [hq] at h
      | some j =>
        simp [hq] at h
        have := ih j hq
        subst h
        simp only [List.length_cons]; omega

theorem score_eq_langRank (langs : List Str) (t : Track) :
    score langs t = (if isAsr t then 10 else 0) + (langRank langs t).getD 5 := by
  unfold score langRank isAsr
  cases firstIndex? (fun l => l.isPrefixOf (toLowerCase (t.languageCode.getD []))) langs <;>
    by_cases hq : t.kind = some "asr".toList <;> simp [hq]

/-- The track returned is a track of the list whose score no other track
undercuts. -/
theorem chooseTrack_least (tracks : List Track) (langs : List Str) (h : tracks ≠ []) :
    ∃ t, chooseTrack tracks langs = some t ∧ t ∈ tracks ∧
      ∀ u ∈ tracks, score langs t ≤ score langs u := by
  obtain ⟨pre, t, post, hl, hhead, hpre, hpost⟩ := jsSort_head (pref langs) tracks h
  refine ⟨t, hhead, by rw [hl]; simp, ?_⟩
  intro u hu
  rw [hl] at hu
  simp only [List.mem_append, List.mem_cons] at hu
  rcases hu with hu | hu | hu
  · have := hpre u hu
    rw [pref_eq_score, pref_eq_score] at this
    omega
  · rw [hu]
  · have := hpost u hu
    rw [pref_eq_score, pref_eq_score] at this
    omega

theorem mem_insertSorted {α : Type} (cmp : α → α → Int) (a x : α) (l : List α) :
    x ∈ insertSorted cmp a l ↔ x = a ∨ x ∈ l := by
  induction l with
  | nil => simp [insertSorted]
  | cons b l ih =>
    unfold insertSorted
    by_cases hc : cmp a b ≤ 0
    · rw [if_pos hc]; simp
    · rw [if_neg hc]
      simp only [List.mem_cons, ih]
      tauto

theorem mem_jsSort {α : Type} (cmp : α → α → Int) (x : α) (l : List α) :
    x ∈ jsSort cmp l ↔ x ∈ l := by
  induction l with
  | nil => simp [jsSort]
  | cons a l ih =>
    unfold jsSort
    rw [mem_insertSorted, ih]
    simp

theorem insertSorted_map_on {α β : Type} (f : α → β) (cmp : β → β → Int)
    (cmp' : α → α → Int) (a : α) (l : List α)
    (h : ∀ y ∈ l, cmp (f a) (f y) = cmp' a y) :
    insertSorted cmp (f a) (l.map f) = (insertSorted cmp' a l).map f := by
  induction l with
  | nil => rfl
  | cons b l ih =>
    have hb := h b (by simp)
    have hl : ∀ y ∈ l, cmp (f a) (f y) = cmp' a y := fun y hy => h y (by simp [hy])
    simp only [List.map_cons, insertSorted, hb]
    by_cases hc : cmp' a b ≤ 0
    · rw [if_pos hc, if_pos hc]; rfl
    · rw [if_neg hc, if_neg hc, List.map_cons, ih hl]

/-- Sorting commutes with a map that preserves the comparisons between the
elements of the list. -/
theorem jsSort_map_on {α β : Type} (f : α → β) (cmp : β → β → Int)
    (cmp' : α → α → Int) (l : List α)
    (h : ∀ x ∈ l, ∀ y ∈ l, cmp (f x) (f y) = cmp' x y) :
    jsSort cmp (l.map f) = (jsSort cmp' l).map f := by
  induction l with
  | nil => rfl
  | cons a l ih =>
    have hl : ∀ x ∈ l, ∀ y ∈ l, cmp (f x) (f y) = cmp' x y :=
      fun x hx y hy => h x (by simp [hx]) y (by simp [hy])
    simp only [List.map_cons, jsSort]
    rw [ih hl]
    apply insertSorted_map_on
    intro y hy
    exact h a (by simp) y (by simp [(mem_jsSort cmp' y l).1 hy])

theorem prefWith_sameUpToCase (lower : Str → Str) (langs : List Str) {t t' : Track}
    (h : SameUpToCase lower t t') : prefWith lower langs t' = prefWith lower langs t := by
  obtain ⟨hk, -, hc⟩ := h
  unfold prefWith
  rw [hk, hc]

theorem chooseTrackWith_ascii (tracks : List Track) (langs : List Str) :
    chooseTrackWith toLowerCase tracks langs = chooseTrack tracks langs := rfl

theorem requestLangsWith_ascii (param : Option Str) :
    requestLangsWith toLowerCase param = requestLangs param := rfl

theorem requestLangsWith_congr (lower : Str → Str) (p q : Str) (hp : p ≠ []) (hq : q ≠ [])
    (h : lower p = lower q) :
    requestLangsWith lower (some p) = requestLangsWith lower (some q) := by
  cases p with
  | nil => exact absurd rfl hp
  | cons c cs =>
    cases q with
    | nil => exact absurd rfl hq
    | cons d ds =>
      unfold requestLangsWith
      simp only [h]

/-- Two track lists that differ only in the letter case of the codes have
their chosen tracks at one and the same position. -/
theorem chooseTrackWith_position (lower : Str → Str) (tracks tracks' : List Track)
    (langs : List Str) (hne : tracks ≠ [])
    (hcase : List.Forall₂ (SameUpToCase lower) tracks tracks') :
    ∃ (i : Nat) (t t' : Track), tracks[i]? = some t ∧ tracks'[i]? = some t' ∧
      chooseTrackWith lower tracks langs = some t ∧
      chooseTrackWith lower tracks' langs = some t' := by
  have hlen : tracks.length = tracks'.length := hcase.length_eq
  have hrel : ∀ z ∈ tracks.zip tracks', SameUpToCase lower z.1 z.2 := by
    intro z hz
    exact (List.forall₂_iff_zip.1 hcase).2 hz
  have hfst : (tracks.zip tracks').map Prod.fst = tracks :=
    List.map_fst_zip _ _ (Nat.le_of_eq hlen)
  have hsnd : (tracks.zip tracks').map Prod.snd = tracks' :=
    List.map_snd_zip _ _ (Nat.le_of_eq hlen.symm)
  have hzne : tracks.zip tracks' ≠ [] := by
    intro e
    rw [e] at hfst
    exact hne hfst.symm
  have s1 : jsSort (fun a b => prefWith lower langs a - prefWith lower langs b) tracks
      = (jsSort (fun x y : Track × Track =>
          prefWith lower langs x.1 - prefWith lower langs y.1) (tracks.zip tracks')).map
          Prod.fst := by
    have e := jsSort_map_on Prod.fst
      (fun a b => prefWith lower langs a - prefWith lower langs b)
      (fun x y : Track × Track => prefWith lower langs x.1 - prefWith lower langs y.1)
      (tracks.zip tracks') (fun _ _ _ _ => rfl)
    rw [hfst] at e
    exact e
  have s2 : jsSort (fun a b => prefWith lower langs a - prefWith lower langs b) tracks'
      = (jsSort (fun x y : Track × Track =>
          prefWith lower langs x.1 - prefWith lower langs y.1) (tracks.zip tracks')).map
          Prod.snd := by
    have e := jsSort_map_on Prod.snd
      (fun a b => prefWith lower langs a - prefWith lower langs b)
      (fun x y : Track × Track => prefWith lower langs x.1 - prefWith lower langs y.1)
      (tracks.zip tracks') (fun x hx y hy => by
        show prefWith lower langs x.2 - prefWith lower langs y.2
          = prefWith lower langs x.1 - prefWith lower langs y.1
        rw [prefWith_sameUpToCase lower langs (hrel x hx),
          prefWith_sameUpToCase lower langs (hrel y hy)])
    rw [hsnd] at e
    exact e
  obtain ⟨pre, z, post, hz, hhead, -, -⟩ :=
    jsSort_head (fun x : Track × Track => prefWith lower langs x.1) (tracks.zip tracks') hzne
  have hzmem : z ∈ tracks.zip tracks' := by rw [hz]; simp
  obtain ⟨i, hi⟩ := List.mem_iff_getElem?.1 hzmem
  have hi1 : tracks[i]? = some z.1 := by
    rw [← hfst, List.getElem?_map, hi]; rfl
  have hi2 : tracks'[i]? = some z.2 := by
    rw [← hsnd, List.getElem?_map, hi]; rfl
  refine ⟨i, z.1, z.2, hi1, hi2, ?_, ?_⟩
  · unfold chooseTrackWith
    rw [s1, List.head?_map, hhead]; rfl
  · unfold chooseTrackWith
    rw [s2, List.head?_map, hhead]; rfl

/-- C12, counterexample. With twelve preferred languages, a manual track in
the twelfth language scores 11 and an auto-generated track in the first
language scores 10: the auto-generated track is returned, in either order of
the list. With the first eleven of these languages, a manual track in the
eleventh scores 10 as well, and the auto-generated track is returned when it
comes first. -/
theorem chooseTrack_returns_asr_over_manual :
    (mkTrack "hi" false).kind ≠ some "asr".toList ∧
    chooseTrack [mkTrack "hi" false, mkTrack "es" true] twelveLangs
      = some (mkTrack "es" true) ∧
    chooseTrack [mkTrack "es" true, mkTrack "hi" false] twelveLangs
      = some (mkTrack "es" true) ∧
    (mkTrack "es" true).kind = some "asr".toList ∧
    (mkTrack "ar" false).kind ≠ some "asr".toList ∧
    chooseTrack [mkTrack "es" true, mkTrack "ar" false] (twelveLangs.take 11)
      = some (mkTrack "es" true) := by
  decide

/-- C12, amended. For every list of at most ten preferred languages and every
track list that contains a track whose kind is not `asr`, `chooseTrack`
returns a track of the list whose kind is not `asr`. -/
theorem chooseTrack_manual_first (tracks : List Track) (langs : List Str)
    (hlen : langs.length ≤ 10)
    (hman : ∃ u ∈ tracks, u.kind ≠ some "asr".toList) :
    ∃ t, chooseTrack tracks langs = some t ∧ t ∈ tracks ∧ t.kind ≠ some "asr".toList := by
  obtain ⟨u, hu, huk⟩ := hman
  obtain ⟨t, ht, hmem, hmin⟩ := chooseTrack_least tracks langs (List.ne_nil_of_mem hu)
  refine ⟨t, ht, hmem, ?_⟩
  intro htk
  have h1 := hmin u hu
  rw [score_eq_langRank, score_eq_langRank] at h1
  have ha : isAsr t = true := by simp [isAsr, htk]
  have hb : isAsr u = false := by unfold isAsr; exact decide_eq_false huk
  rw [ha, hb] at h1
  simp only [if_true, Bool.false_eq_true, if_false] at h1
  cases hr : langRank langs u with
  | none => rw [hr] at h1; simp at h1; omega
  | some i =>
    have := firstIndex?_lt _ _ _ hr
    rw [hr] at h1; simp at h1; omega

/-- Witness for C12: with the default preference, the manual track is
returned although the auto-generated one comes first. -/
theorem chooseTrack_manual_first_witness :
    ∃ t, chooseTrack [esAsr, enManual] ["es".toList, "en".toList] = some t ∧
      t ∈ [esAsr, enManual] ∧ t.kind ≠ some "asr".toList :=
  chooseTrack_manual_first [esAsr, enManual] ["es".toList, "en".toList] (by decide)
    ⟨enManual, by decide, by decide⟩

/-- C13, counterexample. Both tracks are manual; the second matches the
seventh preferred language, the first matches none. The first is returned,
in either order of the list, so the returned track matches no entry. The
same happens with a track that matches the sixth preferred language when the
unmatched track comes first. -/
theorem chooseTrack_returns_unmatched :
    langRank sevenLangs (mkTrack "ru" false) = some 6 ∧
    langRank sevenLangs (mkTrack "ja" false) = none ∧
    chooseTrack [mkTrack "ja" false, mkTrack "ru" false] sevenLangs
      = some (mkTrack "ja" false) ∧
    chooseTrack [mkTrack "ru" false, mkTrack "ja" false] sevenLangs
      = some (mkTrack "ja" false) ∧
    langRank sevenLangs (mkTrack "pt" false) = some 5 ∧
    chooseTrack [mkTrack "ja" false, mkTrack "pt" false] sevenLangs
      = some (mkTrack "ja" false) := by
  decide

/-- C13, amended. For every list of preferred languages and every track list
whose tracks are all `asr` or all not `asr`, if some track matches one of the
first five entries then the returned track matches an entry, and the index
of its first matching entry is the smallest over the tracks of the list. -/
theorem chooseTrack_earliest_language (tracks : List Track) (langs : List Str)
    (hkind : ∀ u ∈ tracks, ∀ v ∈ tracks, isAsr u = isAsr v)
    (u : Track) (hu : u ∈ tracks) (i : Nat)
    (hi : langRank langs u = some i) (h5 : i < 5) :
    ∃ t j, chooseTrack tracks langs = some t ∧ t ∈ tracks ∧
      langRank langs t = some j ∧
      ∀ v ∈ tracks, ∀ k, langRank langs v = some k → j ≤ k := by
  obtain ⟨t, ht, hmem, hmin⟩ := chooseTrack_least tracks langs (List.ne_nil_of_mem hu)
  have key : ∀ v ∈ tracks, (langRank langs t).getD 5 ≤ (langRank langs v).getD 5 := by
    intro v hv
    have h1 := hmin v hv
    rw [score_eq_langRank, score_eq_langRank, hkind t hmem v hv] at h1
    omega
  have hu5 := key u hu
  rw [hi] at hu5
  simp only [Option.getD_some] at hu5
  cases hr : langRank langs t with
  | none => rw [hr] at hu5; simp at hu5; omega
  | some j =>
    refine ⟨t, j, ht, hmem, hr, ?_⟩
    intro v hv k hk
    have := key v hv
    rw [hr, hk] at this
    simpa using this

/-- Witness for C13: among two manual tracks the one in the first preferred
language is returned. -/
theorem chooseTrack_earliest_language_witness :
    ∃ t j, chooseTrack [enManual, esManual] ["es".toList, "en".toList] = some t ∧
      t ∈ [enManual, esManual] ∧
      langRank ["es".toList, "en".toList] t = some j ∧
      ∀ v ∈ [enManual, esManual], ∀ k,
        langRank ["es".toList, "en".toList] v = some k → j ≤ k :=
  chooseTrack_earliest_language [enManual, esManual] ["es".toList, "en".toList]
    (by decide) esManual (by decide) 0 (by decide) (by decide)

/-- C18, counterexample. The preference `["ES"]` selects the English track,
the preference `["es"]` the Spanish one: `chooseTrack` compares the entries of
the preference list as they are written. -/
theorem chooseTrack_depends_on_preference_case :
    chooseTrack [enManual, esManual] ["ES".toList] = some enManual ∧
    chooseTrack [enManual, esManual] ["es".toList] = some esManual ∧
    enManual ≠ esManual := by
  decide

/-- C18, amended. Whatever the platform's lower-casing function is, replacing
the language codes of the tracks by codes with the same lower-cased form does
not change the position of the track chosen, and replacing a non-empty
`langs` parameter of a request by one with the same lower-cased form does not
change the track chosen for the preference list that `handler` derives from
it. -/
theorem chooseTrack_case_insensitive (lower : Str → Str) (tracks tracks' : List Track)
    (langs : List Str) (hne : tracks ≠ [])
    (hcase : List.Forall₂ (SameUpToCase lower) tracks tracks') :
    (∃ (i : Nat) (t t' : Track), tracks[i]? = some t ∧ tracks'[i]? = some t' ∧
      chooseTrackWith lower tracks langs = some t ∧
      chooseTrackWith lower tracks' langs = some t') ∧
    ∀ p q : Str, p ≠ [] → q ≠ [] → lower p = lower q →
      chooseTrackWith lower tracks (requestLangsWith lower (some p))
        = chooseTrackWith lower tracks (requestLangsWith lower (some q)) := by
  refine ⟨chooseTrackWith_position lower tracks tracks' langs hne hcase, ?_⟩
  intro p q hp hq h
  rw [requestLangsWith_congr lower p q hp hq h]

/-- Witness for C18: with the ASCII lower-casing of the embedding, the three
tracks of the example and the same tracks with the codes `EN`, `Es`, `ES`
have their chosen tracks at position 1, and `langs=ES` selects the Spanish
track as `langs=es` does. -/
theorem chooseTrack_case_insensitive_witness :
    ((∃ (i : Nat) (t t' : Track), [enManual, esManual, esAsr][i]? = some t ∧
        recasedTracks[i]? = some t' ∧
        chooseTrackWith toLowerCase [enManual, esManual, esAsr] ["es".toList] = some t ∧
        chooseTrackWith toLowerCase recasedTracks ["es".toList] = some t') ∧
      ∀ p q : Str, p ≠ [] → q ≠ [] → toLowerCase p = toLowerCase q →
        chooseTrackWith toLowerCase [enManual, esManual, esAsr]
            (requestLangsWith toLowerCase (some p))
          = chooseTrackWith toLowerCase [enManual, esManual, esAsr]
            (requestLangsWith toLowerCase (some q))) ∧
    chooseTrack [enManual, esManual, esAsr] ["es".toList] = some esManual ∧
    chooseTrack recasedTracks ["es".toList] = recasedTracks[1]? ∧
    chooseTrack [enManual, esManual, esAsr] (requestLangs (some "ES".toList))
      = some esManual :=
  ⟨chooseTrack_case_insensitive toLowerCase [enManual, esManual, esAsr] recasedTracks
    ["es".toList] (by decide)
    (List.Forall₂.cons ⟨rfl, rfl, by decide⟩
      (List.Forall₂.cons ⟨rfl, rfl, by decide⟩
        (List.Forall₂.cons ⟨rfl, rfl, by decide⟩ List.Forall₂.nil))),
   by decide, by decide, by decide⟩

/-! ## Theorems: the leniency of `toMs` -/

theorem containsClock_of_suffix {r s : Str} (h : r <:+ s) (hr : containsClock r = true) :
    containsClock s = true := by
  induction s with
  | nil =>
    have : r = [] := List.eq_nil_of_suffix_nil h
    rw [this] at hr
    exact hr
  | cons c cs ih =>
    rcases List.suffix_cons_iff.1 h with rfl | h'
    · exact hr
    · simp only [containsClock, Bool.or_eq_true]
      exact Or.inr (ih h')

theorem containsClock_of_matchCore {s : Str} (h : (matchCore s).isSome = true) :
    containsClock s = true := by
  cases s with
  | nil => simp [matchCore] at h
  | cons c cs => simp only [containsClock, h, Bool.true_or]

theorem matchAt_none_of_no_clock (s : Str) (h : containsClock s = false) : matchAt s = none := by
  have hcore : ∀ r, r <:+ s → matchCore r = none := by
    intro r hr
    cases hm : matchCore r with
    | none => rfl
    | some g =>
      have : containsClock s = true :=
        containsClock_of_suffix hr (containsClock_of_matchCore (by rw [hm]; rfl))
      rw [h] at this
      exact absurd this (by decide)
  unfold matchAt
  have hdrop : s.dropWhile Char.isDigit <:+ s := List.dropWhile_suffix _
  rw [hcore s (List.suffix_refl s)]
  cases htw : s.takeWhile Char.isDigit with
  | nil => rfl
  | cons d ds =>
    cases hdw : s.dropWhile Char.isDigit with
    | nil => rfl
    | cons c r =>
      have hr : r <:+ s := by
        rw [hdw] at hdrop
        exact (List.suffix_cons c r).trans hdrop
      simp only [hcore r hr, Option.map_none', ite_self]

theorem matchCore_none_of_matchAt {s : Str} (h : matchAt s = none) : matchCore s = none := by
  cases hc : matchCore s with
  | none => rfl
  | some g =>
    unfold matchAt at h
    rw [hc] at h
    simp only [Option.map_some'] at h
    generalize (match List.takeWhile Char.isDigit s, List.dropWhile Char.isDigit s with
      | d :: ds, c :: r =>
        if c = ':' then Option.map (fun g => (some (d :: ds), g)) (matchCore r) else none
      | _, _ => none) = w at h
    cases w <;> simp at h

theorem matchTs_none_iff (s : Str) : matchTs s = none ↔ containsClock s = false := by
  induction s with
  | nil => simp [matchTs, containsClock]
  | cons c cs ih =>
    constructor
    · intro h
      unfold matchTs at h
      cases hm : matchAt (c :: cs) with
      | some m => rw [hm] at h; exact absurd h (by simp)
      | none =>
        rw [hm] at h
        have hcs := ih.1 h
        have hcore : matchCore (c :: cs) = none := matchCore_none_of_matchAt hm
        simp only [containsClock, hcore, hcs, Option.isSome_none, Bool.or_self]
    · intro h
      have hcs : containsClock cs = false := by
        simp only [containsClock, Bool.or_eq_false_iff] at h
        exact h.2
      unfold matchTs
      rw [matchAt_none_of_no_clock _ h]
      exact ih.2 hcs

theorem arrow_split (s : Str) (h : includes s arrow = true) :
    s = beforeArrow s ++ arrow ++ afterArrow s := by
  induction s with
  | nil => simp [includes, arrow] at h
  | cons c cs ih =>
    by_cases hp : arrow.isPrefixOf (c :: cs) = true
    · simp only [beforeArrow, afterArrow, hp, if_true, List.nil_append]
      obtain ⟨t, ht⟩ := List.isPrefixOf_iff_prefix.1 hp
      simp only [arrow, String.toList, String.data, List.cons_append, List.nil_append,
        List.cons.injEq] at ht
      obtain ⟨rfl, rfl⟩ := ht
      rfl
    · have hcs : includes cs arrow = true := by
        simp only [includes, Bool.or_eq_true] at h
        rcases h with h | h
        · exact absurd h hp
        · exact h
      simp only [beforeArrow, afterArrow, hp, if_false, Bool.false_eq_true]
      rw [List.cons_append, List.cons_append, ← ih hcs]

/-- C14, counterexample. The end timestamp of a timing line that carries a
cue setting is not of the form `[hours:]minutes:seconds.milliseconds`, and
`toMs` returns 4000 for it. -/
theorem toMs_nonzero_on_malformed_token :
    isTimestamp (trim tokenWithSetting) = false ∧
    toMs tokenWithSetting = JsNum.fin 4000 ∧ JsNum.fin 4000 ≠ 0 := by
  decide

/-- C14, amended. A token that, once trimmed, contains no `MM:SS.mmm` (two
digits, colon, two digits, full stop, three digits) anywhere is matched
nowhere and `toMs` returns 0 for it; these are the only tokens the pattern
does not match. On every timing line the split at the arrow yields the two
tokens whose values `step` stores, so the loop goes on whatever they are. -/
theorem toMs_lenient (ts : Str) :
    (containsClock (trim ts) = false → toMs ts = 0) ∧
    (matchTs (trim ts) = none ↔ containsClock (trim ts) = false) ∧
    (∀ (st : ParseState) (line : Str), includes (trim line) arrow = true →
      trim line = beforeArrow (trim line) ++ arrow ++ afterArrow (trim line) ∧
      step st line = ParseState.mk (flushed st) [] (toMs (beforeArrow (trim line)))
        (toMs (beforeArrow (afterArrow (trim line))))) := by
  refine ⟨?_, matchTs_none_iff _, ?_⟩
  · intro h
    unfold toMs
    rw [(matchTs_none_iff _).2 h]
  · intro st line h
    exact ⟨arrow_split _ h, step_timing st h⟩

/-- Witness for C14: a token without digits gives 0, and a timing line whose
tokens are both malformed is stored with both times 0. -/
theorem toMs_lenient_witness :
    toMs "soon".toList = 0 ∧
    step initState "soon --> later".toList = ParseState.mk [] [] 0 0 :=
  ⟨(toMs_lenient "soon".toList).1 (by decide),
   ((toMs_lenient []).2.2 initState "soon --> later".toList (by decide)).2.trans (by decide)⟩

/-! ## Theorems: line-ending conventions -/

theorem splitLines_lf (cs : Str) :
    splitLines (Char.ofNat 0x0A :: cs) = [] :: splitLines cs := by
  simp [splitLines]

theorem splitLines_crlf (cs : Str) :
    splitLines (Char.ofNat 0x0D :: Char.ofNat 0x0A :: cs) = [] :: splitLines cs := by
  simp [splitLines]

theorem splitLines_cons_other (c : Char) (cs : Str) (h1 : c ≠ Char.ofNat 0x0A)
    (h2 : ¬ (c = Char.ofNat 0x0D ∧ cs.head? = some (Char.ofNat 0x0A))) :
    ∃ l ls, splitLines cs = l :: ls ∧ splitLines (c :: cs) = (c :: l) :: ls := by
  have hne : ∀ s : Str, splitLines s ≠ [] := by
    intro s
    induction s with
    | nil => simp [splitLines]
    | cons d ds ih =>
      unfold splitLines
      split
      · simp
      · split
        · exact ih
        · split <;> simp
  cases hs : splitLines cs with
  | nil => exact absurd hs (hne cs)
  | cons l ls =>
    refine ⟨l, ls, rfl, ?_⟩
    rw [splitLines, if_neg h1, if_neg h2, hs]

theorem sameUpToCr_cons (c : Char) {a b : Str} (h : SameUpToCr a b) :
    SameUpToCr (c :: a) (c :: b) := by
  rcases h with h | h | h
  · exact Or.inl (by rw [h])
  · exact Or.inr (Or.inl (by rw [h]; rfl))
  · exact Or.inr (Or.inr (by rw [h]; rfl))

theorem trim_sameUpToCr {a b : Str} (h : SameUpToCr a b) : trim a = trim b := by
  rcases h with h | h | h
  · rw [h]
  · exact (trim_drop_cr b a (Or.inr h)).symm
  · exact trim_drop_cr a b (Or.inr h)

theorem foldl_step_sameUpToCr {L M : List Str} (h : List.Forall₂ SameUpToCr L M)
    (st : ParseState) : L.foldl step st = M.foldl step st := by
  induction h generalizing st with
  | nil => rfl
  | cons hab _ ih =>
    rw [List.foldl_cons, List.foldl_cons, step_congr st (trim_sameUpToCr hab)]
    exact ih _

theorem head?_lfToCrlf (cs : Str) : (lfToCrlf cs).head? ≠ some (Char.ofNat 0x0A) := by
  cases cs with
  | nil => simp [lfToCrlf]
  | cons d ds =>
    unfold lfToCrlf
    by_cases hd : d = Char.ofNat 0x0A
    · rw [if_pos hd]
      intro h
      simp only [List.head?_cons, Option.some.injEq] at h
      exact absurd h (by decide)
    · rw [if_neg hd]
      simpa using hd

theorem splitLines_lfToCrlf (s : Str) :
    List.Forall₂ SameUpToCr (splitLines (lfToCrlf s)) (splitLines s) := by
  induction s with
  | nil => exact List.Forall₂.cons (Or.inl rfl) List.Forall₂.nil
  | cons c cs ih =>
    by_cases hc : c = Char.ofNat 0x0A
    · subst hc
      rw [lfToCrlf, if_pos rfl, splitLines_crlf, splitLines_lf]
      exact List.Forall₂.cons (Or.inl rfl) ih
    · rw [lfToCrlf, if_neg hc]
      have hleft : ¬ (c = Char.ofNat 0x0D ∧ (lfToCrlf cs).head? = some (Char.ofNat 0x0A)) :=
        fun h => head?_lfToCrlf cs h.2
      obtain ⟨l, ls, hl, hsplit⟩ := splitLines_cons_other c (lfToCrlf cs) hc hleft
      rw [hsplit]
      rw [hl] at ih
      by_cases hr : c = Char.ofNat 0x0D ∧ cs.head? = some (Char.ofNat 0x0A)
      · obtain ⟨rfl, hhead⟩ := hr
        cases cs with
        | nil => simp at hhead
        | cons d ds =>
          simp only [List.head?_cons, Option.some.injEq] at hhead
          subst hhead
          rw [splitLines_crlf]
          rw [splitLines_lf] at ih
          rw [lfToCrlf, if_pos rfl, splitLines_crlf] at hl
          obtain ⟨rfl, rfl⟩ := List.cons.inj hl
          cases ih with
          | cons _ htail => exact List.Forall₂.cons (Or.inr (Or.inl rfl)) htail
      · obtain ⟨m, ms, hm, hsplit'⟩ := splitLines_cons_other c cs hc hr
        rw [hsplit']
        rw [hm] at ih
        cases ih with
        | cons hhead htail => exact List.Forall₂.cons (sameUpToCr_cons c hhead) htail

theorem head?_crlfToLf (cs : Str) (h : (crlfToLf cs).head? = some (Char.ofNat 0x0A))
    (hn : cs.head? ≠ some (Char.ofNat 0x0A)) :
    ∃ r, cs = Char.ofNat 0x0D :: Char.ofNat 0x0A :: r := by
  cases cs with
  | nil => simp [crlfToLf] at h
  | cons d ds =>
    by_cases hd : d = Char.ofNat 0x0D ∧ ds.head? = some (Char.ofNat 0x0A)
    · obtain ⟨rfl, hh⟩ := hd
      cases ds with
      | nil => simp at hh
      | cons e es =>
        simp only [List.head?_cons, Option.some.injEq] at hh
        subst hh
        exact ⟨es, rfl⟩
    · rw [crlfToLf, if_neg hd] at h
      exact absurd h hn

theorem splitLines_crlfToLf (s : Str) :
    List.Forall₂ SameUpToCr (splitLines (crlfToLf s)) (splitLines s) := by
  induction s with
  | nil => exact List.Forall₂.cons (Or.inl rfl) List.Forall₂.nil
  | cons c cs ih =>
    by_cases hr : c = Char.ofNat 0x0D ∧ cs.head? = some (Char.ofNat 0x0A)
    · rw [crlfToLf, if_pos hr]
      have : splitLines (c :: cs) = splitLines cs := by
        rw [splitLines, if_neg (by rw [hr.1]; decide), if_pos hr]
      rw [this]
      exact ih
    · rw [crlfToLf, if_neg hr]
      by_cases hc : c = Char.ofNat 0x0A
      · subst hc
        rw [splitLines_lf, splitLines_lf]
        exact List.Forall₂.cons (Or.inl rfl) ih
      · obtain ⟨m, ms, hm, hsplit⟩ := splitLines_cons_other c cs hc hr
        rw [hsplit]
        rw [hm] at ih
        by_cases hl : c = Char.ofNat 0x0D ∧ (crlfToLf cs).head? = some (Char.ofNat 0x0A)
        · obtain ⟨rfl, hhead⟩ := hl
          have hn : cs.head? ≠ some (Char.ofNat 0x0A) := fun h => hr ⟨rfl, h⟩
          obtain ⟨r, rfl⟩ := head?_crlfToLf cs hhead hn
          have e : splitLines (Char.ofNat 0x0D :: crlfToLf (Char.ofNat 0x0D :: Char.ofNat 0x0A :: r))
              = splitLines (crlfToLf (Char.ofNat 0x0D :: Char.ofNat 0x0A :: r)) := by
            rw [splitLines, if_neg (by decide), if_pos ⟨rfl, hhead⟩]
          rw [e]
          rw [splitLines_crlf] at hm
          obtain ⟨rfl, rfl⟩ := List.cons.inj hm
          cases ih with
          | cons hhd htail =>
            refine List.Forall₂.cons ?_ htail
            rcases hhd with h | h | h
            · exact Or.inr (Or.inr (by simp [h]))
            · simp at h
            · exact absurd h (by simp)
        · obtain ⟨l, ls, hl', hsplit'⟩ := splitLines_cons_other c (crlfToLf cs) hc hl
          rw [hsplit']
          rw [hl'] at ih
          cases ih with
          | cons hhead htail => exact List.Forall₂.cons (sameUpToCr_cons c hhead) htail

/-- C19. Replacing every line feed of the input by a carriage return and a
line feed, or every carriage return + line feed by a bare line feed, leaves
the list of segments unchanged. -/
theorem vttToSegments_line_endings (vtt : Str) :
    vttToSegments (lfToCrlf vtt) = vttToSegments vtt ∧
    vttToSegments (crlfToLf vtt) = vttToSegments vtt := by
  unfold vttToSegments
  rw [foldl_step_sameUpToCr (splitLines_lfToCrlf vtt),
    foldl_step_sameUpToCr (splitLines_crlfToLf vtt)]
  exact ⟨rfl, rfl⟩

/-! ## Theorems: the grouping of lines into cues -/

theorem step_skipped (st : ParseState) {l : Str} (ht : isTimingLine l = false)
    (hx : isTextLine l = false) : step st l = st := by
  unfold isTimingLine at ht
  unfold isTextLine at hx
  unfold step
  simp only [ht, hx, Bool.false_eq_true, if_false]

theorem step_buffered (st : ParseState) {l : Str} (ht : isTimingLine l = false)
    (hx : isTextLine l = true) :
    step st l = { st with buf := st.buf ++ [stripTags (trim l)] } := by
  unfold isTimingLine at ht
  unfold isTextLine at hx
  unfold step
  simp only [ht, hx, Bool.false_eq_true, if_false, if_true]

theorem foldl_skipped (ls : List Str) (st : ParseState)
    (h : ∀ l ∈ ls, isTimingLine l = false ∧ isTextLine l = false) :
    ls.foldl step st = st := by
  induction ls with
  | nil => rfl
  | cons l rest ih =>
    rw [List.foldl_cons, step_skipped st (h l (by simp)).1 (h l (by simp)).2]
    exact ih (fun x hx => h x (by simp [hx]))

theorem foldl_body (ls : List Str) (st : ParseState)
    (h : ∀ l ∈ ls, isTimingLine l = false) :
    ls.foldl step st =
      { st with buf := st.buf ++ (ls.filter isTextLine).map (fun l => stripTags (trim l)) } := by
  induction ls generalizing st with
  | nil => simp
  | cons l rest ih =>
    have hrest : ∀ x ∈ rest, isTimingLine x = false := fun x hx => h x (by simp [hx])
    rw [List.foldl_cons]
    by_cases hx : isTextLine l = true
    · rw [step_buffered st (h l (by simp)) hx, ih _ hrest]
      simp [List.filter_cons, hx]
    · have hx' : isTextLine l = false := by simpa using hx
      rw [step_skipped st (h l (by simp)) hx', ih _ hrest]
      simp [List.filter_cons, hx']

theorem foldl_rawCue (st : ParseState) (c : RawCue) (h : IsRawCue c) :
    (c.timing :: c.body).foldl step st =
      ParseState.mk (flushed st) ((cueTextLines c).map (fun l => stripTags (trim l)))
        (toMs (beforeArrow (trim c.timing)))
        (toMs (beforeArrow (afterArrow (trim c.timing)))) := by
  obtain ⟨-, ht, hbody⟩ := h
  rw [List.foldl_cons, step_timing st ht, foldl_body _ _ (fun l hl => (hbody l hl).2)]
  simp [cueTextLines]

theorem flushed_rawCue (segs : List Segment) (c : RawCue) :
    flushed (ParseState.mk segs ((cueTextLines c).map (fun l => stripTags (trim l)))
        (toMs (beforeArrow (trim c.timing)))
        (toMs (beforeArrow (afterArrow (trim c.timing))))) =
      segs ++ (if (cueTextLines c).isEmpty then [] else [cueSegment c]) := by
  unfold flushed
  cases hl : cueTextLines c with
  | nil => simp
  | cons l rest => simp [cueSegment, hl]

theorem flushed_cuesLines (cues : List RawCue) (st : ParseState)
    (h : ∀ c ∈ cues, IsRawCue c) :
    flushed ((cuesLines cues).foldl step st) =
      flushed st ++ (cues.filter (fun c => !(cueTextLines c).isEmpty)).map cueSegment := by
  induction cues generalizing st with
  | nil => simp [cuesLines]
  | cons c rest ih =>
    have hc := h c (by simp)
    have hrest : ∀ x ∈ rest, IsRawCue x := fun x hx => h x (by simp [hx])
    have e : (cuesLines (c :: rest)).foldl step st =
        (cuesLines rest).foldl step ((c.timing :: c.body).foldl step st) := by
      simp only [cuesLines, List.foldl_cons, List.foldl_append]
    rw [e, foldl_rawCue st c hc, ih _ hrest, flushed_rawCue]
    cases hl : (cueTextLines c).isEmpty <;> simp [List.filter_cons, hl]

theorem hasText_textLines (c : RawCue) (h : hasText c = true) :
    (cueTextLines c).isEmpty = false := by
  cases hl : cueTextLines c with
  | nil =>
    have : (cueSegment c).text = [] := by
      unfold cueSegment mkSegment
      rw [hl]
      show trim (collapseWs (joinSpace [])) = []
      decide
    simp [hasText, this] at h
  | cons l rest => rfl

theorem filter_hasText (cues : List RawCue) :
    ((cues.filter (fun c => !(cueTextLines c).isEmpty)).map cueSegment).filter
        (fun s => !s.text.isEmpty) = (cues.filter hasText).map cueSegment := by
  induction cues with
  | nil => rfl
  | cons c rest ih =>
    by_cases ht : hasText c = true
    · have hne := hasText_textLines c ht
      have ht' : (!(cueSegment c).text.isEmpty) = true := ht
      simp only [List.filter_cons, hne, Bool.not_false, if_true, List.map_cons, ht', ht, ih]
    · have ht0 : hasText c = false := by simpa using ht
      have ht' : (!(cueSegment c).text.isEmpty) = false := ht0
      cases hl : (cueTextLines c).isEmpty
      · simp only [List.filter_cons, hl, Bool.not_false, if_true, List.map_cons, ht', ht0,
          Bool.false_eq_true, if_false, ih]
      · simp only [List.filter_cons, hl, Bool.not_true, Bool.false_eq_true, if_false, ht0, ih]

/-- C11, counterexample. Two metadata lines before the only cue give a
segment of their own with both times 0, so one cue gives two segments; and a
comment after the blank line that ends the first cue is part of that cue's
text. -/
theorem vttToSegments_keeps_lines_outside_cues :
    vttToSegments metadataVtt =
      [mkSegment 0 0 ["Kind: captions".toList, "Language: en".toList],
       mkSegment 1000 2000 ["hi".toList]] ∧
    (mkSegment 0 0 ["Kind: captions".toList, "Language: en".toList]).text
      = "Kind: captions Language: en".toList ∧
    vttToSegments commentVtt =
      [mkSegment 1000 2000 ["hi".toList, "NOTE checked".toList],
       mkSegment 3000 4000 ["bye".toList]] ∧
    (mkSegment 1000 2000 ["hi".toList, "NOTE checked".toList]).text
      = "hi NOTE checked".toList := by
  decide

/-- C11, amended. For every input made of lines that the loop passes over
(header, blank and digit-only lines) followed by a sequence of cues, a cue
being a timing line with all the lines up to the next timing line, the
result has one segment per cue with non-empty text, in source order: the
segments are those of the cues with text, each with the times of its timing
line, and their number is the number of such cues. -/
theorem vttToSegments_one_per_cue (skipped : List Str) (cues : List RawCue)
    (hskip : ∀ l ∈ skipped, SkippedLine l) (hcues : ∀ c ∈ cues, IsRawCue c) :
    vttToSegments (joinLines (skipped ++ cuesLines cues))
        = (cues.filter hasText).map cueSegment ∧
    (vttToSegments (joinLines (skipped ++ cuesLines cues))).length
        = (cues.filter hasText).length := by
  have hnl : ∀ l ∈ skipped ++ cuesLines cues, Char.ofNat 0x0A ∉ l := by
    intro l hl
    rcases List.mem_append.1 hl with h | h
    · exact (hskip l h).1
    · clear hl
      induction cues with
      | nil => simp [cuesLines] at h
      | cons c rest ih =>
        simp only [cuesLines, List.mem_cons, List.mem_append] at h
        rcases h with rfl | h | h
        · exact (hcues c (by simp)).1
        · exact ((hcues c (by simp)).2.2 l h).1
        · exact ih (fun x hx => hcues x (by simp [hx])) h
  have main : vttToSegments (joinLines (skipped ++ cuesLines cues))
      = (cues.filter hasText).map cueSegment := by
    unfold vttToSegments
    rw [foldl_step_splitLines _ _ hnl, List.foldl_append,
      foldl_skipped skipped _ (fun l hl => (hskip l hl).2), flushed_cuesLines cues _ hcues]
    have : flushed initState = [] := rfl
    rw [this, List.nil_append]
    exact filter_hasText cues
  exact ⟨main, by rw [main, List.length_map]⟩

/-- Witness for C11: the file with a comment block has two cues, and the
comment belongs to the first. -/
theorem vttToSegments_one_per_cue_witness :
    (vttToSegments (joinLines (["WEBVTT".toList, []] ++ cuesLines commentCues))
        = (commentCues.filter hasText).map cueSegment ∧
      (vttToSegments (joinLines (["WEBVTT".toList, []] ++ cuesLines commentCues))).length
        = (commentCues.filter hasText).length) ∧
    joinLines (["WEBVTT".toList, []] ++ cuesLines commentCues) = commentVtt ∧
    (commentCues.filter hasText).length = 2 :=
  ⟨vttToSegments_one_per_cue ["WEBVTT".toList, []] commentCues (by decide) (by decide),
   by decide, by decide⟩

/-! ## Theorems: the URL requested by `downloadVtt` -/

theorem searchGet_cons (kv : Str × Str) (rest : List (Str × Str)) (k : Str) :
    searchGet (kv :: rest) k = if kv.1 = k then some kv.2 else searchGet rest k := by
  unfold searchGet
  by_cases h : kv.1 = k
  · simp [List.find?_cons, h]
  · simp [List.find?_cons, h]

theorem searchGet_filter_ne (ps : List (Str × Str)) (k k' : Str) (h : k' ≠ k) :
    searchGet (ps.filter (fun x => x.1 ≠ k)) k' = searchGet ps k' := by
  induction ps with
  | nil => rfl
  | cons kv rest ih =>
    by_cases hk : kv.1 = k
    · have hk' : kv.1 ≠ k' := fun e => h (e.symm.trans hk)
      rw [List.filter_cons, if_neg (by simpa using hk), ih, searchGet_cons, if_neg hk']
    · rw [List.filter_cons, if_pos (by simpa using hk), searchGet_cons, searchGet_cons, ih]

theorem searchGet_searchSet_same (ps : List (Str × Str)) (k v : Str) :
    searchGet (searchSet ps k v) k = some v := by
  induction ps with
  | nil => simp [searchSet, searchGet_cons, searchGet]
  | cons kv rest ih =>
    unfold searchSet
    by_cases hk : kv.1 = k
    · rw [if_pos hk, searchGet_cons, if_pos rfl]
    · rw [if_neg hk, searchGet_cons, if_neg hk, ih]

theorem searchGet_searchSet_other (ps : List (Str × Str)) (k v k' : Str) (h : k' ≠ k) :
    searchGet (searchSet ps k v) k' = searchGet ps k' := by
  induction ps with
  | nil =>
    rw [searchSet, searchGet_cons, if_neg (fun e : k = k' => h e.symm)]
  | cons kv rest ih =>
    unfold searchSet
    by_cases hk : kv.1 = k
    · have hk' : kv.1 ≠ k' := fun e => h (e.symm.trans hk)
      rw [if_pos hk, searchGet_cons, if_neg (fun e : k = k' => h e.symm),
        searchGet_filter_ne _ _ _ h, searchGet_cons, if_neg hk']
    · rw [if_neg hk, searchGet_cons, searchGet_cons, ih]

theorem filter_searchSet (ps : List (Str × Str)) (k v : Str) (p : Str → Bool)
    (hp : p k = false) :
    (searchSet ps k v).filter (fun kv => p kv.1) = ps.filter (fun kv => p kv.1) := by
  induction ps with
  | nil => simp [searchSet, hp]
  | cons kv rest ih =>
    unfold searchSet
    by_cases hk : kv.1 = k
    · have hkv : p kv.1 = false := by rw [hk]; exact hp
      rw [if_pos hk, List.filter_cons, List.filter_cons]
      simp only [hp, hkv, Bool.false_eq_true, if_false, List.filter_filter]
      apply List.filter_congr
      intro x _
      by_cases hx : x.1 = k
      · simp [hx, hp]
      · simp [hx]
    · rw [if_neg hk, List.filter_cons, List.filter_cons, ih]

theorem searchGet_none_of_not_has (ps : List (Str × Str)) (k : Str)
    (h : searchHas ps k = false) : searchGet ps k = none := by
  induction ps with
  | nil => rfl
  | cons kv rest ih =>
    simp only [searchHas, List.any_cons, Bool.or_eq_false_iff, beq_eq_false_iff_ne] at h
    rw [searchGet_cons, if_neg h.1]
    exact ih h.2

theorem searchGet_some_of_has (ps : List (Str × Str)) (k : Str)
    (h : searchHas ps k = true) : ∃ v, searchGet ps k = some v := by
  induction ps with
  | nil => simp [searchHas] at h
  | cons kv rest ih =>
    by_cases hk : kv.1 = k
    · exact ⟨kv.2, by rw [searchGet_cons, if_pos hk]⟩
    · simp only [searchHas, List.any_cons, Bool.or_eq_true, beq_iff_eq] at h
      rcases h with h | h
      · exact absurd h hk
      · obtain ⟨v, hv⟩ := ih h
        exact ⟨v, by rw [searchGet_cons, if_neg hk, hv]⟩

/-- The query after the first update of `downloadVtt`. -/
theorem requestedUrl_params (u : URL) (tlang : Str) :
    (requestedUrl u tlang).searchParams =
      (let ps1 := if searchHas u.searchParams "fmt".toList then u.searchParams
          else searchSet u.searchParams "fmt".toList "vtt".toList
       if tlang ≠ [] then searchSet ps1 "tlang".toList tlang else ps1) ∧
    (requestedUrl u tlang).hostname = u.hostname ∧
    (requestedUrl u tlang).pathname = u.pathname := by
  unfold requestedUrl
  split_ifs <;> exact ⟨rfl, rfl, rfl⟩

theorem otherParams_searchSet (ps : List (Str × Str)) (k v : Str)
    (hk : k = "fmt".toList ∨ k = "tlang".toList) :
    otherParams (searchSet ps k v) = otherParams ps := by
  unfold otherParams
  exact filter_searchSet ps k v
    (fun k => decide (k ≠ "fmt".toList ∧ k ≠ "tlang".toList))
    (by rcases hk with rfl | rfl <;> decide)

/-- C17. The URL that `downloadVtt` requests has `fmt` equal to the base URL's
own first `fmt` value when it has one and to `vtt` otherwise, all `fmt` pairs
of the base URL being kept; it has `tlang` equal to the target when a
non-empty target is supplied, and all pairs but `fmt` as in the base URL when
none is; the pairs named otherwise, the host and the path are those of the
base URL. -/
theorem downloadVtt_requested_url (u : URL) (tlang : Str) :
    searchGet (requestedUrl u tlang).searchParams "fmt".toList
      = some ((searchGet u.searchParams "fmt".toList).getD "vtt".toList) ∧
    (searchHas u.searchParams "fmt".toList = true →
      (requestedUrl u tlang).searchParams.filter (fun kv => kv.1 == "fmt".toList)
        = u.searchParams.filter (fun kv => kv.1 == "fmt".toList)) ∧
    (tlang ≠ [] → searchGet (requestedUrl u tlang).searchParams "tlang".toList = some tlang) ∧
    (tlang = [] →
      (requestedUrl u tlang).searchParams.filter (fun kv => kv.1 != "fmt".toList)
        = u.searchParams.filter (fun kv => kv.1 != "fmt".toList)) ∧
    otherParams (requestedUrl u tlang).searchParams = otherParams u.searchParams ∧
    (requestedUrl u tlang).hostname = u.hostname ∧
    (requestedUrl u tlang).pathname = u.pathname := by
  obtain ⟨hps, hhost, hpath⟩ := requestedUrl_params u tlang
  have hne : "fmt".toList ≠ "tlang".toList := by decide
  refine ⟨?_, ?_, ?_, ?_, ?_, hhost, hpath⟩
  · rw [hps]
    by_cases hf : searchHas u.searchParams "fmt".toList = true
    · obtain ⟨v, hv⟩ := searchGet_some_of_has _ _ hf
      by_cases ht : tlang = []
      · simp only [hf, if_true, ne_eq, ht, not_true_eq_false, if_false]
        rw [hv]
        rfl
      · simp only [hf, if_true, ne_eq, ht, not_false_eq_true]
        rw [searchGet_searchSet_other _ _ _ _ hne, hv]
        rfl
    · have hf' : searchHas u.searchParams "fmt".toList = false := by simpa using hf
      rw [searchGet_none_of_not_has _ _ hf']
      by_cases ht : tlang = []
      · simp only [hf', Bool.false_eq_true, if_false, ne_eq, ht, not_true_eq_false]
        rw [searchGet_searchSet_same]
        rfl
      · simp only [hf', Bool.false_eq_true, if_false, ne_eq, ht, not_false_eq_true, if_true]
        rw [searchGet_searchSet_other _ _ _ _ hne, searchGet_searchSet_same]
        rfl
  · intro hf
    rw [hps]
    by_cases ht : tlang = []
    · simp only [hf, if_true, ne_eq, ht, not_true_eq_false, if_false]
    · simp only [hf, if_true, ne_eq, ht, not_false_eq_true]
      exact filter_searchSet _ _ _ (fun k => k == "fmt".toList) (by decide)
  · intro ht
    rw [hps]
    simp only [ne_eq, ht, not_false_eq_true, if_true]
    exact searchGet_searchSet_same _ _ _
  · intro ht
    rw [hps]
    by_cases hf : searchHas u.searchParams "fmt".toList = true
    · simp only [hf, if_true, ne_eq, ht, not_true_eq_false, if_false]
    · have hf' : searchHas u.searchParams "fmt".toList = false := by simpa using hf
      simp only [hf', Bool.false_eq_true, if_false, ne_eq, ht, not_true_eq_false]
      exact filter_searchSet _ _ _ (fun k => k != "fmt".toList) (by decide)
  · rw [hps]
    by_cases hf : searchHas u.searchParams "fmt".toList = true <;>
      by_cases ht : tlang = []
    · simp only [hf, if_true, ne_eq, ht, not_true_eq_false, if_false]
    · simp only [hf, if_true, ne_eq, ht, not_false_eq_true]
      exact otherParams_searchSet _ _ _ (Or.inr rfl)
    · have hf' : searchHas u.searchParams "fmt".toList = false := by simpa using hf
      simp only [hf', Bool.false_eq_true, if_false, ne_eq, ht, not_true_eq_false]
      exact otherParams_searchSet _ _ _ (Or.inl rfl)
    · have hf' : searchHas u.searchParams "fmt".toList = false := by simpa using hf
      simp only [hf', Bool.false_eq_true, if_false, ne_eq, ht, not_false_eq_true, if_true]
      rw [otherParams_searchSet _ _ _ (Or.inr rfl), otherParams_searchSet _ _ _ (Or.inl rfl)]

/-- Witness for C17: a base URL with the format `srv3` and two `tlang` pairs,
requested with the target `it`. -/
theorem downloadVtt_requested_url_witness :
    searchGet (requestedUrl sampleBaseUrl "it".toList).searchParams "fmt".toList
      = some "srv3".toList ∧
    searchGet (requestedUrl sampleBaseUrl "it".toList).searchParams "tlang".toList
      = some "it".toList ∧
    otherParams (requestedUrl sampleBaseUrl "it".toList).searchParams
      = [("v".toList, "abc".toList), ("sig".toList, "x".toList)] :=
  ⟨(downloadVtt_requested_url sampleBaseUrl "it".toList).1.trans (by decide),
   (downloadVtt_requested_url sampleBaseUrl "it".toList).2.2.1 (by decide),
   (downloadVtt_requested_url sampleBaseUrl "it".toList).2.2.2.2.1.trans (by decide)⟩

/-! ## Theorems: the responses of `handler` -/

theorem tryBlock_no_captions (P : Runtime) (req : Request) (u : URL) (videoId apiKey : Str)
    (player : Option (List Track))
    (hu : P.parseURL req.url = some u)
    (hid : extractVideoId P.parseURL (searchGet u.searchParams "url".toList) = .ok videoId)
    (hkey : fetchInnerTubeKey P videoId = .ok apiKey)
    (hplayer : getPlayer P videoId apiKey = .ok player)
    (hnone : player = none ∨ player = some []) :
    tryBlock P req =
      ([.extractVideoId, .fetchInnerTubeKey, .getPlayer], .ok (err errNoCaptions 404)) := by
  unfold tryBlock
  simp only [hu, hid, hkey, hplayer]
  rcases hnone with rfl | rfl <;> rfl

theorem handler_of_ok (P : Runtime) (req : Request) (hm : req.method ≠ "OPTIONS".toList)
    (calls : List Call) (r : Response) (h : tryBlock P req = (calls, .ok r)) :
    handler P req = (calls, r) := by
  unfold handler
  rw [if_neg hm, h]

theorem handler_of_error (P : Runtime) (req : Request) (hm : req.method ≠ "OPTIONS".toList)
    (calls : List Call) (m : Str) (h : tryBlock P req = (calls, .error m)) :
    handler P req = (calls, caught m) := by
  unfold handler
  rw [if_neg hm, h]

/-- C15. For a request that is not `OPTIONS`, whose URL is parsed, whose video
id is extracted and whose key lookup and player call succeed, when the player
response has no caption track list or an empty one, `handler` responds with
status 404 and the body `{error: "El video no expone subtítulos"}`, having
called neither `chooseTrack` nor `downloadVtt`; the outcome does not depend
on what a subtitle download would give. -/
theorem handler_no_captions (P : Runtime) (req : Request) (u : URL) (videoId apiKey : Str)
    (player : Option (List Track))
    (hm : req.method ≠ "OPTIONS".toList)
    (hu : P.parseURL req.url = some u)
    (hid : extractVideoId P.parseURL (searchGet u.searchParams "url".toList) = .ok videoId)
    (hkey : fetchInnerTubeKey P videoId = .ok apiKey)
    (hplayer : getPlayer P videoId apiKey = .ok player)
    (hnone : player = none ∨ player = some []) :
    (handler P req).2.status = 404 ∧
    (handler P req).2.body = Body.error "El video no expone subtítulos".toList ∧
    (handler P req).2 = err errNoCaptions 404 ∧
    (handler P req).1 = [Call.extractVideoId, Call.fetchInnerTubeKey, Call.getPlayer] ∧
    Call.chooseTrack ∉ (handler P req).1 ∧ Call.downloadVtt ∉ (handler P req).1 ∧
    ∀ f : URL → Except Str (Fetched Str),
      handler { P with fetchVtt := f } req = handler P req := by
  have h := handler_of_ok P req hm _ _
    (tryBlock_no_captions P req u videoId apiKey player hu hid hkey hplayer hnone)
  have h' : ∀ f : URL → Except Str (Fetched Str),
      handler { P with fetchVtt := f } req = handler P req := by
    intro f
    rw [h]
    exact handler_of_ok { P with fetchVtt := f } req hm _ _
      (tryBlock_no_captions { P with fetchVtt := f } req u videoId apiKey player hu hid hkey
        hplayer hnone)
  refine ⟨?_, ?_, ?_, ?_, ?_, ?_, h'⟩ <;> rw [h] <;> first | rfl | decide

/-- Witness for C15: the player response of the sample runtime has no caption
track list. -/
theorem handler_no_captions_witness :
    (handler (sampleRuntime 200 none []) sampleRequest).2.status = 404 ∧
    (handler (sampleRuntime 200 none []) sampleRequest).2.body
      = Body.error "El video no expone subtítulos".toList :=
  have h := handler_no_captions (sampleRuntime 200 none []) sampleRequest
    { hostname := "app.example.com".toList, pathname := "/api/transcript".toList,
      searchParams := [("url".toList, "dQw4w9WgXcQ".toList), ("langs".toList, "EN".toList)] }
    "dQw4w9WgXcQ".toList "AIzaKey".toList none (by decide) (by decide) (by rfl) (by rfl)
    (by rfl) (Or.inl rfl)
  ⟨h.1, h.2.1⟩

theorem tryBlock_ok_status (P : Runtime) (req : Request) (calls : List Call) (r : Response)
    (h : tryBlock P req = (calls, .ok r)) : r.status = 200 ∨ r.status = 404 := by
  unfold tryBlock at h
  cases hu : P.parseURL req.url with
  | none =>
    simp only [hu] at h
    simp at h
  | some u =>
    simp only [hu] at h
    cases hid : extractVideoId P.parseURL (searchGet u.searchParams "url".toList) with
    | error m =>
      simp only [hid] at h
      simp at h
    | ok videoId =>
      simp only [hid] at h
      cases hkey : fetchInnerTubeKey P videoId with
      | error m =>
        simp only [hkey] at h
        simp at h
      | ok apiKey =>
        simp only [hkey] at h
        cases hp : getPlayer P videoId apiKey with
        | error m =>
          simp only [hp] at h
          simp at h
        | ok player =>
          simp only [hp] at h
          by_cases hemp : (player.getD []).isEmpty = true
          · rw [if_pos hemp] at h
            simp only [Prod.mk.injEq, Except.ok.injEq] at h
            rw [← h.2]
            exact Or.inr rfl
          · rw [if_neg hemp] at h
            cases hbest : chooseTrack (player.getD [])
                (requestLangs (searchGet u.searchParams "langs".toList)) with
            | none =>
              simp only [hbest] at h
              simp at h
            | some best =>
              simp only [hbest] at h
              cases hdl : downloadVtt P best.baseUrl
                  ((searchGet u.searchParams "tlang".toList).getD []) with
              | error m =>
                simp only [hdl] at h
                simp at h
              | ok vtt =>
                simp only [hdl, Prod.mk.injEq, Except.ok.injEq] at h
                rw [← h.2]
                exact Or.inl rfl

theorem getPlayer_not_ok (P : Runtime) (videoId apiKey : Str)
    (r : Fetched (Option (List Track)))
    (hr : P.fetchPlayer ("https://www.youtube.com/youtubei/v1/player?key=".toList ++ apiKey)
      videoId = .ok r)
    (hok : r.ok = false) :
    getPlayer P videoId apiKey = .error ("player ".toList ++ (Nat.repr r.status).toList) := by
  unfold getPlayer
  rw [hr]
  simp only [hok, Bool.false_eq_true, if_false]

/-- C16. For a request that is not `OPTIONS`, `handler` always returns a
response, with status 200, 404 or 500. When `new URL(req.url)`, the id
extraction, the key lookup, the player call or the subtitle download throws
an error with message `m`, the response is the one of the `catch` clause:
status 500 and body `{error: m}`, or `{error: "Error inesperado"}` when `m` is
empty. When the player endpoint answers with a status `s` outside 200-299,
the response has status 500 and the message `player s`. -/
theorem handler_catches (P : Runtime) (req : Request) (hm : req.method ≠ "OPTIONS".toList) :
    ((handler P req).2.status = 200 ∨ (handler P req).2.status = 404 ∨
      (handler P req).2.status = 500) ∧
    (∀ m, (caught m).status = 500 ∧
      (caught m).body = Body.error (if m = [] then "Error inesperado".toList else m)) ∧
    (P.parseURL req.url = none → (handler P req).2 = caught P.urlError) ∧
    (∀ u, P.parseURL req.url = some u →
      (∀ m, extractVideoId P.parseURL (searchGet u.searchParams "url".toList) = .error m →
        (handler P req).2 = caught m) ∧
      (∀ videoId, extractVideoId P.parseURL (searchGet u.searchParams "url".toList)
          = .ok videoId →
        (∀ m, fetchInnerTubeKey P videoId = .error m → (handler P req).2 = caught m) ∧
        (∀ apiKey, fetchInnerTubeKey P videoId = .ok apiKey →
          (∀ m, getPlayer P videoId apiKey = .error m → (handler P req).2 = caught m) ∧
          (∀ r, P.fetchPlayer
              ("https://www.youtube.com/youtubei/v1/player?key=".toList ++ apiKey) videoId
              = .ok r → r.ok = false →
            (handler P req).2.status = 500 ∧
            (handler P req).2.body
              = Body.error ("player ".toList ++ (Nat.repr r.status).toList)) ∧
          (∀ tracks best m, getPlayer P videoId apiKey = .ok (some tracks) → tracks ≠ [] →
            chooseTrack tracks (requestLangs (searchGet u.searchParams "langs".toList))
              = some best →
            downloadVtt P best.baseUrl ((searchGet u.searchParams "tlang".toList).getD [])
              = .error m →
            (handler P req).2 = caught m)))) := by
  have hcaught : ∀ calls m, tryBlock P req = (calls, .error m) →
      (handler P req).2 = caught m := by
    intro calls m h
    rw [handler_of_error P req hm calls m h]
  refine ⟨?_, fun m => ⟨rfl, rfl⟩, ?_, ?_⟩
  · cases h : tryBlock P req with
    | mk calls r =>
      cases r with
      | ok resp =>
        rw [handler_of_ok P req hm calls resp h]
        rcases tryBlock_ok_status P req calls resp h with h1 | h1
        · exact Or.inl h1
        · exact Or.inr (Or.inl h1)
      | error m =>
        rw [handler_of_error P req hm calls m h]
        exact Or.inr (Or.inr rfl)
  · intro hu
    apply hcaught []
    unfold tryBlock
    simp only [hu]
  · intro u hu
    refine ⟨?_, ?_⟩
    · intro m hid
      apply hcaught [Call.extractVideoId]
      unfold tryBlock
      simp only [hu, hid]
    · intro videoId hid
      refine ⟨?_, ?_⟩
      · intro m hkey
        apply hcaught [Call.extractVideoId, Call.fetchInnerTubeKey]
        unfold tryBlock
        simp only [hu, hid, hkey]
      · intro apiKey hkey
        have hplayer : ∀ m, getPlayer P videoId apiKey = .error m →
            (handler P req).2 = caught m := by
          intro m hp
          apply hcaught [Call.extractVideoId, Call.fetchInnerTubeKey, Call.getPlayer]
          unfold tryBlock
          simp only [hu, hid, hkey, hp]
        refine ⟨hplayer, ?_, ?_⟩
        · intro r hr hok
          rw [hplayer _ (getPlayer_not_ok P videoId apiKey r hr hok)]
          exact ⟨rfl, rfl⟩
        · intro tracks best m hp hne hbest hdl
          apply hcaught [Call.extractVideoId, Call.fetchInnerTubeKey, Call.getPlayer,
            Call.chooseTrack, Call.downloadVtt]
          unfold tryBlock
          have hemp : tracks.isEmpty = false := by
            cases tracks with
            | nil => exact absurd rfl hne
            | cons t ts => rfl
          simp only [hu, hid, hkey, hp, Option.getD_some, hemp, Bool.false_eq_true, if_false,
            hbest, hdl]

/-- Witness for C16: the player endpoint of the sample runtime answers with
status 503. -/
theorem handler_catches_witness :
    (handler (sampleRuntime 503 (some [enManual]) []) sampleRequest).2.status = 500 ∧
    (handler (sampleRuntime 503 (some [enManual]) []) sampleRequest).2.body
      = Body.error "player 503".toList :=
  ((((handler_catches (sampleRuntime 503 (some [enManual]) []) sampleRequest
    (by decide)).2.2.2
    { hostname := "app.example.com".toList, pathname := "/api/transcript".toList,
      searchParams := [("url".toList, "dQw4w9WgXcQ".toList), ("langs".toList, "EN".toList)] }
    (by decide)).2 "dQw4w9WgXcQ".toList (by rfl)).2 "AIzaKey".toList (by rfl)).2.1
    { status := 503, body := .ok (some [enManual]) } (by rfl) (by decide)

end Transcript
